import Mathlib

/-!
Areen Blockchain frontend: a shallow embedding of `frontend/src`.

The repository holds the React presentation layer of a blockchain demo.  This
file embeds the request layer (`utils/api.js`, `utils/constant.js`) and the event
handlers of the components (`App.js`, `components/*.js`) as pure Lean
functions, and proves properties of them.

Conventions of the embedding.

* Network access is explicit: `fetch` is an argument of type
  `Request → FetchOutcome`, and every function that performs requests returns
  the list of requests it issued next to its result.
* React state is a structure; a handler maps the state at entry to the state
  after all its `set…` calls.
* A rejected promise / thrown error is `Except.error`.
* `console.log` / `console.error` calls have no effect on any value and are
  left out.
* Rendering is a function from props and state to the texts shown; a render
  that throws is `Except.error`.
* The ledger engine behind the endpoints (chain, Merkle tree, miner,
  validation) is not among the sources; it is modelled from the spec in a
  section of its own, with the digest function as a parameter.
-/

namespace AreenBlockchain

/-! ## JavaScript values -/

/-- JSON-like JavaScript values.  Numbers are the integers (counts, indices,
status codes); `undefined` is the result of reading an absent property. -/
inductive JsVal where
  | undefined
  | null
  | bool (b : Bool)
  | num (n : Int)
  | str (s : String)
  | arr (items : List JsVal)
  | obj (fields : List (String × JsVal))

/-- A plain JavaScript object: its own properties in insertion order. -/
abbrev JsObject := List (String × JsVal)

/-- Property read `o.key` on an object: the value, or `undefined`. -/
def JsObject.get (o : JsObject) (key : String) : JsVal :=
  match o.find? (fun kv => kv.1 == key) with
  | some kv => kv.2
  | none => JsVal.undefined

/-- Optional chaining `v?.key`: `undefined` on `null` / `undefined`, the
property on an object, `undefined` on the other values (which carry none of the
properties read in this program). -/
def JsVal.optGet (v : JsVal) (key : String) : JsVal :=
  match v with
  | JsVal.obj fields => JsObject.get fields key
  | _ => JsVal.undefined

/-- JavaScript truthiness (`ToBoolean`). -/
def JsVal.truthy (v : JsVal) : Bool :=
  match v with
  | JsVal.undefined => false
  | JsVal.null => false
  | JsVal.bool b => b
  | JsVal.num n => n != 0
  | JsVal.str s => s != ""
  | JsVal.arr _ => true
  | JsVal.obj _ => true

/-- Strict equality with the number zero, `v === 0`. -/
def JsVal.strictEqZero (v : JsVal) : Bool :=
  match v with
  | JsVal.num n => n == 0
  | _ => false

mutual
/-- The string a template literal inserts for a value (`ToString`): arrays
join their items with commas, `null` and `undefined` items giving the empty
string; every plain object gives `[object Object]`. -/
def jsToString : JsVal → String
  | JsVal.undefined => "undefined"
  | JsVal.null => "null"
  | JsVal.bool b => if b then "true" else "false"
  | JsVal.num n => toString n
  | JsVal.str s => s
  | JsVal.arr items => jsJoin items
  | JsVal.obj _ => "[object Object]"
/-- The method `Array.prototype.join` with the separator `,`. -/
def jsJoin : List JsVal → String
  | [] => ""
  | [JsVal.undefined] => ""
  | [JsVal.null] => ""
  | [v] => jsToString v
  | JsVal.undefined :: rest => "," ++ jsJoin rest
  | JsVal.null :: rest => "," ++ jsJoin rest
  | v :: rest => jsToString v ++ "," ++ jsJoin rest
end

/-- Object spread of `a` and then `b`: the keys of `a` in order (with the value of
`b` where `b` has the key too), then the keys only `b` has. -/
def objSpread {α : Type} (a b : List (String × α)) : List (String × α) :=
  a.map (fun kv =>
    match b.find? (fun kw => kw.1 == kv.1) with
    | some kw => (kv.1, kw.2)
    | none => kv)
  ++ b.filter (fun kw => !(a.any (fun kv => kv.1 == kw.1)))

/-! ## Strings -/

/-- White space and line terminators, the characters `String.prototype.trim`
removes. -/
def isJsWhitespace (c : Char) : Bool :=
  let n := c.toNat
  (0x09 ≤ n && n ≤ 0x0D) || n == 0x20 || n == 0xA0 || n == 0x1680 ||
  (0x2000 ≤ n && n ≤ 0x200A) || n == 0x2028 || n == 0x2029 || n == 0x202F ||
  n == 0x205F || n == 0x3000 || n == 0xFEFF

/-- The method `String.prototype.trim`. -/
def jsTrim (s : String) : String :=
  String.mk ((s.data.dropWhile isJsWhitespace).reverse.dropWhile isJsWhitespace).reverse

/-- The method `String.prototype.includes`. -/
def jsIncludes (s needle : String) : Bool :=
  s.data.tails.any (fun t => needle.data.isPrefixOf t)

/-- One hexadecimal digit. -/
def hexDigit (upper : Bool) (n : Nat) : Char :=
  if n < 10 then Char.ofNat (48 + n)
  else if upper then Char.ofNat (55 + n) else Char.ofNat (87 + n)

/-- Characters `encodeURIComponent` leaves as they are: ASCII letters, digits
and the marks `- _ . ! ~ * ' ( )`. -/
def isUriUnreserved (c : Char) : Bool :=
  c.isAlphanum || "-_.!~*()".data.contains c || c.toNat == 39

/-- The function `encodeURIComponent`: every other character becomes the
`%XX` escapes of its UTF-8 bytes. -/
def encodeURIComponent (s : String) : String :=
  String.mk (s.data.flatMap (fun c =>
    if isUriUnreserved c then [c]
    else (String.utf8EncodeChar c).flatMap (fun b =>
      ['%', hexDigit true (b.toNat / 16), hexDigit true (b.toNat % 16)])))

/-- The escape `JSON.stringify` applies to one character of a string. -/
def jsonQuoteChar (c : Char) : List Char :=
  let n := c.toNat
  if n == 0x08 then "\\b".data
  else if n == 0x09 then "\\t".data
  else if n == 0x0A then "\\n".data
  else if n == 0x0C then "\\f".data
  else if n == 0x0D then "\\r".data
  else if n == 0x22 then "\\\"".data
  else if n == 0x5C then "\\\\".data
  else if n < 0x20 then "\\u00".data ++ [hexDigit false (n / 16), hexDigit false (n % 16)]
  else [c]

/-- The text `JSON.stringify(s)` for a string `s`. -/
def jsonQuote (s : String) : String :=
  "\"" ++ String.mk (s.data.flatMap jsonQuoteChar) ++ "\""

/-- The text of `JSON.stringify` for an object with the one key `key`, holding
the string `s`. -/
def jsonStringifyStrField (key s : String) : String :=
  "\x7b" ++ jsonQuote key ++ ":" ++ jsonQuote s ++ "\x7d"

/-- The text of `JSON.stringify` for an object with the one key `key`, holding
the integer `n`. -/
def jsonStringifyNumField (key : String) (n : Int) : String :=
  "\x7b" ++ jsonQuote key ++ ":" ++ toString n ++ "\x7d"

/-! ## `utils/constant.js` -/

/-- `API_BASE_URL = process.env.REACT_APP_API_URL || 'http://localhost:8080/api'`;
the environment variable is an argument (`none` when unset). -/
def API_BASE_URL (envUrl : Option String) : String :=
  match envUrl with
  | some u => if u != "" then u else "http://localhost:8080/api"
  | none => "http://localhost:8080/api"

/-- The constant `DEFAULT_HEADERS`. -/
def DEFAULT_HEADERS : List (String × String) :=
  [("Content-Type", "application/json"), ("Accept", "application/json")]

/-! ## `utils/api.js`: requests and errors -/

/-- The `options` argument of `apiCall` (and of `fetch`): the keys this
program sets. -/
structure RequestInit where
  method : Option String
  body : Option String
  headers : Option (List (String × String))
deriving DecidableEq, Repr

/-- No options: the default value of the parameter `options`. -/
def RequestInit.empty : RequestInit := ⟨none, none, none⟩

/-- What `fetch(url, config)` receives. -/
structure Request where
  url : String
  headers : List (String × String)
  method : Option String
  body : Option String
deriving DecidableEq, Repr

/-- The method under which a request goes out: `config.method`, and `GET`
when the config names none. -/
def Request.effectiveMethod (r : Request) : String :=
  r.method.getD "GET"

/-- An `Error` instance as the runtime or `new Error(...)` produces it: `fetch`
rejects with a `TypeError` or an `AbortError`, `response.json()` with a
`SyntaxError`; each carries a `name` and a string `message`. -/
structure JsError where
  name : String
  message : String
deriving DecidableEq, Repr

/-- Property read `v.key`, for a key that no built-in prototype defines: a
`TypeError` on `null` and `undefined`, the own property on an object, and
`undefined` on every other value. -/
def propGet (v : JsVal) (key : String) : Except JsError JsVal :=
  match v with
  | JsVal.undefined =>
    Except.error ⟨"TypeError",
      "Cannot read properties of undefined (reading \x27" ++ key ++ "\x27)"⟩
  | JsVal.null =>
    Except.error ⟨"TypeError", "Cannot read properties of null (reading \x27" ++ key ++ "\x27)"⟩
  | JsVal.obj fields => Except.ok (JsObject.get fields key)
  | _ => Except.ok JsVal.undefined

/-- The class `APIError extends Error`. -/
structure APIError where
  name : String
  message : String
  endpoint : String
  originalError : JsError
deriving DecidableEq, Repr

/-- The constructor `new APIError(message, endpoint, originalError)`. -/
def APIError.new (message endpoint : String) (originalError : JsError) : APIError :=
  ⟨"APIError", message, endpoint, originalError⟩

/-- The part of a `Response` that `apiCall` reads; `json` is the outcome of
`response.json()`: the JSON value of the body, which may be any value, `null`
included, or the error of a body that does not parse. -/
structure Response where
  ok : Bool
  status : Nat
  statusText : String
  json : Except JsError JsVal

/-- How the promise returned by `fetch` settles. -/
inductive FetchOutcome where
  | rejected (error : JsError)
  | resolved (response : Response)

/-- The request `apiCall(endpoint, options)` passes to `fetch`:
`url = API_BASE_URL + endpoint` and
the config holds `headers`, the spread of `DEFAULT_HEADERS` and then of
`options.headers`, followed by the spread of `options` (so a `headers` key of
`options` replaces the merged headers, as the spread of `options` comes
last). -/
def apiRequest (envUrl : Option String) (endpoint : String) (options : RequestInit) : Request :=
  let url := API_BASE_URL envUrl ++ endpoint
  let merged := objSpread DEFAULT_HEADERS (options.headers.getD [])
  let headers := match options.headers with
    | some h => h
    | none => merged
  ⟨url, headers, options.method, options.body⟩

/-- The result of an `apiCall`: the value returned, which is whatever JSON
value the body holds, or the `APIError` thrown. -/
abbrev ApiResult := Except APIError JsVal

/-- The function `apiCall`, given how `fetch` answers. -/
def apiCall (fetch : Request → FetchOutcome) (envUrl : Option String)
    (endpoint : String) (options : RequestInit) : ApiResult :=
  match fetch (apiRequest envUrl endpoint options) with
  | FetchOutcome.rejected error => Except.error (APIError.new error.message endpoint error)
  | FetchOutcome.resolved response =>
    if !response.ok then
      let error : JsError :=
        ⟨"Error", "HTTP " ++ toString response.status ++ ": " ++ response.statusText⟩
      Except.error (APIError.new error.message endpoint error)
    else
      match response.json with
      | Except.error error => Except.error (APIError.new error.message endpoint error)
      | Except.ok data => Except.ok data

/-- A call of an API function: its result and the requests it sent, in order. -/
structure ApiRun where
  result : ApiResult
  requests : List Request

/-- One `apiCall` as a run: it calls `fetch` exactly once. -/
def apiCallRun (fetch : Request → FetchOutcome) (envUrl : Option String)
    (endpoint : String) (options : RequestInit) : ApiRun :=
  ⟨apiCall fetch envUrl endpoint options, [apiRequest envUrl endpoint options]⟩

/-- The wrapper `getBlockchain`. -/
def getBlockchain (fetch : Request → FetchOutcome) (envUrl : Option String) : ApiRun :=
  apiCallRun fetch envUrl "/blockchain" RequestInit.empty

/-- The wrapper `addTransaction`. -/
def addTransaction (fetch : Request → FetchOutcome) (envUrl : Option String)
    (data : String) : ApiRun :=
  apiCallRun fetch envUrl "/transaction"
    ⟨some "POST", some (jsonStringifyStrField "data" data), none⟩

/-- The wrapper `mineBlock`. -/
def mineBlock (fetch : Request → FetchOutcome) (envUrl : Option String) : ApiRun :=
  apiCallRun fetch envUrl "/mine" ⟨some "POST", none, none⟩

/-- The wrapper `searchData`. -/
def searchData (fetch : Request → FetchOutcome) (envUrl : Option String)
    (query : String) : ApiRun :=
  apiCallRun fetch envUrl ("/search?q=" ++ encodeURIComponent query) RequestInit.empty

/-- The wrapper `validateChain`. -/
def validateChain (fetch : Request → FetchOutcome) (envUrl : Option String) : ApiRun :=
  apiCallRun fetch envUrl "/validate" RequestInit.empty

/-- The wrapper `getStats`. -/
def getStats (fetch : Request → FetchOutcome) (envUrl : Option String) : ApiRun :=
  apiCallRun fetch envUrl "/stats" RequestInit.empty

/-- The wrapper `setDifficulty`. -/
def setDifficulty (fetch : Request → FetchOutcome) (envUrl : Option String)
    (difficulty : Int) : ApiRun :=
  apiCallRun fetch envUrl "/difficulty"
    ⟨some "POST", some (jsonStringifyNumField "difficulty" difficulty), none⟩

/-- The function `getErrorMessage` receives any thrown value: an `APIError`,
or another object whose `message` may be absent. -/
inductive Thrown where
  | apiError (error : APIError)
  | other (message : Option String)

/-- The property `error.message` of a thrown value. -/
def Thrown.message (t : Thrown) : Option String :=
  match t with
  | Thrown.apiError error => some error.message
  | Thrown.other message => message

/-- The function `getErrorMessage`. -/
def getErrorMessage (error : Thrown) : String :=
  let fallback : String :=
    match error.message with
    | some m => if m != "" then m else "An unexpected error occurred."
    | none => "An unexpected error occurred."
  match error with
  | Thrown.apiError e =>
    if jsIncludes e.message "fetch" then
      "Unable to connect to the blockchain server. Please ensure the backend is running on port 8080."
    else if jsIncludes e.message "400" then
      "Invalid request. Please check your input and try again."
    else if jsIncludes e.message "500" then
      "Server error. Please try again later."
    else fallback
  | Thrown.other _ => fallback

/-! ## `utils/api.js`: `retryApiCall` -/

/-- How an `async` function ends: with `return value`, by running off its
end (the promise resolves to `undefined`), or with a thrown error. -/
inductive Completion (α ε : Type) where
  | returned (value : α)
  | returnedUndefined
  | threw (error : ε)

/-- An effectful nullary function `apiFunction`: from the world before the
call to its outcome and the world after it. -/
abbrev ApiFunction (σ α ε : Type) := σ → Except ε α × σ

/-- What a run of `retryApiCall` did: how it ended, how often it invoked
`apiFunction`, the delays it waited for (in order), and the world it left. -/
structure RetryRun (σ α ε : Type) where
  completion : Completion α ε
  invocations : Nat
  waits : List Nat
  world : σ

/-- The `for` loop of `retryApiCall`, entered with the loop variable equal to
`attempt`.  `fuel` bounds the number of iterations; `none` means the fuel ran
out before the loop ended. -/
def retryLoop {σ α ε : Type} (apiFunction : ApiFunction σ α ε) (maxRetries : Int)
    (baseDelay : Nat) : Nat → Nat → σ → Option (RetryRun σ α ε)
  | fuel, attempt, w =>
    if (attempt : Int) ≤ maxRetries then
      match fuel with
      | 0 => none
      | fuel + 1 =>
        match apiFunction w with
        | (Except.ok value, w1) => some ⟨Completion.returned value, 1, [], w1⟩
        | (Except.error error, w1) =>
          if (attempt : Int) = maxRetries then
            some ⟨Completion.threw error, 1, [], w1⟩
          else
            let delay := baseDelay * 2 ^ (attempt - 1)
            match retryLoop apiFunction maxRetries baseDelay fuel (attempt + 1) w1 with
            | some run => some ⟨run.completion, run.invocations + 1, delay :: run.waits, run.world⟩
            | none => none
    else some ⟨Completion.returnedUndefined, 0, [], w⟩

/-- The function `retryApiCall(apiFunction, maxRetries, baseDelay)`: the loop
starts at `attempt = 1`, and `maxRetries` iterations always suffice. -/
def retryApiCall {σ α ε : Type} (apiFunction : ApiFunction σ α ε) (maxRetries : Int)
    (baseDelay : Nat) (w : σ) : Option (RetryRun σ α ε) :=
  retryLoop apiFunction maxRetries baseDelay maxRetries.toNat 1 w

/-- The world after `n` successive invocations of `apiFunction`. -/
def worldAfter {σ α ε : Type} (apiFunction : ApiFunction σ α ε) (w : σ) : Nat → σ
  | 0 => w
  | n + 1 => worldAfter apiFunction (apiFunction w).2 n

/-- The outcome of the invocation of `apiFunction` that follows `n` earlier
ones (so `invocation f w (k - 1)` is the outcome of the `k`-th invocation). -/
def invocation {σ α ε : Type} (apiFunction : ApiFunction σ α ε) (w : σ) (n : Nat) :
    Except ε α :=
  (apiFunction (worldAfter apiFunction w n)).1

/-- Whether an outcome is a failure (a rejected promise). -/
def failed {α ε : Type} (r : Except ε α) : Bool :=
  match r with
  | Except.ok _ => false
  | Except.error _ => true

/-! ## Handlers of the components -/

/-- What one run of an event handler did: the component state after it, the
requests it sent, and how often it called the callback prop of the component
(`onTransactionAdded`, `onBlockMined`). -/
structure HandlerRun (σ : Type) where
  state : σ
  requests : List Request
  callbacks : Nat

/-- `Promise.all` over promises that settle as `results`: fulfilled with all
the values when none rejects, otherwise rejected with the reason of the
promise that rejects first in time; `order` lists positions in the order in
which they settle (positions it omits come last, in array order). -/
def promiseAll {α ε : Type} (results : List (Except ε α)) (order : List Nat) :
    Except ε (List α) :=
  let firstRejected := order.findSome? (fun i =>
    match results.get? i with
    | some (Except.error e) => some e
    | _ => none)
  match firstRejected with
  | some e => Except.error e
  | none => results.mapM id

/-- What `fetchAllData` returns. -/
structure AllData where
  blockchain : JsVal
  stats : JsVal
  isValid : JsVal

/-- An error caught in a `try` block around API calls: the `APIError` of a
failed call, or an error the runtime throws while the result is used. -/
inductive CaughtError where
  | api (error : APIError)
  | runtime (error : JsError)

/-- The function `fetchAllData` of `utils/api.js`: the three values are taken
from the array `Promise.all` resolves to, and the object returned is built
after `validation.valid` has been read; every error is thrown on. -/
def fetchAllData (fetch : Request → FetchOutcome) (envUrl : Option String)
    (order : List Nat) : Except CaughtError AllData × List Request :=
  let b := getBlockchain fetch envUrl
  let s := getStats fetch envUrl
  let v := validateChain fetch envUrl
  let requests := b.requests ++ s.requests ++ v.requests
  match promiseAll [b.result, s.result, v.result] order with
  | Except.ok values =>
    let blockchain := values.getD 0 JsVal.undefined
    let stats := values.getD 1 JsVal.undefined
    let validation := values.getD 2 JsVal.undefined
    match propGet validation "valid" with
    | Except.ok valid => (Except.ok ⟨blockchain, stats, valid⟩, requests)
    | Except.error error => (Except.error (CaughtError.runtime error), requests)
  | Except.error error => (Except.error (CaughtError.api error), requests)

/-- The state of `BlockchainApp` (`App.js`); `blockchain` and `stats` start as
`null`, `isValid` as `true`. -/
structure AppState where
  blockchain : JsVal
  stats : JsVal
  isValid : JsVal
  activeTab : String
  isLoading : Bool

/-- The handler `fetchBlockchain` of `App.js`.  In the `try` block the three
setters run one after the other: when reading `validationData.valid` throws,
`setBlockchain` and `setStats` have already run; the `catch` block only logs,
and the `finally` block sets `isLoading` to false. -/
def fetchBlockchain (fetch : Request → FetchOutcome) (envUrl : Option String)
    (order : List Nat) (s : AppState) : HandlerRun AppState :=
  let b := apiCallRun fetch envUrl "/blockchain" RequestInit.empty
  let st := apiCallRun fetch envUrl "/stats" RequestInit.empty
  let v := apiCallRun fetch envUrl "/validate" RequestInit.empty
  let after : AppState :=
    match promiseAll [b.result, st.result, v.result] order with
    | Except.ok values =>
      let blockchainData := values.getD 0 JsVal.undefined
      let statsData := values.getD 1 JsVal.undefined
      let validationData := values.getD 2 JsVal.undefined
      match propGet validationData "valid" with
      | Except.ok valid => ⟨blockchainData, statsData, valid, s.activeTab, false⟩
      | Except.error _ => ⟨blockchainData, statsData, s.isValid, s.activeTab, false⟩
    | Except.error _ => ⟨s.blockchain, s.stats, s.isValid, s.activeTab, false⟩
  ⟨after, b.requests ++ st.requests ++ v.requests, 0⟩

/-- The state of `TransactionForm`. -/
structure TransactionFormState where
  transactionData : String
  isLoading : Bool
  message : String
  messageType : String
deriving DecidableEq, Repr

/-- The handler `handleSubmit` of `TransactionForm`; `caught` is the outcome
of the `catch` block, reached when the call throws and when reading
`result.success` throws (a body of `null`). -/
def TransactionForm.handleSubmit (fetch : Request → FetchOutcome) (envUrl : Option String)
    (s : TransactionFormState) : HandlerRun TransactionFormState :=
  if jsTrim s.transactionData == "" then
    ⟨⟨s.transactionData, s.isLoading, "Transaction data cannot be empty", "error"⟩, [], 0⟩
  else
    let call := apiCallRun fetch envUrl "/transaction"
      ⟨some "POST", some (jsonStringifyStrField "data" s.transactionData), none⟩
    let caught : HandlerRun TransactionFormState :=
      ⟨⟨s.transactionData, false,
        "❌ Failed to add transaction. Please check if the backend is running.", "error"⟩,
        call.requests, 0⟩
    match call.result with
    | Except.ok result =>
      match propGet result "success" with
      | Except.ok success =>
        if success.truthy then
          ⟨⟨"", false,
            "✅ Transaction added! Pending transactions: " ++
              jsToString (result.optGet "pending_transactions"),
            "success"⟩, call.requests, 1⟩
        else
          ⟨⟨s.transactionData, false, "❌ Failed to add transaction", "error"⟩,
            call.requests, 0⟩
      | Except.error _ => caught
    | Except.error _ => caught

/-- The state of `MiningComponent`; `miningResult` starts as `null`,
`difficulty` as 4. -/
structure MiningState where
  isMining : Bool
  miningResult : JsVal
  difficulty : Int
  miningTime : Nat
  estimatedTime : String

/-- The handler `handleMine` of `MiningComponent`.  `stats` is the prop of
that name; `actualTime` is the text `((endTime - startTime) / 1000).toFixed(2)`
computed from the two clock readings (floating point, taken as an input).
`caught` is the outcome of the `catch` block, reached when the call throws
and when reading `result.success` throws (a body of `null`); `refused` is the
outcome for a `success` that is not truthy, which is `undefined` on every value
that is no object. -/
def MiningComponent.handleMine (fetch : Request → FetchOutcome) (envUrl : Option String)
    (stats : JsVal) (actualTime : String) (s : MiningState) : HandlerRun MiningState :=
  if (stats.optGet "pending_transactions").strictEqZero then
    ⟨⟨s.isMining,
      JsVal.obj [("success", JsVal.bool false),
        ("message", JsVal.str "No pending transactions to mine. Add some transactions first.")],
      s.difficulty, s.miningTime, s.estimatedTime⟩, [], 0⟩
  else
    let call := apiCallRun fetch envUrl "/mine" ⟨some "POST", none, none⟩
    let caught : HandlerRun MiningState :=
      ⟨⟨false,
        JsVal.obj [("success", JsVal.bool false),
          ("message", JsVal.str "Mining failed. Please check if the backend is running.")],
        s.difficulty, 0, s.estimatedTime⟩, call.requests, 0⟩
    let refused : HandlerRun MiningState :=
      ⟨⟨false,
        JsVal.obj [("success", JsVal.bool false),
          ("message", JsVal.str "Mining failed. Please try again.")],
        s.difficulty, 0, s.estimatedTime⟩, call.requests, 0⟩
    match call.result with
    | Except.ok JsVal.null => caught
    | Except.ok JsVal.undefined => caught
    | Except.ok (JsVal.obj result) =>
      if (JsObject.get result "success").truthy then
        ⟨⟨false, JsVal.obj (objSpread result [("miningDuration", JsVal.str actualTime)]),
          s.difficulty, 0, s.estimatedTime⟩, call.requests, 1⟩
      else refused
    | Except.ok _ => refused
    | Except.error _ => caught

/-! ## Further runtime functions -/

/-- The statement `try body catch (error) handler`: the handler runs on
the error the body throws. -/
def tryCatch {ε α : Type} (body : Except ε α) (handler : ε → Except ε α) : Except ε α :=
  match body with
  | Except.ok a => Except.ok a
  | Except.error e => handler e

/-- The length of a string in UTF-16 code units, the property `length`. -/
def utf16Length (cs : List Char) : Nat :=
  match cs with
  | [] => 0
  | c :: rest => (if 0x10000 ≤ c.toNat then 2 else 1) + utf16Length rest

/-- The value of a digit in a radix of at most 16, if the character is one. -/
def digitValue (radix : Nat) (c : Char) : Option Nat :=
  let n := c.toNat
  let v : Option Nat :=
    if 48 ≤ n && n ≤ 57 then some (n - 48)
    else if 97 ≤ n && n ≤ 102 then some (n - 87)
    else if 65 ≤ n && n ≤ 70 then some (n - 55)
    else none
  match v with
  | some d => if d < radix then some d else none
  | none => none

/-- The function `parseInt(string)` without a radix argument: leading white
space is skipped, then an optional sign, then an optional `0x` that selects
radix 16, then the longest run of digits; `none` stands for `NaN`, the result
when there is no digit. -/
def parseInt (s : String) : Option Int :=
  let cs := s.data.dropWhile isJsWhitespace
  let signed : Bool × List Char :=
    match cs with
    | '-' :: rest => (true, rest)
    | '+' :: rest => (false, rest)
    | _ => (false, cs)
  let prefixed : Nat × List Char :=
    match signed.2 with
    | '0' :: 'x' :: rest => (16, rest)
    | '0' :: 'X' :: rest => (16, rest)
    | _ => (10, signed.2)
  let digits := (prefixed.2.takeWhile (fun c => (digitValue prefixed.1 c).isSome)).filterMap
    (digitValue prefixed.1)
  if digits.isEmpty then none
  else
    let magnitude : Nat := digits.foldl (fun acc d => acc * prefixed.1 + d) 0
    some (if signed.1 then -(magnitude : Int) else (magnitude : Int))

/-- The constant `MINING_DIFFICULTY.MIN`. -/
def MINING_DIFFICULTY.MIN : Int := 1

/-- The constant `MINING_DIFFICULTY.MAX`. -/
def MINING_DIFFICULTY.MAX : Int := 6

/-- The constant `MINING_DIFFICULTY.DEFAULT`. -/
def MINING_DIFFICULTY.DEFAULT : Int := 4

/-- The constant `BLOCKCHAIN.MAX_TRANSACTION_LENGTH`. -/
def BLOCKCHAIN.MAX_TRANSACTION_LENGTH : Nat := 500

/-- The function `checkBackendHealth` of `utils/api.js`, with the requests it
sends. -/
def checkBackendHealth (fetch : Request → FetchOutcome) (envUrl : Option String) :
    Except APIError Bool × List Request :=
  let call := getStats fetch envUrl
  (tryCatch
    (match call.result with
      | Except.ok _ => Except.ok true
      | Except.error error => Except.error error)
    (fun _ => Except.ok false),
   call.requests)

/-! ## `MiningComponent`: the difficulty selector -/

/-- The state `MiningComponent` starts in. -/
def MiningComponent.initialState : MiningState :=
  ⟨false, JsVal.null, 4, 0, ""⟩

/-- The handler `handleDifficultyChange` of `MiningComponent`; the result is
`Except.error` when an error escapes the handler. -/
def MiningComponent.handleDifficultyChange (fetch : Request → FetchOutcome)
    (envUrl : Option String) (newDifficulty : Int) (s : MiningState) :
    Except CaughtError (HandlerRun MiningState) :=
  let call := apiCallRun fetch envUrl "/difficulty"
    ⟨some "POST", some (jsonStringifyNumField "difficulty" newDifficulty), none⟩
  tryCatch
    (match call.result with
      | Except.ok result =>
        match propGet result "success" with
        | Except.ok success =>
          if success.truthy then
            Except.ok ⟨⟨s.isMining, s.miningResult, newDifficulty, s.miningTime,
              s.estimatedTime⟩, call.requests, 0⟩
          else Except.ok ⟨s, call.requests, 0⟩
        | Except.error error => Except.error (CaughtError.runtime error)
      | Except.error error => Except.error (CaughtError.api error))
    (fun _ => Except.ok ⟨s, call.requests, 0⟩)

/-- The numbers the difficulty selector maps to its options. -/
def MiningComponent.difficultyOptions : List Int := [1, 2, 3, 4, 5, 6]

/-- The `value` attributes of the options of the difficulty selector, the
strings `e.target.value` can be when the selector changes. -/
def MiningComponent.difficultyOptionValues : List String :=
  MiningComponent.difficultyOptions.map toString

/-- The `onChange` handler of the difficulty selector,
`handleDifficultyChange(parseInt(e.target.value))`; `none` when `parseInt`
gives `NaN`, a case that is not followed further. -/
def MiningComponent.difficultySelectChange (fetch : Request → FetchOutcome)
    (envUrl : Option String) (value : String) (s : MiningState) :
    Option (Except CaughtError (HandlerRun MiningState)) :=
  (parseInt value).map (fun d => MiningComponent.handleDifficultyChange fetch envUrl d s)

/-! ## Rendering -/

mutual
/-- The text React shows for a child: strings and numbers as text, nothing
for `null`, `undefined` and booleans, the items of an array one after the
other; a plain object is not a valid child and makes rendering throw. -/
def renderChild : JsVal → Except JsError String
  | JsVal.undefined => Except.ok ""
  | JsVal.null => Except.ok ""
  | JsVal.bool _ => Except.ok ""
  | JsVal.num n => Except.ok (toString n)
  | JsVal.str s => Except.ok s
  | JsVal.arr items => renderChildren items
  | JsVal.obj _ => Except.error ⟨"Error", "Objects are not valid as a React child"⟩
/-- The text React shows for a list of children. -/
def renderChildren : List JsVal → Except JsError String
  | [] => Except.ok ""
  | v :: rest =>
    match renderChild v with
    | Except.error e => Except.error e
    | Except.ok t =>
      match renderChildren rest with
      | Except.error e => Except.error e
      | Except.ok ts => Except.ok (t ++ ts)
end

/-- One entry of the transaction list of an expanded block: the text shown
for `tx.data` and the label `#txIndex`. -/
structure TransactionEntry where
  text : String
  label : String
deriving DecidableEq, Repr

/-- The callback of `block.transactions.map`, applied to the items from index
`i` on. -/
def BlockchainView.renderEntries (i : Nat) (items : List JsVal) :
    Except JsError (List TransactionEntry) :=
  match items with
  | [] => Except.ok []
  | tx :: rest =>
    match propGet tx "data" with
    | Except.error e => Except.error e
    | Except.ok data =>
      match renderChild data with
      | Except.error e => Except.error e
      | Except.ok text =>
        match BlockchainView.renderEntries (i + 1) rest with
        | Except.error e => Except.error e
        | Except.ok entries => Except.ok (⟨text, "#" ++ toString i⟩ :: entries)

/-- The transaction list of an expanded block in `BlockchainView`,
`block.transactions.map(...)`: one entry per item of the array; rendering
throws when `block.transactions` is no array. -/
def BlockchainView.renderTransactions (block : JsVal) :
    Except JsError (List TransactionEntry) :=
  match propGet block "transactions" with
  | Except.error e => Except.error e
  | Except.ok (JsVal.arr items) => BlockchainView.renderEntries 0 items
  | Except.ok JsVal.undefined =>
    Except.error ⟨"TypeError", "Cannot read properties of undefined (reading \x27length\x27)"⟩
  | Except.ok JsVal.null =>
    Except.error ⟨"TypeError", "Cannot read properties of null (reading \x27length\x27)"⟩
  | Except.ok _ => Except.error ⟨"TypeError", "block.transactions.map is not a function"⟩

/-! ## `SearchComponent` -/

/-- A part of a highlighted text: `marked` parts are shown inside `mark`. -/
structure Part where
  marked : Bool
  text : String
deriving DecidableEq, Repr

/-- What `highlightText` returns: the text as it was given, or the parts. -/
inductive Highlighted where
  | unchanged (text : JsVal)
  | parts (ps : List Part)

/-- The regular-expression engine of the runtime for patterns outside the
literal fragment embedded here: for a search term, either the `SyntaxError` of
`new RegExp`, or the parts that the split and the tests produce for a text. -/
abbrev RegExpEngine := String → Except JsError (String → List Part)

/-- Search terms whose pattern is a literal: ASCII letters, digits and
blanks. -/
def isLiteralTerm (term : String) : Bool :=
  term.data.all (fun c => c.isAlphanum || c == ' ')

/-- Two characters are equal under the flag `i` (for an ASCII pattern
character). -/
def ciEq (a b : Char) : Bool :=
  a.toUpper == b.toUpper

/-- Whether the literal `term` matches at the start of `text`, ignoring
case. -/
def matchesAt (term text : List Char) : Bool :=
  match term, text with
  | [], _ => true
  | _ :: _, [] => false
  | t :: ts, c :: cs => ciEq t c && matchesAt ts cs

/-- The method `text.split(regex)` for the pattern `(term)` with the flags
`gi` and a non-empty literal `term`: the pieces between the matches and, as
the pattern is one capture group, each matched text, in order.  `skip` counts
the characters of the current match still to pass, `acc` holds the piece read
so far, reversed. -/
def literalSplit (term : List Char) : List Char → Nat → List Char → List (List Char)
  | [], _, acc => [acc.reverse]
  | _ :: cs, skip + 1, acc => literalSplit term cs skip acc
  | c :: cs, 0, acc =>
    if matchesAt term (c :: cs) then
      acc.reverse :: (c :: cs).take term.length :: literalSplit term cs (term.length - 1) []
    else literalSplit term cs 0 (c :: acc)

/-- The characters of `cs` from the UTF-16 position `k` on, with the position
they start at (`pos` is the position of the head of `cs`). -/
def dropUnits (k : Nat) (cs : List Char) (pos : Nat) : List Char × Nat :=
  match cs with
  | [] => ([], pos)
  | c :: rest =>
    if k = 0 then (c :: rest, pos)
    else dropUnits (k - utf16Length [c]) rest (pos + utf16Length [c])

/-- The UTF-16 position of the first match of the literal `term` in `cs`,
whose head is at position `pos`. -/
def findMatch (term : List Char) (cs : List Char) (pos : Nat) : Option Nat :=
  match cs with
  | [] => if term.isEmpty then some pos else none
  | c :: rest =>
    if matchesAt term (c :: rest) then some pos
    else findMatch term rest (pos + utf16Length [c])

/-- The method `regex.test(part)` of a regular expression with the flag `g`
for a literal `term`: the search starts at `lastIndex`; the result comes with
the new `lastIndex`, the end of the match or 0 when there is none. -/
def regexTest (term : List Char) (lastIndex : Nat) (part : List Char) : Bool × Nat :=
  if utf16Length part < lastIndex then (false, 0)
  else
    let start := dropUnits lastIndex part 0
    match findMatch term start.1 start.2 with
    | some i => (true, i + utf16Length term)
    | none => (false, 0)

/-- The callback of `parts.map` in `highlightText`, applied to the parts in
order; `lastIndex` is the state of the one `regex` object between the
calls. -/
def markParts (term : List Char) (lastIndex : Nat) (parts : List (List Char)) : List Part :=
  match parts with
  | [] => []
  | p :: rest =>
    ⟨(regexTest term lastIndex p).1, String.mk p⟩ ::
      markParts term (regexTest term lastIndex p).2 rest

/-- The parts `highlightText` produces for a string `text` and a non-empty
literal search term. -/
def literalHighlight (term text : String) : List Part :=
  markParts term.data 0 (literalSplit term.data text.data 0 [])

/-- The function `highlightText(text, searchTerm)` of `SearchComponent`. -/
def highlightText (engine : RegExpEngine) (text : JsVal) (searchTerm : String) :
    Except JsError Highlighted :=
  if searchTerm == "" then Except.ok (Highlighted.unchanged text)
  else
    let regex : Except JsError (String → List Part) :=
      if isLiteralTerm searchTerm then Except.ok (literalHighlight searchTerm)
      else engine searchTerm
    match regex with
    | Except.error e => Except.error e
    | Except.ok highlight =>
      match text with
      | JsVal.str t => Except.ok (Highlighted.parts (highlight t))
      | JsVal.undefined =>
        Except.error ⟨"TypeError", "Cannot read properties of undefined (reading \x27split\x27)"⟩
      | JsVal.null =>
        Except.error ⟨"TypeError", "Cannot read properties of null (reading \x27split\x27)"⟩
      | _ => Except.error ⟨"TypeError", "text.split is not a function"⟩

/-- What one search result shows: the block index after `Block #`, the date,
the parts of the transaction text, and the block hash after `Block Hash:`. -/
structure SearchResultView where
  blockIndex : String
  date : String
  transaction : List Part
  blockHash : String
deriving DecidableEq, Repr

/-- The element `SearchComponent` renders for one search result.
`localeDate v` is the text of `formatDate(v)`, which is
`new Date(v * 1000).toLocaleString()` and depends on the locale of the
runtime. -/
def SearchComponent.renderResult (engine : RegExpEngine) (localeDate : JsVal → String)
    (query : String) (result : JsVal) : Except JsError SearchResultView :=
  match propGet result "block_index", propGet result "timestamp",
    propGet result "transaction", propGet result "block_hash" with
  | Except.ok blockIndex, Except.ok timestamp, Except.ok transaction, Except.ok blockHash =>
    match highlightText engine transaction query with
    | Except.error e => Except.error e
    | Except.ok highlighted =>
      let shown : Except JsError (List Part) :=
        match highlighted with
        | Highlighted.parts ps => Except.ok ps
        | Highlighted.unchanged v =>
          match renderChild v with
          | Except.ok t => Except.ok [⟨false, t⟩]
          | Except.error e => Except.error e
      match renderChild blockIndex, shown, renderChild blockHash with
      | Except.ok indexText, Except.ok ps, Except.ok hashText =>
        Except.ok ⟨indexText, localeDate timestamp, ps, hashText⟩
      | Except.error e, _, _ => Except.error e
      | _, Except.error e, _ => Except.error e
      | _, _, Except.error e => Except.error e
  | Except.error e, _, _, _ => Except.error e
  | _, Except.error e, _, _ => Except.error e
  | _, _, Except.error e, _ => Except.error e
  | _, _, _, Except.error e => Except.error e

/-- The state of `SearchComponent`; `searchResults` and `searchHistory` start
empty. -/
structure SearchState where
  query : String
  searchResults : JsVal
  isSearching : Bool
  hasSearched : Bool
  searchHistory : List String

/-- The state `SearchComponent` starts in. -/
def SearchComponent.initialState : SearchState :=
  ⟨"", JsVal.arr [], false, false, []⟩

/-- The handler `handleSearch` of `SearchComponent`; `caught` is the outcome
of the `catch` block, reached when the call throws and when reading
`result.results` throws (a body of `null`). -/
def SearchComponent.handleSearch (fetch : Request → FetchOutcome) (envUrl : Option String)
    (s : SearchState) : HandlerRun SearchState :=
  if jsTrim s.query == "" then ⟨s, [], 0⟩
  else
    let call := apiCallRun fetch envUrl ("/search?q=" ++ encodeURIComponent s.query)
      RequestInit.empty
    let caught : HandlerRun SearchState :=
      ⟨⟨s.query, JsVal.arr [], false, true, s.searchHistory⟩, call.requests, 0⟩
    match call.result with
    | Except.ok result =>
      match propGet result "results" with
      | Except.ok found =>
        let results := if found.truthy then found else JsVal.arr []
        ⟨⟨s.query, results, false, true,
          (s.query :: s.searchHistory.filter (fun item => item != s.query)).take 5⟩,
          call.requests, 0⟩
      | Except.error _ => caught
    | Except.error _ => caught

/-- The `onChange` handler of the query input, `setQuery(e.target.value)`. -/
def SearchComponent.setQuery (value : String) (s : SearchState) : SearchState :=
  ⟨value, s.searchResults, s.isSearching, s.hasSearched, s.searchHistory⟩

/-- The result list `SearchComponent` shows: the rendered items of
`searchResults` once a search has been made. -/
def SearchComponent.renderResults (engine : RegExpEngine) (localeDate : JsVal → String)
    (s : SearchState) : Except JsError (List SearchResultView) :=
  if s.hasSearched then
    match s.searchResults with
    | JsVal.arr items => items.mapM (SearchComponent.renderResult engine localeDate s.query)
    | JsVal.str t =>
      if t == "" then Except.ok []
      else Except.error ⟨"TypeError", "searchResults.map is not a function"⟩
    | _ => Except.ok []
  else Except.ok []

/-- One search from the form: the query is typed into the input, then the
form is submitted. -/
def SearchComponent.search (fetch : Request → FetchOutcome) (envUrl : Option String)
    (s : SearchState) (q : String) : SearchState :=
  (SearchComponent.handleSearch fetch envUrl (SearchComponent.setQuery q s)).state

/-- A sequence of searches, the first of the list first. -/
def SearchComponent.searchAll (fetch : Request → FetchOutcome) (envUrl : Option String)
    (qs : List String) (s : SearchState) : SearchState :=
  qs.foldl (SearchComponent.search fetch envUrl) s

/-- The distinct members of a list in the order of their first occurrence. -/
def distinctFirst : List String → List String
  | [] => []
  | a :: rest => a :: (distinctFirst rest).filter (fun b => b != a)

/-! ## `TransactionForm`: entering the text -/

/-- The array `sampleTransactions` of `TransactionForm`. -/
def TransactionForm.sampleTransactions : List String :=
  ["Alice sends 10 coins to Bob",
   "Bob sends 5 coins to Charlie",
   "Smart contract execution: Transfer ownership",
   "Mining reward: 50 coins to miner",
   "Exchange trade: BTC for ETH"]

/-- The attribute `maxLength` of the textarea of the form. -/
def TransactionForm.textareaMaxLength : Nat := 500

/-- The state `TransactionForm` starts in. -/
def TransactionForm.initialState : TransactionFormState :=
  ⟨"", false, "", ""⟩

/-- The `onChange` handler of the textarea: `setTransactionData(e.target.value)`
and `clearMessage()`. -/
def TransactionForm.handleChange (value : String) (s : TransactionFormState) :
    TransactionFormState :=
  ⟨value, s.isLoading, "", ""⟩

/-- The handler `handleSampleClick`. -/
def TransactionForm.handleSampleClick (sample : String) (s : TransactionFormState) :
    TransactionFormState :=
  ⟨sample, s.isLoading, "", ""⟩

/-- What a user does with the form: edit the textarea, which then holds
`value`; click the button of the sample at `index`; submit the form, the
backend answering as `fetch` says. -/
inductive FormEvent where
  | edit (value : String)
  | clickSample (index : Nat)
  | submit (fetch : Request → FetchOutcome)

/-- The events the page can deliver: the browser keeps what a user enters
into a textarea within its `maxLength`, counted in UTF-16 code units, and
there is one button for each sample. -/
def FormEvent.possible (ev : FormEvent) : Bool :=
  match ev with
  | FormEvent.edit value => utf16Length value.data ≤ TransactionForm.textareaMaxLength
  | FormEvent.clickSample index => index < TransactionForm.sampleTransactions.length
  | FormEvent.submit _ => true

/-- The form after one more event; the requests and callback calls of a
submit are added to those made so far. -/
def TransactionForm.step (envUrl : Option String) (run : HandlerRun TransactionFormState)
    (ev : FormEvent) : HandlerRun TransactionFormState :=
  match ev with
  | FormEvent.edit value =>
    ⟨TransactionForm.handleChange value run.state, run.requests, run.callbacks⟩
  | FormEvent.clickSample index =>
    match TransactionForm.sampleTransactions.get? index with
    | some sample => ⟨TransactionForm.handleSampleClick sample run.state, run.requests,
        run.callbacks⟩
    | none => run
  | FormEvent.submit fetch =>
    ⟨(TransactionForm.handleSubmit fetch envUrl run.state).state,
      run.requests ++ (TransactionForm.handleSubmit fetch envUrl run.state).requests,
      run.callbacks + (TransactionForm.handleSubmit fetch envUrl run.state).callbacks⟩

/-- The form after a sequence of events, from its initial state. -/
def TransactionForm.runEvents (envUrl : Option String) (events : List FormEvent) :
    HandlerRun TransactionFormState :=
  events.foldl (TransactionForm.step envUrl) ⟨TransactionForm.initialState, [], 0⟩

/-! ## The ledger engine, modelled from the spec

The backend that holds the chain, the miner and the validation is not among
the sources; the definitions of this section follow sections 3 and 4 of the
spec. -/

/-- Modelled from the spec: the Hasher of section 4.1, which is missing from
the sources.  The spec fixes neither the canonical serialisation nor the
empty marker, so the digest is given per use: `leaf` is the digest of the
bytes of a transaction, `node` the digest of two digests put one after the
other, `emptyRoot` the digest of the empty marker, `block` the digest of the
canonical form of index, timestamp, Merkle root, previous hash and nonce;
`sentinel` is the previous hash of the genesis block and `hex` the hexadecimal
text of a digest. -/
structure Hasher (D : Type) where
  leaf : String → D
  node : D → D → D
  emptyRoot : D
  block : Nat → Nat → D → D → Nat → D
  sentinel : D
  hex : D → String

/-- Modelled from the spec: the Block of section 3, which is missing from the
sources. -/
structure Block (D : Type) where
  index : Nat
  timestamp : Nat
  transactions : List String
  previous_hash : D
  merkle_root : D
  nonce : Nat
  hash : D
deriving DecidableEq, Repr

/-- Modelled from the spec: one layer of the MerkleTree of section 4.2, which
is missing from the sources: adjacent digests are hashed in pairs, the last
one with itself when the count is odd. -/
def merkleLayer {D : Type} (H : Hasher D) : List D → List D
  | [] => []
  | [a] => [H.node a a]
  | a :: b :: rest => H.node a b :: merkleLayer H rest

/-- Modelled from the spec: the layers of section 4.2 are built until one
digest remains; `fuel` bounds the number of layers, `none` means it ran
out. -/
def merkleReduce {D : Type} (H : Hasher D) : Nat → List D → Option D
  | _, [a] => some a
  | 0, _ => none
  | fuel + 1, layer => merkleReduce H fuel (merkleLayer H layer)

/-- Modelled from the spec: `root(transactions)` of section 4.2: the digest
of the empty marker for no transaction, else the digest that remains of the
leaf layer; one layer per transaction is always enough. -/
def merkleRoot {D : Type} (H : Hasher D) (transactions : List String) : Option D :=
  if transactions.isEmpty then some H.emptyRoot
  else merkleReduce H transactions.length (transactions.map H.leaf)

/-- Modelled from the spec: the hash of a block, the digest of index,
timestamp, Merkle root, previous hash and nonce (section 3). -/
def blockHash {D : Type} (H : Hasher D) (b : Block D) : D :=
  H.block b.index b.timestamp b.merkle_root b.previous_hash b.nonce

/-- Modelled from the spec: `genesis()` of section 4.5: index 0, no
transaction, the sentinel as previous hash, nonce 0, the hash computed as for
every block; its timestamp is fixed by the implementation. -/
def genesis {D : Type} (H : Hasher D) (genesisTimestamp : Nat) : Block D :=
  ⟨0, genesisTimestamp, [], H.sentinel, H.emptyRoot, 0,
    H.block 0 genesisTimestamp H.emptyRoot H.sentinel 0⟩

/-- Modelled from the spec: the checks of the validation of section 4.5 on
the block at position `pos`, whose predecessor is `prev`: its index is its
position (section 3), its previous hash is the hash of the predecessor, its
Merkle root and its hash recompute, its timestamp is not before that of the
predecessor. -/
def blockOk {D : Type} [DecidableEq D] (H : Hasher D) (prev : Block D) (pos : Nat)
    (b : Block D) : Bool :=
  decide (b.index = pos) && decide (b.previous_hash = prev.hash) &&
  decide (merkleRoot H b.transactions = some b.merkle_root) &&
  decide (b.hash = blockHash H b) && decide (prev.timestamp ≤ b.timestamp)

/-- Modelled from the spec: the linear scan of section 4.5 from position `pos`
on, stopping at the first block that fails a check. -/
def firstFailureFrom {D : Type} [DecidableEq D] (H : Hasher D) (prev : Block D) (pos : Nat) :
    List (Block D) → Option Nat
  | [] => none
  | b :: rest =>
    if blockOk H prev pos b then firstFailureFrom H b (pos + 1) rest else some pos

/-- Modelled from the spec: the diagnostic variant of `isValid` of section
4.5: the first index at which a check fails, `none` when none does; the block
at index 0 has to be the genesis block. -/
def firstFailure {D : Type} [DecidableEq D] (H : Hasher D) (genesisTimestamp : Nat) :
    List (Block D) → Option Nat
  | [] => none
  | g :: rest =>
    if g = genesis H genesisTimestamp then firstFailureFrom H g 1 rest else some 0

/-- Modelled from the spec: `isValid()` of section 4.5. -/
def isValid {D : Type} [DecidableEq D] (H : Hasher D) (genesisTimestamp : Nat)
    (chain : List (Block D)) : Bool :=
  (firstFailure H genesisTimestamp chain).isNone

/-- Modelled from the spec: a valid chain, the invariants of section 3:
`chain[0]` is the genesis block, every block links to the hash of the block
before it, every hash and every Merkle root recomputes, the index of a block
is its position, and timestamps do not decrease. -/
structure ValidChain {D : Type} (H : Hasher D) (genesisTimestamp : Nat)
    (chain : List (Block D)) : Prop where
  genesis_first : ∀ g : Block D, chain[0]? = some g → g = genesis H genesisTimestamp
  linked : ∀ (i : Nat) (a b : Block D), chain[i]? = some a → chain[i + 1]? = some b →
    b.previous_hash = a.hash
  hashes : ∀ (i : Nat) (b : Block D), chain[i]? = some b → b.hash = blockHash H b
  roots : ∀ (i : Nat) (b : Block D), chain[i]? = some b →
    merkleRoot H b.transactions = some b.merkle_root
  indices : ∀ (i : Nat) (b : Block D), chain[i]? = some b → b.index = i
  timestamps : ∀ (i : Nat) (a b : Block D), chain[i]? = some a → chain[i + 1]? = some b →
    a.timestamp ≤ b.timestamp

/-- A change of one field of a block: its hash, its previous hash, its Merkle
root, its nonce, or the text of the transaction at position `j`. -/
inductive Mutation (D : Type) where
  | hash (value : D)
  | previous_hash (value : D)
  | merkle_root (value : D)
  | nonce (value : Nat)
  | transactionText (j : Nat) (text : String)

/-- The block with the one field changed. -/
def Mutation.apply {D : Type} (m : Mutation D) (b : Block D) : Block D :=
  match m with
  | Mutation.hash value =>
    ⟨b.index, b.timestamp, b.transactions, b.previous_hash, b.merkle_root, b.nonce, value⟩
  | Mutation.previous_hash value =>
    ⟨b.index, b.timestamp, b.transactions, value, b.merkle_root, b.nonce, b.hash⟩
  | Mutation.merkle_root value =>
    ⟨b.index, b.timestamp, b.transactions, b.previous_hash, value, b.nonce, b.hash⟩
  | Mutation.nonce value =>
    ⟨b.index, b.timestamp, b.transactions, b.previous_hash, b.merkle_root, value, b.hash⟩
  | Mutation.transactionText j text =>
    ⟨b.index, b.timestamp, b.transactions.set j text, b.previous_hash, b.merkle_root, b.nonce,
      b.hash⟩

/-- Whether a change of one field leaves the digest recomputed from the block
as it was: a changed nonce that gives the same block digest, or a changed
transaction text that gives the same Merkle root.  A change of the stored
hash, previous hash or Merkle root changes no recomputed digest and is compared
as it stands. -/
def Mutation.collides {D : Type} [DecidableEq D] (H : Hasher D) (m : Mutation D)
    (b : Block D) : Bool :=
  match m with
  | Mutation.nonce value =>
    decide (H.block b.index b.timestamp b.merkle_root b.previous_hash value
      = H.block b.index b.timestamp b.merkle_root b.previous_hash b.nonce)
  | Mutation.transactionText j text =>
    decide (merkleRoot H (b.transactions.set j text) = merkleRoot H b.transactions)
  | _ => false

/-- Modelled from the spec: the candidate block of section 4.3, a block
without nonce and hash; the Miner is missing from the sources. -/
structure Candidate (D : Type) where
  index : Nat
  timestamp : Nat
  transactions : List String
  previous_hash : D
  merkle_root : D

/-- Modelled from the spec: the candidate completed with a nonce and the
hash computed for it. -/
def Candidate.withNonce {D : Type} (H : Hasher D) (c : Candidate D) (nonce : Nat) : Block D :=
  ⟨c.index, c.timestamp, c.transactions, c.previous_hash, c.merkle_root, nonce,
    H.block c.index c.timestamp c.merkle_root c.previous_hash nonce⟩

/-- The number of leading `0` characters of a text. -/
def leadingZeros (s : String) : Nat :=
  (s.data.takeWhile (fun c => c == '0')).length

/-- Modelled from the spec: the target predicate of section 4.3: the
hexadecimal text of the hash has at least `difficulty` leading zeros. -/
def meetsTarget {D : Type} (H : Hasher D) (difficulty : Nat) (b : Block D) : Bool :=
  decide (difficulty ≤ leadingZeros (H.hex b.hash))

/-- Modelled from the spec: the search of section 4.3 from `nonce` upward,
accepting the first nonce whose hash meets the target; the search is
unbounded in the spec, `fuel` bounds the nonces tried here and `none` means it
ran out. -/
def mineFrom {D : Type} (H : Hasher D) (c : Candidate D) (difficulty : Nat) :
    Nat → Nat → Option (Block D)
  | 0, _ => none
  | fuel + 1, nonce =>
    if meetsTarget H difficulty (c.withNonce H nonce) then some (c.withNonce H nonce)
    else mineFrom H c difficulty fuel (nonce + 1)

/-- Modelled from the spec: `mine(candidate, difficulty)` of section 4.3, the
search from nonce 0. -/
def mine {D : Type} (H : Hasher D) (fuel : Nat) (c : Candidate D) (difficulty : Nat) :
    Option (Block D) :=
  mineFrom H c difficulty fuel 0

/-- Digests as terms that record what was hashed: a hasher over them has no
collision. -/
inductive SymbolicDigest where
  | leaf (text : String)
  | node (left right : SymbolicDigest)
  | emptyRoot
  | block (index timestamp : Nat) (merkleRoot previousHash : SymbolicDigest) (nonce : Nat)
  | sentinel
deriving DecidableEq, Repr

/-- The hasher over symbolic digests; the hexadecimal text of a block digest
is chosen to start with as many zeros as its nonce counts, up to 64. -/
def symbolicHasher : Hasher SymbolicDigest :=
  ⟨SymbolicDigest.leaf, SymbolicDigest.node, SymbolicDigest.emptyRoot, SymbolicDigest.block,
    SymbolicDigest.sentinel,
    fun d => match d with
      | SymbolicDigest.block _ _ _ _ nonce =>
        String.mk (List.replicate (min nonce 64) '0' ++ List.replicate (64 - min nonce 64) 'f')
      | _ => String.mk (List.replicate 64 'f')⟩

/-- A hasher with digests of four bits, one hexadecimal digit: the digests are
sums of what is hashed, taken modulo 16. -/
def nibbleHasher : Hasher (Fin 16) :=
  ⟨fun text => ⟨text.length % 16, Nat.mod_lt _ (by decide)⟩,
    fun left right => ⟨(left.val + 3 * right.val + 1) % 16, Nat.mod_lt _ (by decide)⟩,
    0,
    fun index timestamp merkleRoot previousHash nonce =>
      ⟨(index + timestamp + merkleRoot.val + previousHash.val + nonce) % 16,
        Nat.mod_lt _ (by decide)⟩,
    0,
    fun d => String.mk (Nat.toDigits 16 d.val)⟩

/-! ## `BlockchainView` -/

/-- Strict equality `a === b`.  For two arrays or two objects the result is
their identity, which the embedding does not track; it is taken as false (the
values compared here are block indices). -/
def JsVal.strictEq (a b : JsVal) : Bool :=
  match a, b with
  | JsVal.undefined, JsVal.undefined => true
  | JsVal.null, JsVal.null => true
  | JsVal.bool x, JsVal.bool y => x == y
  | JsVal.num x, JsVal.num y => x == y
  | JsVal.str x, JsVal.str y => x == y
  | _, _ => false

/-- The first `k` UTF-16 code units of a text, `substring(0, k)`; a character
of two units cut in the middle leaves a lone surrogate, shown as U+FFFD. -/
def takeUnits (k : Nat) (cs : List Char) : List Char :=
  match cs with
  | [] => []
  | c :: rest =>
    if k = 0 then []
    else if utf16Length [c] ≤ k then c :: takeUnits (k - utf16Length [c]) rest
    else [Char.ofNat 0xFFFD]

/-- The function `formatHash(hash, length)` of `BlockchainView`. -/
def BlockchainView.formatHash (hash : JsVal) (length : Nat) : Except JsError String :=
  if !hash.truthy then Except.ok "N/A"
  else
    match hash with
    | JsVal.str s => Except.ok (String.mk (takeUnits length s.data) ++ "...")
    | _ => Except.error ⟨"TypeError", "hash.substring is not a function"⟩

/-- The property `length` of a value: the number of items of an array, the
number of UTF-16 code units of a string, a `TypeError` on `null` and
`undefined`, the own property of an object, `undefined` otherwise. -/
def lengthOf (v : JsVal) : Except JsError JsVal :=
  match v with
  | JsVal.arr items => Except.ok (JsVal.num items.length)
  | JsVal.str s => Except.ok (JsVal.num (utf16Length s.data))
  | other => propGet other "length"

/-- What the runtime contributes to the rendering of a block: `localeDate v`
is the text of `new Date(v * 1000).toLocaleString()`, `isoDate v` the text of
`new Date(v * 1000).toISOString()`, which throws a `RangeError` for an invalid
date, and `localeText v` the text of `v.toLocaleString()` for a value other
than `null` and `undefined`. -/
structure RenderRuntime where
  localeDate : JsVal → String
  isoDate : JsVal → Except JsError String
  localeText : JsVal → String

/-- The three indicators of the part `Block Validation` of an expanded
block. -/
def BlockchainView.validationIndicators : List String :=
  ["✅ Hash Valid", "✅ Merkle Root Valid", "✅ Previous Hash Linked"]

/-- The details shown for an expanded block. -/
structure ExpandedBlockView where
  previousHash : String
  merkleRoot : String
  nonce : String
  timestamp : String
  transactions : List TransactionEntry
  indicators : List String
deriving DecidableEq, Repr

/-- What `BlockchainView` shows for one block: the header, and the details
when the block is the expanded one. -/
structure BlockView where
  title : String
  date : String
  hash : String
  transactionCount : String
  toggle : String
  expanded : Option ExpandedBlockView
deriving DecidableEq, Repr

/-- The text shown for the previous hash of an expanded block: `0 (Genesis)`
for the sentinel `0`, else the shortened hash. -/
def BlockchainView.previousHashText (previousHash : JsVal) : Except JsError String :=
  if previousHash.strictEq (JsVal.str "0") then Except.ok "0 (Genesis)"
  else BlockchainView.formatHash previousHash 40

/-- The text shown for the nonce, `block.nonce.toLocaleString()`. -/
def BlockchainView.nonceText (runtime : RenderRuntime) (nonce : JsVal) :
    Except JsError String :=
  match nonce with
  | JsVal.undefined =>
    Except.error ⟨"TypeError",
      "Cannot read properties of undefined (reading \x27toLocaleString\x27)"⟩
  | JsVal.null =>
    Except.error ⟨"TypeError",
      "Cannot read properties of null (reading \x27toLocaleString\x27)"⟩
  | value => Except.ok (runtime.localeText value)

/-- The details of an expanded block, in the order of the source: previous
hash, Merkle root, nonce, timestamp, the transaction list, and the block
validation, which is the same for every block. -/
def BlockchainView.renderExpanded (runtime : RenderRuntime) (block : JsVal) :
    Except JsError ExpandedBlockView := do
  let previousHash ← propGet block "previous_hash"
  let previousText ← BlockchainView.previousHashText previousHash
  let merkleRoot ← propGet block "merkle_root"
  let merkleText ← BlockchainView.formatHash merkleRoot 40
  let nonce ← propGet block "nonce"
  let nonceText ← BlockchainView.nonceText runtime nonce
  let timestamp ← propGet block "timestamp"
  let isoText ← runtime.isoDate timestamp
  let transactions ← BlockchainView.renderTransactions block
  Except.ok ⟨previousText ++ " 📋", merkleText ++ " 📋", nonceText, isoText, transactions,
    BlockchainView.validationIndicators⟩

/-- The part `expandedBlock === block.index && (...)` of the element of a
block: the details when the block is the expanded one. -/
def BlockchainView.renderDetails (runtime : RenderRuntime) (expandedBlock index block : JsVal) :
    Except JsError (Option ExpandedBlockView) :=
  if expandedBlock.strictEq index then
    match BlockchainView.renderExpanded runtime block with
    | Except.ok details => Except.ok (some details)
    | Except.error e => Except.error e
  else Except.ok none

/-- The element `BlockchainView` renders for one block of `sortedChain`;
`expandedBlock` is the state of that name. -/
def BlockchainView.renderBlock (runtime : RenderRuntime) (expandedBlock : JsVal)
    (block : JsVal) : Except JsError BlockView := do
  let index ← propGet block "index"
  let timestamp ← propGet block "timestamp"
  let hash ← propGet block "hash"
  let hashText ← BlockchainView.formatHash hash 30
  let transactions ← propGet block "transactions"
  let count ← lengthOf transactions
  let countText ← renderChild count
  let expanded ← BlockchainView.renderDetails runtime expandedBlock index block
  Except.ok ⟨if index.strictEqZero then "🟢 Genesis Block" else "🔷 Block #" ++ jsToString index,
    runtime.localeDate timestamp, hashText ++ " 📋", countText,
    if expandedBlock.strictEq index then "🔼" else "🔽", expanded⟩

/-- The handler `toggleBlockExpansion(index)`: the new value of
`expandedBlock`. -/
def BlockchainView.toggleBlockExpansion (expandedBlock index : JsVal) : JsVal :=
  if expandedBlock.strictEq index then JsVal.null else index

/-- The index of a block when it is a number. -/
def BlockchainView.indexOf (block : JsVal) : Option Int :=
  match block with
  | JsVal.obj fields =>
    match JsObject.get fields "index" with
    | JsVal.num n => some n
    | _ => none
  | _ => none

/-- The comparator of `sortedChain`, on the indices of the two blocks:
`b.index - a.index` under `desc`, `a.index - b.index` otherwise. -/
def BlockchainView.compareIndex (sortOrder : String) (a b : Int) : Int :=
  if sortOrder == "desc" then b - a else a - b

/-- One step of the stable sort: `x` is put in front of the first item that
the comparator does not put before it. -/
def sortInsert {α : Type} (compare : α → α → Int) (x : α) : List α → List α
  | [] => [x]
  | y :: rest =>
    if compare x y ≤ 0 then x :: y :: rest else y :: sortInsert compare x rest

/-- The order `Array.prototype.sort` gives with a consistent comparator: the
sort is stable, items that compare as equal keep their order. -/
def stableSort {α : Type} (compare : α → α → Int) : List α → List α
  | [] => []
  | x :: rest => sortInsert compare x (stableSort compare rest)

/-- The method `Array.prototype.sort`, which sorts its receiver in place and
returns it: the value returned and the receiver afterwards. -/
def arraySort {α : Type} (compare : α → α → Int) (receiver : List α) : List α × List α :=
  (stableSort compare receiver, stableSort compare receiver)

/-- What the statement that defines `sortedChain` leaves: the value of
`sortedChain`, and the array `blockchain.chain` after it. -/
structure SortedChainRun where
  sortedChain : List JsVal
  chain : List JsVal

/-- The constant `sortedChain` of `BlockchainView`: the sort is applied to
the copy that the spread of `blockchain.chain` makes, so `blockchain.chain` is
not the receiver.  The result is `none` for values outside the embedding: a
`chain` that is no array, or a block whose index is no number (the comparator
then returns `NaN`). -/
def BlockchainView.sortedChain (blockchain : JsVal) (sortOrder : String) :
    Option SortedChainRun :=
  match blockchain.optGet "chain" with
  | JsVal.arr items =>
    if items.all (fun block => (BlockchainView.indexOf block).isSome) then
      let copy := items
      let sorted := arraySort
        (fun a b => BlockchainView.compareIndex sortOrder
          ((BlockchainView.indexOf a).getD 0) ((BlockchainView.indexOf b).getD 0)) copy
      some ⟨sorted.1, items⟩
    else none
  | other => if other.truthy then none else some ⟨[], []⟩

/-- The list of blocks `BlockchainView` shows: the elements of the blocks of
`sortedChain`, in that order. -/
def BlockchainView.renderBlocks (runtime : RenderRuntime) (expandedBlock : JsVal)
    (sortedChain : List JsVal) : Except JsError (List BlockView) :=
  sortedChain.mapM (BlockchainView.renderBlock runtime expandedBlock)

/-- A backend that answers every request with the status 200: `/validate` with
the JSON body `null`, every other endpoint with an object. -/
def nullValidationBackend (request : Request) : FetchOutcome :=
  if request.url = API_BASE_URL none ++ "/validate" then
    FetchOutcome.resolved ⟨true, 200, "OK", Except.ok JsVal.null⟩
  else FetchOutcome.resolved ⟨true, 200, "OK", Except.ok (JsVal.obj [("length", JsVal.num 2)])⟩

/-! ## Theorems: `apiCall` and the wrappers -/

/-- C1: whenever the request fails, `apiCall` throws an `APIError` named
`APIError` whose `endpoint` is the endpoint argument, whose `originalError` is
the underlying error and whose `message` is the message of that error.  The
three ways to fail: `fetch` rejects with `e`; the response is not ok, where the
underlying error is the `Error` with message `HTTP <status>: <statusText>` and
no data is returned; the body fails to parse, `response.json()` rejecting
with `e`. -/
theorem apiCall_failure_throws_APIError (fetch : Request → FetchOutcome)
    (envUrl : Option String) (endpoint : String) (options : RequestInit) :
    (∀ e : JsError, fetch (apiRequest envUrl endpoint options) = FetchOutcome.rejected e →
      apiCall fetch envUrl endpoint options
        = Except.error ⟨"APIError", e.message, endpoint, e⟩) ∧
    (∀ r : Response, fetch (apiRequest envUrl endpoint options) = FetchOutcome.resolved r →
      r.ok = false →
      apiCall fetch envUrl endpoint options
        = Except.error ⟨"APIError", "HTTP " ++ toString r.status ++ ": " ++ r.statusText,
            endpoint, ⟨"Error", "HTTP " ++ toString r.status ++ ": " ++ r.statusText⟩⟩) ∧
    (∀ (r : Response) (e : JsError),
      fetch (apiRequest envUrl endpoint options) = FetchOutcome.resolved r →
      r.ok = true → r.json = Except.error e →
      apiCall fetch envUrl endpoint options
        = Except.error ⟨"APIError", e.message, endpoint, e⟩) := by
  refine ⟨?_, ?_, ?_⟩
  · intro e h
    simp [apiCall, h, APIError.new]
  · intro r h hok
    simp [apiCall, h, hok, APIError.new]
  · intro r e h hok hjson
    simp [apiCall, h, hok, hjson, APIError.new]

/-- Witness of C1: a rejected `fetch`, a 404 response and a body that does not
parse. -/
theorem apiCall_failure_throws_APIError_witness :
    apiCall (fun _ => FetchOutcome.rejected ⟨"TypeError", "Failed to fetch"⟩) none "/stats"
        RequestInit.empty
      = Except.error ⟨"APIError", "Failed to fetch", "/stats",
          ⟨"TypeError", "Failed to fetch"⟩⟩ ∧
    apiCall (fun _ => FetchOutcome.resolved ⟨false, 404, "Not Found", Except.ok (JsVal.obj [])⟩) none
        "/mine" ⟨some "POST", none, none⟩
      = Except.error ⟨"APIError", "HTTP " ++ toString 404 ++ ": " ++ "Not Found", "/mine",
          ⟨"Error", "HTTP " ++ toString 404 ++ ": " ++ "Not Found"⟩⟩ ∧
    apiCall (fun _ => FetchOutcome.resolved
          ⟨true, 200, "OK", Except.error ⟨"SyntaxError", "Unexpected end of JSON input"⟩⟩)
        none "/validate" RequestInit.empty
      = Except.error ⟨"APIError", "Unexpected end of JSON input", "/validate",
          ⟨"SyntaxError", "Unexpected end of JSON input"⟩⟩ :=
  ⟨(apiCall_failure_throws_APIError _ none "/stats" RequestInit.empty).1 _ rfl,
   (apiCall_failure_throws_APIError _ none "/mine" ⟨some "POST", none, none⟩).2.1 _ rfl rfl,
   (apiCall_failure_throws_APIError _ none "/validate" RequestInit.empty).2.2 _ _ rfl rfl rfl⟩

/-- C2: each wrapper sends exactly one request, to `API_BASE_URL` followed by
its endpoint: `getBlockchain` GET `/blockchain`, `addTransaction` POST
`/transaction` with the JSON text of the object holding `data`, `mineBlock`
POST `/mine`, `searchData` GET `/search?q=` followed by the URI-encoded query,
`validateChain` GET `/validate`, `getStats` GET `/stats`, `setDifficulty` POST
`/difficulty` with the JSON text of the object holding `difficulty`. -/
theorem wrappers_request_the_seven_endpoints (fetch : Request → FetchOutcome)
    (envUrl : Option String) (data query : String) (difficulty : Int) :
    (getBlockchain fetch envUrl).requests
      = [⟨API_BASE_URL envUrl ++ "/blockchain", DEFAULT_HEADERS, none, none⟩] ∧
    (addTransaction fetch envUrl data).requests
      = [⟨API_BASE_URL envUrl ++ "/transaction", DEFAULT_HEADERS, some "POST",
          some ("\x7b\"data\":" ++ jsonQuote data ++ "\x7d")⟩] ∧
    (mineBlock fetch envUrl).requests
      = [⟨API_BASE_URL envUrl ++ "/mine", DEFAULT_HEADERS, some "POST", none⟩] ∧
    (searchData fetch envUrl query).requests
      = [⟨API_BASE_URL envUrl ++ ("/search?q=" ++ encodeURIComponent query), DEFAULT_HEADERS,
          none, none⟩] ∧
    (validateChain fetch envUrl).requests
      = [⟨API_BASE_URL envUrl ++ "/validate", DEFAULT_HEADERS, none, none⟩] ∧
    (getStats fetch envUrl).requests
      = [⟨API_BASE_URL envUrl ++ "/stats", DEFAULT_HEADERS, none, none⟩] ∧
    (setDifficulty fetch envUrl difficulty).requests
      = [⟨API_BASE_URL envUrl ++ "/difficulty", DEFAULT_HEADERS, some "POST",
          some ("\x7b\"difficulty\":" ++ toString difficulty ++ "\x7d")⟩] ∧
    (∀ r ∈ (getBlockchain fetch envUrl).requests ++ (searchData fetch envUrl query).requests
        ++ (validateChain fetch envUrl).requests ++ (getStats fetch envUrl).requests,
      r.effectiveMethod = "GET") := by
  have hq : jsonQuote "data" = "\"data\"" := by decide
  have hd : jsonQuote "difficulty" = "\"difficulty\"" := by decide
  have hs : objSpread DEFAULT_HEADERS ([] : List (String × String)) = DEFAULT_HEADERS := by
    decide
  refine ⟨rfl, ?_, rfl, rfl, rfl, rfl, ?_, ?_⟩
  · simp [addTransaction, apiCallRun, apiRequest, jsonStringifyStrField, hq, String.append_assoc]
    rfl
  · simp [setDifficulty, apiCallRun, apiRequest, jsonStringifyNumField, hd, String.append_assoc]
    rfl
  · intro r hr
    simp [getBlockchain, searchData, validateChain, getStats, apiCallRun, apiRequest,
      RequestInit.empty] at hr
    rcases hr with h | h | h | h <;> subst h <;> rfl

/-! ## Theorems: `retryApiCall` -/

/-- The invocation after `n + 1` earlier ones is the one after `n` earlier
ones, seen from the world the first invocation leaves. -/
theorem invocation_succ {σ α ε : Type} (f : ApiFunction σ α ε) (w : σ) (n : Nat) :
    invocation f w (n + 1) = invocation f (f w).2 n := rfl

/-- The delays `b * 2 ^ (a + i)` for `i < n + 1`: the first one, then those
that start one power higher. -/
theorem map_range_succ_shift (b a n : Nat) :
    (List.range (n + 1)).map (fun i => b * 2 ^ (a + i))
      = b * 2 ^ a :: (List.range n).map (fun i => b * 2 ^ (a + 1 + i)) := by
  rw [List.range_succ_eq_map, List.map_cons, List.map_map]
  refine congrArg₂ _ rfl (List.map_congr_left ?_)
  intro i _
  simp only [Function.comp, Nat.succ_eq_add_one]
  congr 2
  omega

/-- The sum of the delays `b * 2 ^ i` for `i < m`. -/
theorem sum_backoff (b m : Nat) :
    ((List.range m).map (fun i => b * 2 ^ i)).sum = b * (2 ^ m - 1) := by
  have h : ((List.range m).map (fun i => b * 2 ^ i)).sum + b = b * 2 ^ m := by
    induction m with
    | zero => simp
    | succ k ih =>
      rw [List.range_succ, List.map_append, List.sum_append]
      simp only [List.map_cons, List.map_nil, List.sum_cons, List.sum_nil, Nat.add_zero]
      rw [Nat.add_right_comm, ih, pow_succ]
      ring
  rw [Nat.mul_sub_one]
  omega

/-- What the loop of `retryApiCall` does when entered at `attempt` with fuel
for all remaining iterations: it ends, and the run is determined by the
outcomes of the successive invocations. -/
theorem retryLoop_spec {σ α ε : Type} (f : ApiFunction σ α ε) (M : Int) (b : Nat) :
    ∀ (fuel attempt : Nat) (w : σ), 1 ≤ attempt → M + 1 ≤ (attempt : Int) + fuel →
    ∃ run : RetryRun σ α ε, retryLoop f M b fuel attempt w = some run ∧
      run.waits = (List.range (run.invocations - 1)).map (fun i => b * 2 ^ (attempt - 1 + i)) ∧
      run.world = worldAfter f w run.invocations ∧
      (∀ i, i + 1 < run.invocations → failed (invocation f w i) = true) ∧
      (1 ≤ run.invocations → (attempt : Int) + run.invocations ≤ M + 1) ∧
      (∀ v, run.completion = Completion.returned v →
        1 ≤ run.invocations ∧ invocation f w (run.invocations - 1) = Except.ok v) ∧
      (∀ e, run.completion = Completion.threw e →
        1 ≤ run.invocations ∧ invocation f w (run.invocations - 1) = Except.error e ∧
          (attempt : Int) + run.invocations = M + 1) ∧
      (run.completion = Completion.returnedUndefined →
        M < attempt ∧ run.invocations = 0) := by
  intro fuel
  induction fuel with
  | zero =>
    intro attempt w _ hfuel
    have hlt : ¬ ((attempt : Int) ≤ M) := by omega
    refine ⟨⟨Completion.returnedUndefined, 0, [], w⟩, ?_, ?_⟩
    · unfold retryLoop
      simp [hlt]
    · refine ⟨rfl, rfl, ?_, ?_, ?_, ?_, ?_⟩
      · intro i hi
        simp at hi
      · intro h
        simp at h
      · intro v h
        cases h
      · intro e h
        cases h
      · intro _
        exact ⟨by omega, rfl⟩
  | succ n ih =>
    intro attempt w hattempt hfuel
    by_cases hle : (attempt : Int) ≤ M
    · rcases hfw : f w with ⟨r, w1⟩
      have hw1 : (f w).2 = w1 := by rw [hfw]
      have hr : invocation f w 0 = r := by
        show (f w).1 = r
        rw [hfw]
      cases r with
      | ok v =>
        refine ⟨⟨Completion.returned v, 1, [], w1⟩, ?_, ?_⟩
        · unfold retryLoop
          simp [hle, hfw]
        · refine ⟨rfl, ?_, ?_, ?_, ?_, ?_, ?_⟩
          · show w1 = worldAfter f (f w).2 0
            rw [hw1]
            rfl
          · intro i hi
            simp at hi
          · intro _
            simp only [Nat.cast_one]
            omega
          · intro v1 h
            cases h
            exact ⟨le_refl 1, hr⟩
          · intro e h
            cases h
          · intro h
            cases h
      | error e =>
        by_cases heq : (attempt : Int) = M
        · refine ⟨⟨Completion.threw e, 1, [], w1⟩, ?_, ?_⟩
          · unfold retryLoop
            simp [hle, hfw, heq]
          · refine ⟨rfl, ?_, ?_, ?_, ?_, ?_, ?_⟩
            · show w1 = worldAfter f (f w).2 0
              rw [hw1]
              rfl
            · intro i hi
              simp at hi
            · intro _
              simp only [Nat.cast_one]
              omega
            · intro v1 h
              cases h
            · intro e1 h
              cases h
              refine ⟨le_refl 1, hr, ?_⟩
              simp only [Nat.cast_one]
              omega
            · intro h
              cases h
        · obtain ⟨run, hrun, hwaits, hworld, hfail, hbound, hret, hthrew, hundef⟩ :=
            ih (attempt + 1) w1 (by omega) (by push_cast; omega)
          have hpos : 1 ≤ run.invocations := by
            rcases hc : run.completion with v | _ | e1
            · exact (hret v hc).1
            · have := (hundef hc).1
              push_cast at this
              omega
            · exact (hthrew e1 hc).1
          refine ⟨⟨run.completion, run.invocations + 1,
            b * 2 ^ (attempt - 1) :: run.waits, run.world⟩, ?_, ?_⟩
          · rw [retryLoop]
            simp [hle, hfw, heq, hrun]
          · refine ⟨?_, ?_, ?_, ?_, ?_, ?_, ?_⟩
            · show b * 2 ^ (attempt - 1) :: run.waits = _
              rw [hwaits]
              obtain ⟨k, hk⟩ : ∃ k, run.invocations = k + 1 := ⟨run.invocations - 1, by omega⟩
              rw [hk]
              simp only [Nat.add_sub_cancel]
              rw [map_range_succ_shift]
              have : attempt - 1 + 1 = attempt := by omega
              rw [this]
            · show run.world = worldAfter f (f w).2 run.invocations
              rw [hw1]
              exact hworld
            · intro i hi
              cases i with
              | zero =>
                rw [hr]
                rfl
              | succ j =>
                rw [invocation_succ, hw1]
                exact hfail j (by simpa using hi)
            · intro _
              have := hbound hpos
              push_cast at this ⊢
              omega
            · intro v hc
              obtain ⟨_, hv⟩ := hret v hc
              refine ⟨by simp, ?_⟩
              obtain ⟨k, hk⟩ : ∃ k, run.invocations = k + 1 := ⟨run.invocations - 1, by omega⟩
              simp only [hk, Nat.add_sub_cancel] at hv ⊢
              rw [invocation_succ, hw1]
              exact hv
            · intro e1 hc
              obtain ⟨_, he, hcount⟩ := hthrew e1 hc
              refine ⟨by simp, ?_, ?_⟩
              · obtain ⟨k, hk⟩ : ∃ k, run.invocations = k + 1 := ⟨run.invocations - 1, by omega⟩
                simp only [hk, Nat.add_sub_cancel] at he ⊢
                rw [invocation_succ, hw1]
                exact he
              · push_cast at hcount ⊢
                omega
            · intro hc
              have := (hundef hc).1
              push_cast at this
              omega
    · refine ⟨⟨Completion.returnedUndefined, 0, [], w⟩, ?_, ?_⟩
      · unfold retryLoop
        simp [hle]
      · refine ⟨rfl, rfl, ?_, ?_, ?_, ?_, ?_⟩
        · intro i hi
          simp at hi
        · intro h
          simp at h
        · intro v h
          cases h
        · intro e h
          cases h
        · intro _
          exact ⟨by omega, rfl⟩

/-- The run of `retryApiCall`: the loop entered at `attempt = 1`. -/
theorem retryApiCall_spec {σ α ε : Type} (f : ApiFunction σ α ε) (M : Int) (b : Nat) (w : σ) :
    ∃ run : RetryRun σ α ε, retryApiCall f M b w = some run ∧
      run.waits = (List.range (run.invocations - 1)).map (fun i => b * 2 ^ i) ∧
      run.world = worldAfter f w run.invocations ∧
      (∀ i, i + 1 < run.invocations → failed (invocation f w i) = true) ∧
      (1 ≤ run.invocations → (run.invocations : Int) ≤ M) ∧
      (∀ v, run.completion = Completion.returned v →
        1 ≤ run.invocations ∧ invocation f w (run.invocations - 1) = Except.ok v) ∧
      (∀ e, run.completion = Completion.threw e →
        1 ≤ run.invocations ∧ invocation f w (run.invocations - 1) = Except.error e ∧
          (run.invocations : Int) = M) ∧
      (run.completion = Completion.returnedUndefined → M < 1 ∧ run.invocations = 0) := by
  obtain ⟨run, hrun, hwaits, hworld, hfail, hbound, hret, hthrew, hundef⟩ :=
    retryLoop_spec f M b M.toNat 1 w (le_refl 1) (by
      have := Int.self_le_toNat M
      push_cast
      omega)
  refine ⟨run, hrun, ?_, hworld, hfail, ?_, hret, ?_, ?_⟩
  · simpa using hwaits
  · intro h
    have := hbound h
    push_cast at this
    omega
  · intro e hc
    obtain ⟨h1, h2, h3⟩ := hthrew e hc
    refine ⟨h1, h2, ?_⟩
    push_cast at h3
    omega
  · intro hc
    obtain ⟨h1, h2⟩ := hundef hc
    exact ⟨by simpa using h1, h2⟩

/-- C3: for `maxRetries ≥ 1`, when the first successful invocation of
`apiFunction` is the `k`-th and `k ≤ maxRetries`, `retryApiCall` returns the
value of that invocation and has invoked `apiFunction` exactly `k` times. -/
theorem retryApiCall_returns_first_success {σ α ε : Type} (apiFunction : ApiFunction σ α ε)
    (maxRetries : Int) (baseDelay : Nat) (w : σ) (k : Nat) (v : α)
    (hmax : 1 ≤ maxRetries) (hk : 1 ≤ k) (hkmax : (k : Int) ≤ maxRetries)
    (hfail : ∀ i, i < k - 1 → failed (invocation apiFunction w i) = true)
    (hok : invocation apiFunction w (k - 1) = Except.ok v) :
    ∃ run : RetryRun σ α ε, retryApiCall apiFunction maxRetries baseDelay w = some run ∧
      run.completion = Completion.returned v ∧ run.invocations = k := by
  obtain ⟨run, hrun, _, _, hfailed, hbound, hret, hthrew, hundef⟩ :=
    retryApiCall_spec apiFunction maxRetries baseDelay w
  refine ⟨run, hrun, ?_⟩
  rcases hc : run.completion with v1 | _ | e
  · obtain ⟨hpos, hv1⟩ := hret v1 hc
    have hn : run.invocations = k := by
      rcases Nat.lt_trichotomy (run.invocations - 1) (k - 1) with h | h | h
      · have := hfail _ h
        rw [hv1] at this
        cases this
      · omega
      · have := hfailed (k - 1) (by omega)
        rw [hok] at this
        cases this
    refine ⟨?_, hn⟩
    rw [hn, hok] at hv1
    cases hv1
    rfl
  · have := (hundef hc).1
    omega
  · obtain ⟨hpos, he, hcount⟩ := hthrew e hc
    exfalso
    rcases Nat.lt_or_ge (k - 1) (run.invocations - 1) with h | h
    · have := hfailed (k - 1) (by omega)
      rw [hok] at this
      cases this
    · have hkn : k - 1 = run.invocations - 1 := by omega
      rw [hkn, he] at hok
      cases hok

/-- Witness of C3: the first two invocations fail, the third returns 42. -/
theorem retryApiCall_returns_first_success_witness :
    ∃ run : RetryRun Nat Nat String,
      retryApiCall (fun n => if n < 2 then (Except.error "down", n + 1)
        else (Except.ok 42, n + 1)) 3 1000 0 = some run ∧
      run.completion = Completion.returned 42 ∧ run.invocations = 3 :=
  retryApiCall_returns_first_success _ 3 1000 0 3 42 (by decide) (by decide) (by decide)
    (by decide) rfl

/-- C4: for `maxRetries ≥ 1`, when each of the first `maxRetries` invocations
fails, `retryApiCall` invokes `apiFunction` exactly `maxRetries` times and
throws the error of the last, the `maxRetries`-th, invocation. -/
theorem retryApiCall_throws_last_error {σ α ε : Type} (apiFunction : ApiFunction σ α ε)
    (maxRetries : Int) (baseDelay : Nat) (w : σ) (hmax : 1 ≤ maxRetries)
    (hfail : ∀ i, i < maxRetries.toNat → failed (invocation apiFunction w i) = true) :
    ∃ (run : RetryRun σ α ε) (e : ε),
      retryApiCall apiFunction maxRetries baseDelay w = some run ∧
      (run.invocations : Int) = maxRetries ∧
      run.completion = Completion.threw e ∧
      invocation apiFunction w (maxRetries.toNat - 1) = Except.error e := by
  obtain ⟨run, hrun, _, _, _, hbound, hret, hthrew, hundef⟩ :=
    retryApiCall_spec apiFunction maxRetries baseDelay w
  rcases hc : run.completion with v | _ | e
  · obtain ⟨hpos, hv⟩ := hret v hc
    have hb := hbound hpos
    have := hfail (run.invocations - 1) (by omega)
    rw [hv] at this
    cases this
  · have := (hundef hc).1
    omega
  · obtain ⟨hpos, he, hcount⟩ := hthrew e hc
    refine ⟨run, e, hrun, hcount, hc, ?_⟩
    have : maxRetries.toNat = run.invocations := by omega
    rw [this]
    exact he

/-- Witness of C4: the `n`-th invocation fails with the error `n`; with three
attempts the error thrown is the third one. -/
theorem retryApiCall_throws_last_error_witness :
    ∃ (run : RetryRun Nat String Nat) (e : Nat),
      retryApiCall (fun n => (Except.error (n + 1), n + 1)) 3 1000 0 = some run ∧
      (run.invocations : Int) = 3 ∧
      run.completion = Completion.threw e ∧
      invocation (fun n => ((Except.error (n + 1) : Except Nat String), n + 1)) 0
        ((3 : Int).toNat - 1) = Except.error e :=
  retryApiCall_throws_last_error _ 3 1000 0 (by decide) (by decide)

/-- C5: the waits of a run of `retryApiCall` are `baseDelay * 2 ^ (k - 1)` after
the `k`-th attempt, for each attempt but the last one made (no wait follows
the final attempt); a `k`-th failed attempt with `k < maxRetries` is followed by
that wait; and when every attempt fails the waits sum to
`baseDelay * (2 ^ (maxRetries - 1) - 1)`. -/
theorem retryApiCall_backoff {σ α ε : Type} (apiFunction : ApiFunction σ α ε)
    (maxRetries : Int) (baseDelay : Nat) (w : σ) :
    ∃ run : RetryRun σ α ε, retryApiCall apiFunction maxRetries baseDelay w = some run ∧
      run.waits = (List.range (run.invocations - 1)).map (fun i => baseDelay * 2 ^ i) ∧
      (∀ k : Nat, 1 ≤ k → (k : Int) < maxRetries →
        (∀ i, i < k → failed (invocation apiFunction w i) = true) →
        run.waits.get? (k - 1) = some (baseDelay * 2 ^ (k - 1))) ∧
      ((∀ i, i < maxRetries.toNat → failed (invocation apiFunction w i) = true) →
        run.waits.sum = baseDelay * (2 ^ (maxRetries - 1).toNat - 1)) := by
  obtain ⟨run, hrun, hwaits, _, hfailed, hbound, hret, hthrew, hundef⟩ :=
    retryApiCall_spec apiFunction maxRetries baseDelay w
  refine ⟨run, hrun, hwaits, ?_, ?_⟩
  · intro k hk hkmax hfail
    have hlt : k < run.invocations := by
      by_contra hge
      rcases hc : run.completion with v | _ | e
      · obtain ⟨hpos, hv⟩ := hret v hc
        have := hfail (run.invocations - 1) (by omega)
        rw [hv] at this
        cases this
      · have := (hundef hc).1
        omega
      · have := (hthrew e hc).2.2
        omega
    rw [hwaits, List.get?_eq_getElem?, List.getElem?_map, List.getElem?_range (by omega)]
    rfl
  · intro hfail
    have hn : run.invocations - 1 = (maxRetries - 1).toNat := by
      rcases hc : run.completion with v | _ | e
      · obtain ⟨hpos, hv⟩ := hret v hc
        have hb := hbound hpos
        have := hfail (run.invocations - 1) (by omega)
        rw [hv] at this
        cases this
      · obtain ⟨h1, h2⟩ := hundef hc
        omega
      · have := (hthrew e hc).2.2
        omega
    rw [hwaits, hn, sum_backoff]

/-- Witness of C5: four attempts that all fail, with a base delay of one
second, wait 1000, 2000 and 4000 ms, which sum to 7000 ms. -/
theorem retryApiCall_backoff_witness :
    ∃ run : RetryRun Nat String Nat,
      retryApiCall (fun n => (Except.error n, n + 1)) 4 1000 0 = some run ∧
      run.waits = [1000, 2000, 4000] ∧ run.waits.get? 1 = some 2000 ∧
      run.waits.sum = 7000 := by
  obtain ⟨run, hrun, hwaits, hk, hsum⟩ :=
    retryApiCall_backoff (fun n => ((Except.error n : Except Nat String), n + 1)) 4 1000 0
  have hrun1 := hrun
  rw [show retryApiCall (fun n => ((Except.error n : Except Nat String), n + 1)) 4 1000 0
    = some ⟨Completion.threw 3, 4, [1000, 2000, 4000], 4⟩ from rfl] at hrun1
  cases hrun1
  exact ⟨_, hrun, rfl, hk 2 (by decide) (by decide) (by decide), hsum (by decide)⟩

/-- C6 fails on the code: with `maxRetries = 0`, and with a negative
`maxRetries`, the loop body never runs; `retryApiCall` invokes `apiFunction`
not once and resolves to `undefined`, which is neither a value `apiFunction`
returned nor an error it threw. -/
theorem retryApiCall_without_attempts_returns_undefined {σ α ε : Type}
    (apiFunction : ApiFunction σ α ε) (baseDelay : Nat) (w : σ) :
    retryApiCall apiFunction 0 baseDelay w
      = some ⟨Completion.returnedUndefined, 0, [], w⟩ ∧
    retryApiCall apiFunction (-1) baseDelay w
      = some ⟨Completion.returnedUndefined, 0, [], w⟩ :=
  ⟨rfl, rfl⟩

/-! ## Theorems: `getErrorMessage` -/

/-- The embedding of `includes` decides whether the needle occurs as a
contiguous part of the string. -/
theorem jsIncludes_iff (s needle : String) :
    jsIncludes s needle = true ↔ needle.data <:+: s.data := by
  unfold jsIncludes
  rw [List.any_eq_true, List.infix_iff_prefix_suffix]
  constructor
  · rintro ⟨t, ht, hp⟩
    exact ⟨t, List.isPrefixOf_iff_prefix.mp hp, (List.mem_tails _ _).mp ht⟩
  · rintro ⟨t, hp, ht⟩
    exact ⟨t, (List.mem_tails _ _).mpr ht, List.isPrefixOf_iff_prefix.mpr hp⟩

/-- C7: `getErrorMessage` classifies by a fixed precedence.  For an `APIError`
`e`: the unable-to-connect message when `e.message` contains `fetch`; otherwise
the invalid-request message when it contains `400`; otherwise the server-error
message when it contains `500`; otherwise, and for every value that is no
`APIError` whatever its message holds, the message itself, or `An unexpected
error occurred.` when the message is empty or missing. -/
theorem getErrorMessage_precedence (e : APIError) (m : Option String) :
    ("fetch".data <:+: e.message.data →
      getErrorMessage (Thrown.apiError e) =
        "Unable to connect to the blockchain server. Please ensure the backend is running on port 8080.") ∧
    (¬ "fetch".data <:+: e.message.data → "400".data <:+: e.message.data →
      getErrorMessage (Thrown.apiError e) =
        "Invalid request. Please check your input and try again.") ∧
    (¬ "fetch".data <:+: e.message.data → ¬ "400".data <:+: e.message.data →
      "500".data <:+: e.message.data →
      getErrorMessage (Thrown.apiError e) = "Server error. Please try again later.") ∧
    (¬ "fetch".data <:+: e.message.data → ¬ "400".data <:+: e.message.data →
      ¬ "500".data <:+: e.message.data →
      getErrorMessage (Thrown.apiError e) =
        if e.message = "" then "An unexpected error occurred." else e.message) ∧
    getErrorMessage (Thrown.other m) =
      (match m with
        | some msg => if msg = "" then "An unexpected error occurred." else msg
        | none => "An unexpected error occurred.") := by
  have key : ∀ n : String, (jsIncludes e.message n = true) = (n.data <:+: e.message.data) :=
    fun n => propext (jsIncludes_iff e.message n)
  refine ⟨?_, ?_, ?_, ?_, ?_⟩
  · intro h1
    simp [getErrorMessage, key, h1]
  · intro h1 h2
    simp [getErrorMessage, key, h1, h2]
  · intro h1 h2 h3
    simp [getErrorMessage, key, h1, h2, h3]
  · intro h1 h2 h3
    simp [getErrorMessage, key, h1, h2, h3, Thrown.message]
  · cases m with
    | none => simp [getErrorMessage, Thrown.message]
    | some msg => simp [getErrorMessage, Thrown.message]

/-- Witness of C7: a connection failure, a 400, a 500, a 404 (kept as it is)
and a thrown value without a message. -/
theorem getErrorMessage_precedence_witness :
    getErrorMessage (Thrown.apiError
        ⟨"APIError", "Failed to fetch", "/stats", ⟨"TypeError", "Failed to fetch"⟩⟩) =
      "Unable to connect to the blockchain server. Please ensure the backend is running on port 8080." ∧
    getErrorMessage (Thrown.apiError
        ⟨"APIError", "HTTP 400: Bad Request", "/mine", ⟨"Error", "HTTP 400: Bad Request"⟩⟩) =
      "Invalid request. Please check your input and try again." ∧
    getErrorMessage (Thrown.apiError
        ⟨"APIError", "HTTP 500: Oops", "/mine", ⟨"Error", "HTTP 500: Oops"⟩⟩) =
      "Server error. Please try again later." ∧
    getErrorMessage (Thrown.apiError
        ⟨"APIError", "HTTP 404: Not Found", "/mine", ⟨"Error", "HTTP 404: Not Found"⟩⟩) =
      (if "HTTP 404: Not Found" = "" then "An unexpected error occurred."
        else "HTTP 404: Not Found") ∧
    getErrorMessage (Thrown.other none) = "An unexpected error occurred." :=
  ⟨(getErrorMessage_precedence
      ⟨"APIError", "Failed to fetch", "/stats", ⟨"TypeError", "Failed to fetch"⟩⟩ none).1
      (by decide),
   (getErrorMessage_precedence
      ⟨"APIError", "HTTP 400: Bad Request", "/mine", ⟨"Error", "HTTP 400: Bad Request"⟩⟩
      none).2.1 (by decide) (by decide),
   (getErrorMessage_precedence
      ⟨"APIError", "HTTP 500: Oops", "/mine", ⟨"Error", "HTTP 500: Oops"⟩⟩
      none).2.2.1 (by decide) (by decide) (by decide),
   (getErrorMessage_precedence
      ⟨"APIError", "HTTP 404: Not Found", "/mine", ⟨"Error", "HTTP 404: Not Found"⟩⟩
      none).2.2.2.1 (by decide) (by decide) (by decide),
   (getErrorMessage_precedence
      ⟨"APIError", "", "", ⟨"Error", ""⟩⟩ none).2.2.2.2⟩

/-! ## Theorems: the handlers -/

/-- `Promise.all` over three fulfilled promises is fulfilled with the three
values, in array order, whatever the order in which they settle. -/
theorem promiseAll_three_ok {α ε : Type} (a b c : α) (order : List Nat) :
    promiseAll [(Except.ok a : Except ε α), Except.ok b, Except.ok c] order
      = Except.ok [a, b, c] := by
  have hnone : order.findSome? (fun i =>
      match [(Except.ok a : Except ε α), Except.ok b, Except.ok c].get? i with
      | some (Except.error e) => some e
      | _ => none) = none := by
    rw [List.findSome?_eq_none_iff]
    intro i _
    rcases i with _ | _ | _ | i <;> rfl
  unfold promiseAll
  simp only [hnone]
  rfl

/-- `Promise.all` over three promises of which one rejects is rejected. -/
theorem promiseAll_three_failed {α ε : Type} (r1 r2 r3 : Except ε α) (order : List Nat)
    (h : failed r1 = true ∨ failed r2 = true ∨ failed r3 = true) :
    ∃ e, promiseAll [r1, r2, r3] order = Except.error e := by
  unfold promiseAll
  cases hf : order.findSome? (fun i =>
      match [r1, r2, r3].get? i with
      | some (Except.error e) => some e
      | _ => none) with
  | some e => exact ⟨e, rfl⟩
  | none =>
    cases r1 with
    | error e => exact ⟨e, rfl⟩
    | ok a =>
      cases r2 with
      | error e => exact ⟨e, rfl⟩
      | ok b =>
        cases r3 with
        | error e => exact ⟨e, rfl⟩
        | ok c => simp [failed] at h

/-- When the three requests succeed and `valid` can be read from the
validation response (the response is neither `null` nor `undefined`),
`fetchBlockchain` sets `blockchain`, `stats` and `isValid` to the two responses
and the value read, the values `fetchAllData` returns; when one of the three
requests fails, the three fields keep their values; `isLoading` is false at the
end on every path. -/
theorem fetchBlockchain_of_readable_validation (fetch : Request → FetchOutcome)
    (envUrl : Option String) (order : List Nat) (s : AppState) :
    (∀ blockchainData statsData validationData valid : JsVal,
      apiCall fetch envUrl "/blockchain" RequestInit.empty = Except.ok blockchainData →
      apiCall fetch envUrl "/stats" RequestInit.empty = Except.ok statsData →
      apiCall fetch envUrl "/validate" RequestInit.empty = Except.ok validationData →
      propGet validationData "valid" = Except.ok valid →
      (fetchBlockchain fetch envUrl order s).state
        = ⟨blockchainData, statsData, valid, s.activeTab, false⟩ ∧
      (fetchAllData fetch envUrl order).1 = Except.ok ⟨blockchainData, statsData, valid⟩) ∧
    (failed (apiCall fetch envUrl "/blockchain" RequestInit.empty) = true ∨
      failed (apiCall fetch envUrl "/stats" RequestInit.empty) = true ∨
      failed (apiCall fetch envUrl "/validate" RequestInit.empty) = true →
      (fetchBlockchain fetch envUrl order s).state
        = ⟨s.blockchain, s.stats, s.isValid, s.activeTab, false⟩) ∧
    (fetchBlockchain fetch envUrl order s).state.isLoading = false := by
  refine ⟨?_, ?_, ?_⟩
  · intro bd sd vd valid hb hs hv hvalid
    constructor
    · simp only [fetchBlockchain, apiCallRun, hb, hs, hv, promiseAll_three_ok, List.getD_cons_zero,
        List.getD_cons_succ, hvalid]
    · simp only [fetchAllData, getBlockchain, getStats, validateChain, apiCallRun, hb, hs, hv,
        promiseAll_three_ok, List.getD_cons_zero, List.getD_cons_succ, hvalid]
  · intro h
    obtain ⟨e, he⟩ := promiseAll_three_failed _ _ _ order h
    simp only [fetchBlockchain, apiCallRun, he]
  · simp only [fetchBlockchain]
    split
    · split <;> rfl
    · rfl

/-- C8: the combined fetch is not all-or-nothing when `/validate` answers with
the JSON body `null`.  The three requests succeed, `fetchBlockchain` sets
`blockchain` and `stats` to the first two responses, and reading
`validationData.valid` then throws, so that `isValid` keeps its former value;
`fetchAllData`, on the same responses, throws the `TypeError` and returns no
data. -/
theorem fetchBlockchain_partial_update_on_null_validation (order : List Nat) (s : AppState) :
    apiCall nullValidationBackend none "/blockchain" RequestInit.empty
      = Except.ok (JsVal.obj [("length", JsVal.num 2)]) ∧
    apiCall nullValidationBackend none "/stats" RequestInit.empty
      = Except.ok (JsVal.obj [("length", JsVal.num 2)]) ∧
    apiCall nullValidationBackend none "/validate" RequestInit.empty = Except.ok JsVal.null ∧
    (fetchBlockchain nullValidationBackend none order s).state
      = ⟨JsVal.obj [("length", JsVal.num 2)], JsVal.obj [("length", JsVal.num 2)], s.isValid,
          s.activeTab, false⟩ ∧
    (fetchAllData nullValidationBackend none order).1
      = Except.error (CaughtError.runtime
          ⟨"TypeError", "Cannot read properties of null (reading \x27valid\x27)"⟩) := by
  have hb : apiCall nullValidationBackend none "/blockchain" RequestInit.empty
      = Except.ok (JsVal.obj [("length", JsVal.num 2)]) := rfl
  have hs : apiCall nullValidationBackend none "/stats" RequestInit.empty
      = Except.ok (JsVal.obj [("length", JsVal.num 2)]) := rfl
  have hv : apiCall nullValidationBackend none "/validate" RequestInit.empty
      = Except.ok JsVal.null := rfl
  refine ⟨hb, hs, hv, ?_, ?_⟩
  · simp only [fetchBlockchain, apiCallRun, hb, hs, hv, promiseAll_three_ok, List.getD_cons_zero,
      List.getD_cons_succ, propGet]
  · simp only [fetchAllData, getBlockchain, getStats, validateChain, apiCallRun, hb, hs, hv,
      promiseAll_three_ok, List.getD_cons_zero, List.getD_cons_succ, propGet]
    rfl

/-- A string made of white space only trims to the empty string. -/
theorem jsTrim_blank (text : String) (h : text.data.all isJsWhitespace = true) :
    jsTrim text = "" := by
  have h1 : text.data.dropWhile isJsWhitespace = [] := by
    rw [List.dropWhile_eq_nil_iff]
    simpa using h
  unfold jsTrim
  rw [h1]
  rfl

/-- C9: for a transaction text that is empty or made of white space only,
`handleSubmit` sends no request, sets the message `Transaction data cannot be
empty` with the message type `error`, and leaves the entered text and the
`isLoading` flag as they were (the callback `onTransactionAdded` is not
called). -/
theorem handleSubmit_blank_text (fetch : Request → FetchOutcome) (envUrl : Option String)
    (s : TransactionFormState) (h : s.transactionData.data.all isJsWhitespace = true) :
    (TransactionForm.handleSubmit fetch envUrl s).requests = [] ∧
    (TransactionForm.handleSubmit fetch envUrl s).callbacks = 0 ∧
    (TransactionForm.handleSubmit fetch envUrl s).state
      = ⟨s.transactionData, s.isLoading, "Transaction data cannot be empty", "error"⟩ := by
  simp [TransactionForm.handleSubmit, jsTrim_blank _ h]

/-- Witness of C9: a text of blanks, a tab and a line break, and the empty
text. -/
theorem handleSubmit_blank_text_witness :
    (TransactionForm.handleSubmit (fun _ => FetchOutcome.rejected ⟨"TypeError", "x"⟩) none
        ⟨"  \t\n ", false, "", ""⟩).requests = [] ∧
    (TransactionForm.handleSubmit (fun _ => FetchOutcome.rejected ⟨"TypeError", "x"⟩) none
        ⟨"", false, "", ""⟩).state
      = ⟨"", false, "Transaction data cannot be empty", "error"⟩ :=
  ⟨(handleSubmit_blank_text _ none ⟨"  \t\n ", false, "", ""⟩ (by decide)).1,
   (handleSubmit_blank_text _ none ⟨"", false, "", ""⟩ (by decide)).2.2⟩

/-- C10: when `stats` reports `pending_transactions` equal to 0, `handleMine`
sends no request, does not call `onBlockMined`, leaves `isMining` as it was
(false, as the button is disabled while mining), and sets a mining result with
`success` false and the message `No pending transactions to mine. Add some
transactions first.`. -/
theorem handleMine_no_pending (fetch : Request → FetchOutcome) (envUrl : Option String)
    (stats : JsVal) (actualTime : String) (s : MiningState)
    (h : stats.optGet "pending_transactions" = JsVal.num 0) :
    (MiningComponent.handleMine fetch envUrl stats actualTime s).requests = [] ∧
    (MiningComponent.handleMine fetch envUrl stats actualTime s).callbacks = 0 ∧
    (MiningComponent.handleMine fetch envUrl stats actualTime s).state.isMining = s.isMining ∧
    (s.isMining = false →
      (MiningComponent.handleMine fetch envUrl stats actualTime s).state.isMining = false) ∧
    (MiningComponent.handleMine fetch envUrl stats actualTime s).state.miningResult
      = JsVal.obj [("success", JsVal.bool false),
          ("message",
            JsVal.str "No pending transactions to mine. Add some transactions first.")] := by
  simp [MiningComponent.handleMine, h, JsVal.strictEqZero]

/-- Witness of C10: the stats of a chain with one block and an empty pool. -/
theorem handleMine_no_pending_witness :
    (MiningComponent.handleMine
        (fun _ => FetchOutcome.resolved
          ⟨true, 200, "OK", Except.ok (JsVal.obj [("success", JsVal.bool true)])⟩)
        none
        (JsVal.obj [("total_blocks", JsVal.num 1), ("pending_transactions", JsVal.num 0),
          ("difficulty", JsVal.num 4)])
        "0.00" ⟨false, JsVal.null, 4, 0, "~15-45 seconds"⟩).requests = [] :=
  (handleMine_no_pending _ none
    (JsVal.obj [("total_blocks", JsVal.num 1), ("pending_transactions", JsVal.num 0),
      ("difficulty", JsVal.num 4)])
    "0.00" ⟨false, JsVal.null, 4, 0, "~15-45 seconds"⟩ rfl).1

/-! ## Theorems: difficulty and backend health -/

/-- C11: a rejected difficulty changes nothing.  `handleDifficultyChange` ends
without an error escaping; it sets the held difficulty to `newDifficulty` when
the `/difficulty` request returns `success` true; when the answer carries a
false (or no) `success`, when the request throws, and when reading `success`
from the answer throws, the state, and so the held difficulty, is as before. -/
theorem handleDifficultyChange_keeps_rejected (fetch : Request → FetchOutcome)
    (envUrl : Option String) (newDifficulty : Int) (s : MiningState) :
    ∃ run : HandlerRun MiningState,
      MiningComponent.handleDifficultyChange fetch envUrl newDifficulty s = Except.ok run ∧
      (∀ result : JsVal,
        apiCall fetch envUrl "/difficulty"
          ⟨some "POST", some (jsonStringifyNumField "difficulty" newDifficulty), none⟩
          = Except.ok result →
        propGet result "success" = Except.ok (JsVal.bool true) →
        run.state = ⟨s.isMining, s.miningResult, newDifficulty, s.miningTime, s.estimatedTime⟩) ∧
      (∀ result success : JsVal,
        apiCall fetch envUrl "/difficulty"
          ⟨some "POST", some (jsonStringifyNumField "difficulty" newDifficulty), none⟩
          = Except.ok result →
        propGet result "success" = Except.ok success → success.truthy = false →
        run.state = s) ∧
      (failed (apiCall fetch envUrl "/difficulty"
          ⟨some "POST", some (jsonStringifyNumField "difficulty" newDifficulty), none⟩) = true →
        run.state = s) ∧
      (∀ result : JsVal,
        apiCall fetch envUrl "/difficulty"
          ⟨some "POST", some (jsonStringifyNumField "difficulty" newDifficulty), none⟩
          = Except.ok result →
        failed (propGet result "success") = true →
        run.state = s) := by
  unfold MiningComponent.handleDifficultyChange
  simp only [apiCallRun]
  cases hcall : apiCall fetch envUrl "/difficulty"
      ⟨some "POST", some (jsonStringifyNumField "difficulty" newDifficulty), none⟩ with
  | error e =>
    refine ⟨_, rfl, ?_, ?_, ?_, ?_⟩
    · intro result h
      cases h
    · intro result success h
      cases h
    · intro _
      rfl
    · intro result h
      cases h
  | ok result =>
    cases hget : propGet result "success" with
    | error e =>
      refine ⟨⟨s, [apiRequest envUrl "/difficulty"
          ⟨some "POST", some (jsonStringifyNumField "difficulty" newDifficulty), none⟩],
        0⟩, ?_, ?_, ?_, ?_, ?_⟩
      · simp [tryCatch, hget]
      · intro r h hs
        cases h
        rw [hget] at hs
        cases hs
      · intro _ _ _ _ _
        rfl
      · intro _
        rfl
      · intro _ _ _
        rfl
    | ok success =>
      by_cases ht : success.truthy = true
      · refine ⟨⟨⟨s.isMining, s.miningResult, newDifficulty, s.miningTime, s.estimatedTime⟩,
          [apiRequest envUrl "/difficulty"
            ⟨some "POST", some (jsonStringifyNumField "difficulty" newDifficulty), none⟩],
          0⟩, ?_, ?_, ?_, ?_, ?_⟩
        · simp [tryCatch, hget, ht]
        · intro _ _ _
          rfl
        · intro r v h hv hf
          cases h
          rw [hget] at hv
          cases hv
          rw [ht] at hf
          cases hf
        · intro h
          simp [failed] at h
        · intro r h hf
          cases h
          rw [hget] at hf
          simp [failed] at hf
      · refine ⟨⟨s, [apiRequest envUrl "/difficulty"
            ⟨some "POST", some (jsonStringifyNumField "difficulty" newDifficulty), none⟩],
          0⟩, ?_, ?_, ?_, ?_, ?_⟩
        · simp [tryCatch, hget, ht]
        · intro r h hs
          cases h
          rw [hget] at hs
          cases hs
          exact absurd rfl ht
        · intro _ _ _ _ _
          rfl
        · intro _
          rfl
        · intro _ _ _
          rfl

/-- Witness of C11: from difficulty 4, a backend that accepts 5, one that
answers `success` false, one that cannot be reached, and one that answers with
the body `null`. -/
theorem handleDifficultyChange_keeps_rejected_witness :
    (∃ run : HandlerRun MiningState,
      MiningComponent.handleDifficultyChange
        (fun _ => FetchOutcome.resolved
          ⟨true, 200, "OK", Except.ok (JsVal.obj [("success", JsVal.bool true)])⟩)
        none 5 MiningComponent.initialState = Except.ok run ∧ run.state.difficulty = 5) ∧
    (∃ run : HandlerRun MiningState,
      MiningComponent.handleDifficultyChange
        (fun _ => FetchOutcome.resolved
          ⟨true, 200, "OK", Except.ok (JsVal.obj [("success", JsVal.bool false)])⟩)
        none 9 MiningComponent.initialState = Except.ok run ∧ run.state.difficulty = 4) ∧
    (∃ run : HandlerRun MiningState,
      MiningComponent.handleDifficultyChange
        (fun _ => FetchOutcome.rejected ⟨"TypeError", "Failed to fetch"⟩)
        none 9 MiningComponent.initialState = Except.ok run ∧ run.state.difficulty = 4) ∧
    (∃ run : HandlerRun MiningState,
      MiningComponent.handleDifficultyChange
        (fun _ => FetchOutcome.resolved ⟨true, 200, "OK", Except.ok JsVal.null⟩)
        none 9 MiningComponent.initialState = Except.ok run ∧ run.state.difficulty = 4) := by
  refine ⟨?_, ?_, ?_, ?_⟩
  · obtain ⟨run, hrun, hset, _, _, _⟩ := handleDifficultyChange_keeps_rejected
      (fun _ => FetchOutcome.resolved
        ⟨true, 200, "OK", Except.ok (JsVal.obj [("success", JsVal.bool true)])⟩)
      none 5 MiningComponent.initialState
    exact ⟨run, hrun, by rw [hset (JsVal.obj [("success", JsVal.bool true)]) rfl rfl]⟩
  · obtain ⟨run, hrun, _, hkeep, _, _⟩ := handleDifficultyChange_keeps_rejected
      (fun _ => FetchOutcome.resolved
        ⟨true, 200, "OK", Except.ok (JsVal.obj [("success", JsVal.bool false)])⟩)
      none 9 MiningComponent.initialState
    exact ⟨run, hrun, by
      rw [hkeep (JsVal.obj [("success", JsVal.bool false)]) (JsVal.bool false) rfl rfl rfl]
      rfl⟩
  · obtain ⟨run, hrun, _, _, hfail, _⟩ := handleDifficultyChange_keeps_rejected
      (fun _ => FetchOutcome.rejected ⟨"TypeError", "Failed to fetch"⟩)
      none 9 MiningComponent.initialState
    exact ⟨run, hrun, by rw [hfail rfl]; rfl⟩
  · obtain ⟨run, hrun, _, _, _, hnull⟩ := handleDifficultyChange_keeps_rejected
      (fun _ => FetchOutcome.resolved ⟨true, 200, "OK", Except.ok JsVal.null⟩)
      none 9 MiningComponent.initialState
    exact ⟨run, hrun, by rw [hnull JsVal.null rfl rfl]; rfl⟩

/-- C12: the difficulty selector offers exactly the integers from
`MINING_DIFFICULTY.MIN` to `MINING_DIFFICULTY.MAX`, that is 1 to 6; for each
value the selector can report, `parseInt` gives such an integer `d`, and the
one request the change handler sends goes to `/difficulty` with the JSON text
of the object holding `d`; the initial difficulty 4 equals
`MINING_DIFFICULTY.DEFAULT` and lies in the range. -/
theorem difficulty_sent_within_bounds :
    MINING_DIFFICULTY.MIN = 1 ∧ MINING_DIFFICULTY.MAX = 6 ∧
    (∀ d : Int, d ∈ MiningComponent.difficultyOptions ↔
      MINING_DIFFICULTY.MIN ≤ d ∧ d ≤ MINING_DIFFICULTY.MAX) ∧
    (∀ value ∈ MiningComponent.difficultyOptionValues, ∃ d : Int,
      parseInt value = some d ∧ MINING_DIFFICULTY.MIN ≤ d ∧ d ≤ MINING_DIFFICULTY.MAX ∧
      ∀ (fetch : Request → FetchOutcome) (envUrl : Option String) (s : MiningState),
        ∃ run : HandlerRun MiningState,
          MiningComponent.difficultySelectChange fetch envUrl value s = some (Except.ok run) ∧
          run.requests = [⟨API_BASE_URL envUrl ++ "/difficulty", DEFAULT_HEADERS, some "POST",
            some ("\x7b\"difficulty\":" ++ toString d ++ "\x7d")⟩]) ∧
    MiningComponent.initialState.difficulty = MINING_DIFFICULTY.DEFAULT ∧
    MINING_DIFFICULTY.MIN ≤ MiningComponent.initialState.difficulty ∧
    MiningComponent.initialState.difficulty ≤ MINING_DIFFICULTY.MAX := by
  have hreq : ∀ (fetch : Request → FetchOutcome) (envUrl : Option String) (s : MiningState)
      (d : Int), ∃ run : HandlerRun MiningState,
        MiningComponent.handleDifficultyChange fetch envUrl d s = Except.ok run ∧
        run.requests = [⟨API_BASE_URL envUrl ++ "/difficulty", DEFAULT_HEADERS, some "POST",
          some ("\x7b\"difficulty\":" ++ toString d ++ "\x7d")⟩] := by
    intro fetch envUrl s d
    have hd : jsonQuote "difficulty" = "\"difficulty\"" := by decide
    have hbody : jsonStringifyNumField "difficulty" d
        = "\x7b\"difficulty\":" ++ toString d ++ "\x7d" := by
      simp only [jsonStringifyNumField, hd, String.append_assoc]
      rfl
    have hs : objSpread DEFAULT_HEADERS ([] : List (String × String)) = DEFAULT_HEADERS := by
      decide
    unfold MiningComponent.handleDifficultyChange
    simp only [apiCallRun, apiRequest, hbody, Option.getD_none, hs]
    cases apiCall fetch envUrl "/difficulty"
        ⟨some "POST", some ("\x7b\"difficulty\":" ++ toString d ++ "\x7d"), none⟩ with
    | error e => exact ⟨_, rfl, rfl⟩
    | ok result =>
      cases hget : propGet result "success" with
      | error e => simp [tryCatch, hget]
      | ok success =>
        by_cases ht : success.truthy = true
        · simp [tryCatch, hget, ht]
        · simp [tryCatch, hget, ht]
  refine ⟨rfl, rfl, ?_, ?_, rfl, by decide, by decide⟩
  · intro d
    simp only [MiningComponent.difficultyOptions, MINING_DIFFICULTY.MIN, MINING_DIFFICULTY.MAX,
      List.mem_cons, List.mem_singleton, List.not_mem_nil, or_false]
    omega
  · intro value hvalue
    have hvals : MiningComponent.difficultyOptionValues = ["1", "2", "3", "4", "5", "6"] := by
      decide
    rw [hvals] at hvalue
    simp only [List.mem_cons, List.mem_singleton, List.not_mem_nil, or_false] at hvalue
    have hcase : ∀ (v : String) (d : Int), parseInt v = some d →
        MINING_DIFFICULTY.MIN ≤ d → d ≤ MINING_DIFFICULTY.MAX →
        ∃ d : Int, parseInt v = some d ∧ MINING_DIFFICULTY.MIN ≤ d ∧
          d ≤ MINING_DIFFICULTY.MAX ∧
          ∀ (fetch : Request → FetchOutcome) (envUrl : Option String) (s : MiningState),
            ∃ run : HandlerRun MiningState,
              MiningComponent.difficultySelectChange fetch envUrl v s = some (Except.ok run) ∧
              run.requests = [⟨API_BASE_URL envUrl ++ "/difficulty", DEFAULT_HEADERS,
                some "POST", some ("\x7b\"difficulty\":" ++ toString d ++ "\x7d")⟩] := by
      intro v d hp h1 h2
      refine ⟨d, hp, h1, h2, ?_⟩
      intro fetch envUrl s
      obtain ⟨run, hrun, hr⟩ := hreq fetch envUrl s d
      exact ⟨run, by simp [MiningComponent.difficultySelectChange, hp, hrun], hr⟩
    rcases hvalue with h | h | h | h | h | h <;> subst h
    · exact hcase "1" 1 (by decide) (by decide) (by decide)
    · exact hcase "2" 2 (by decide) (by decide) (by decide)
    · exact hcase "3" 3 (by decide) (by decide) (by decide)
    · exact hcase "4" 4 (by decide) (by decide) (by decide)
    · exact hcase "5" 5 (by decide) (by decide) (by decide)
    · exact hcase "6" 6 (by decide) (by decide) (by decide)

/-- Witness of C12: the option with the value 6. -/
theorem difficulty_sent_within_bounds_witness :
    ∃ d : Int, parseInt "6" = some d ∧ MINING_DIFFICULTY.MIN ≤ d ∧ d ≤ MINING_DIFFICULTY.MAX :=
  match difficulty_sent_within_bounds.2.2.2.1 "6" (by decide) with
  | ⟨d, h1, h2, h3, _⟩ => ⟨d, h1, h2, h3⟩

/-- C18: `checkBackendHealth` never rejects; it resolves to `true` exactly
when the `/stats` request succeeds and to `false` exactly when it fails, and
`/stats` is the one request it sends. -/
theorem checkBackendHealth_never_rejects (fetch : Request → FetchOutcome)
    (envUrl : Option String) :
    (∃ healthy : Bool, (checkBackendHealth fetch envUrl).1 = Except.ok healthy) ∧
    ((checkBackendHealth fetch envUrl).1 = Except.ok true ↔
      failed (apiCall fetch envUrl "/stats" RequestInit.empty) = false) ∧
    ((checkBackendHealth fetch envUrl).1 = Except.ok false ↔
      failed (apiCall fetch envUrl "/stats" RequestInit.empty) = true) ∧
    (checkBackendHealth fetch envUrl).2
      = [⟨API_BASE_URL envUrl ++ "/stats", DEFAULT_HEADERS, none, none⟩] := by
  unfold checkBackendHealth
  simp only [getStats, apiCallRun]
  cases apiCall fetch envUrl "/stats" RequestInit.empty with
  | error e => exact ⟨⟨false, rfl⟩, by simp [tryCatch, failed], by simp [tryCatch, failed], rfl⟩
  | ok data => exact ⟨⟨true, rfl⟩, by simp [tryCatch, failed], by simp [tryCatch, failed], rfl⟩

/-- Witness of C18: a backend that answers, and one that cannot be reached. -/
theorem checkBackendHealth_never_rejects_witness :
    (checkBackendHealth
      (fun _ => FetchOutcome.resolved ⟨true, 200, "OK", Except.ok (JsVal.obj [])⟩)
      none).1 = Except.ok true ∧
    (checkBackendHealth (fun _ => FetchOutcome.rejected ⟨"TypeError", "Failed to fetch"⟩)
      none).1 = Except.ok false :=
  ⟨(checkBackendHealth_never_rejects _ none).2.1.mpr rfl,
   (checkBackendHealth_never_rejects _ none).2.2.1.mpr rfl⟩

/-! ## Theorems: rendering of blocks and search results -/

/-- The entries shown for transactions that are objects holding their text
under `data`. -/
theorem renderEntries_of_data (txs : List (JsObject × String))
    (h : ∀ p ∈ txs, JsObject.get p.1 "data" = JsVal.str p.2) (i : Nat) :
    BlockchainView.renderEntries i (txs.map (fun p => JsVal.obj p.1))
      = Except.ok (((txs.map Prod.snd).enumFrom i).map
          (fun p => ⟨p.2, "#" ++ toString p.1⟩)) := by
  induction txs generalizing i with
  | nil => rfl
  | cons p rest ih =>
    have hp : JsObject.get p.1 "data" = JsVal.str p.2 := h p (List.mem_cons_self _ _)
    have hrest := ih (fun q hq => h q (List.mem_cons_of_mem _ hq)) (i + 1)
    simp only [List.map_cons, BlockchainView.renderEntries, propGet, hp, renderChild, hrest,
      List.enumFrom_cons]

/-- The entries shown for transactions that are raw strings: one entry each,
without text. -/
theorem renderEntries_of_strings (texts : List String) (i : Nat) :
    BlockchainView.renderEntries i (texts.map JsVal.str)
      = Except.ok ((texts.enumFrom i).map (fun p => ⟨"", "#" ++ toString p.1⟩)) := by
  induction texts generalizing i with
  | nil => rfl
  | cons t rest ih =>
    simp only [List.map_cons, BlockchainView.renderEntries, propGet, renderChild, ih (i + 1),
      List.enumFrom_cons]

/-- The text `formatHash` gives for a string, whatever the string. -/
theorem formatHash_str (s : String) (length : Nat) :
    ∃ t, BlockchainView.formatHash (JsVal.str s) length = Except.ok t := by
  unfold BlockchainView.formatHash
  split
  · exact ⟨_, rfl⟩
  · exact ⟨_, rfl⟩

/-- The text shown for a previous hash that is a string. -/
theorem previousHashText_str (s : String) :
    ∃ t, BlockchainView.previousHashText (JsVal.str s) = Except.ok t := by
  unfold BlockchainView.previousHashText
  split
  · exact ⟨_, rfl⟩
  · exact formatHash_str s 40

/-- A block with the fields of the block representation renders when it is
the expanded block, and its details hold the entries of its transaction
list. -/
theorem renderBlock_expanded (runtime : RenderRuntime) (fields : JsObject)
    (index nonce : Int) (hash previousHash merkleRoot iso : String) (items : List JsVal)
    (entries : List TransactionEntry)
    (hindex : JsObject.get fields "index" = JsVal.num index)
    (hhash : JsObject.get fields "hash" = JsVal.str hash)
    (hprevious : JsObject.get fields "previous_hash" = JsVal.str previousHash)
    (hmerkle : JsObject.get fields "merkle_root" = JsVal.str merkleRoot)
    (hnonce : JsObject.get fields "nonce" = JsVal.num nonce)
    (htime : runtime.isoDate (JsObject.get fields "timestamp") = Except.ok iso)
    (hitems : JsObject.get fields "transactions" = JsVal.arr items)
    (hentries : BlockchainView.renderEntries 0 items = Except.ok entries) :
    ∃ (view : BlockView) (details : ExpandedBlockView),
      BlockchainView.renderBlock runtime (JsVal.num index) (JsVal.obj fields) = Except.ok view ∧
      view.expanded = some details ∧ details.transactions = entries ∧
      view.transactionCount = toString items.length := by
  obtain ⟨hashText, hhashText⟩ := formatHash_str hash 30
  obtain ⟨merkleText, hmerkleText⟩ := formatHash_str merkleRoot 40
  obtain ⟨previousText, hpreviousText⟩ := previousHashText_str previousHash
  simp only [BlockchainView.renderBlock, BlockchainView.renderDetails,
    BlockchainView.renderExpanded, BlockchainView.renderTransactions,
    BlockchainView.nonceText, propGet, lengthOf, renderChild, hindex, hhash, hprevious, hmerkle,
    hnonce, htime, hitems, hentries, hhashText, hmerkleText, hpreviousText, bind, Except.bind,
    JsVal.strictEq, beq_self_eq_true, if_true]
  exact ⟨_, _, rfl, rfl, rfl, rfl⟩

/-- C13 fails on the code: for the block of the spec whose one transaction is
the raw text `Alice sends 10 coins to Bob`, the expanded block renders and
shows one entry whose text is empty, as the view reads `tx.data`, which a
string does not have. -/
theorem renderBlock_raw_text_shows_nothing :
    BlockchainView.renderBlock
      ⟨fun _ => "11/14/2023, 10:15:00 PM", fun _ => Except.ok "2023-11-14T22:15:00.000Z",
        fun _ => "7"⟩
      (JsVal.num 1)
      (JsVal.obj [("index", JsVal.num 1), ("timestamp", JsVal.num 1700000100),
        ("transactions", JsVal.arr [JsVal.str "Alice sends 10 coins to Bob"]),
        ("previous_hash", JsVal.str "00ab"), ("merkle_root", JsVal.str "cd12"),
        ("nonce", JsVal.num 7), ("hash", JsVal.str "00ef")])
      = Except.ok ⟨"🔷 Block #1", "11/14/2023, 10:15:00 PM", "00ef... 📋", "1", "🔼",
          some ⟨"00ab... 📋", "cd12... 📋", "7", "2023-11-14T22:15:00.000Z", [⟨"", "#0"⟩],
            ["✅ Hash Valid", "✅ Merkle Root Valid", "✅ Previous Hash Linked"]⟩⟩ ∧
    ([⟨"", "#0"⟩] : List TransactionEntry).map (fun entry => entry.text)
      ≠ ["Alice sends 10 coins to Bob"] :=
  ⟨rfl, by decide⟩

/-- C13 as amended: a block that carries `index`, `hash`, `previous_hash`,
`merkle_root`, `nonce` and a `timestamp` that is a valid date renders when it is
the expanded block.  When its `transactions` are objects that hold their text
under `data`, the expanded block shows the text of each transaction, one entry
per transaction in stored order, labelled with its position; when its
`transactions` are raw strings it shows one entry per transaction in stored
order, each without text. -/
theorem renderBlock_shows_transaction_data (runtime : RenderRuntime) (fields : JsObject)
    (index nonce : Int) (hash previousHash merkleRoot iso : String)
    (hindex : JsObject.get fields "index" = JsVal.num index)
    (hhash : JsObject.get fields "hash" = JsVal.str hash)
    (hprevious : JsObject.get fields "previous_hash" = JsVal.str previousHash)
    (hmerkle : JsObject.get fields "merkle_root" = JsVal.str merkleRoot)
    (hnonce : JsObject.get fields "nonce" = JsVal.num nonce)
    (htime : runtime.isoDate (JsObject.get fields "timestamp") = Except.ok iso) :
    (∀ txs : List (JsObject × String),
      (∀ p ∈ txs, JsObject.get p.1 "data" = JsVal.str p.2) →
      JsObject.get fields "transactions" = JsVal.arr (txs.map (fun p => JsVal.obj p.1)) →
      ∃ (view : BlockView) (details : ExpandedBlockView),
        BlockchainView.renderBlock runtime (JsVal.num index) (JsVal.obj fields)
          = Except.ok view ∧
        view.expanded = some details ∧
        details.transactions
          = ((txs.map Prod.snd).enumFrom 0).map (fun p => ⟨p.2, "#" ++ toString p.1⟩)) ∧
    (∀ texts : List String,
      JsObject.get fields "transactions" = JsVal.arr (texts.map JsVal.str) →
      ∃ (view : BlockView) (details : ExpandedBlockView),
        BlockchainView.renderBlock runtime (JsVal.num index) (JsVal.obj fields)
          = Except.ok view ∧
        view.expanded = some details ∧
        details.transactions
          = (texts.enumFrom 0).map (fun p => ⟨"", "#" ++ toString p.1⟩)) := by
  constructor
  · intro txs hdata hfield
    obtain ⟨view, details, hview, hexpanded, htransactions, _⟩ :=
      renderBlock_expanded runtime fields index nonce hash previousHash merkleRoot iso _ _
        hindex hhash hprevious hmerkle hnonce htime hfield (renderEntries_of_data txs hdata 0)
    exact ⟨view, details, hview, hexpanded, htransactions⟩
  · intro texts hfield
    obtain ⟨view, details, hview, hexpanded, htransactions, _⟩ :=
      renderBlock_expanded runtime fields index nonce hash previousHash merkleRoot iso _ _
        hindex hhash hprevious hmerkle hnonce htime hfield (renderEntries_of_strings texts 0)
    exact ⟨view, details, hview, hexpanded, htransactions⟩

/-- Witness of C13 as amended: the expanded block 1, with two transaction
objects. -/
theorem renderBlock_shows_transaction_data_witness :
    ∃ (view : BlockView) (details : ExpandedBlockView),
      BlockchainView.renderBlock
        ⟨fun _ => "11/14/2023, 10:15:00 PM", fun _ => Except.ok "2023-11-14T22:15:00.000Z",
          fun _ => "7"⟩
        (JsVal.num 1)
        (JsVal.obj [("index", JsVal.num 1), ("timestamp", JsVal.num 1700000100),
          ("transactions",
            JsVal.arr [JsVal.obj [("data", JsVal.str "Alice sends 10 coins to Bob")],
              JsVal.obj [("data", JsVal.str "Bob sends 5 coins to Charlie")]]),
          ("previous_hash", JsVal.str "00ab"), ("merkle_root", JsVal.str "cd12"),
          ("nonce", JsVal.num 7), ("hash", JsVal.str "00ef")])
        = Except.ok view ∧
      view.expanded = some details ∧
      details.transactions
        = [⟨"Alice sends 10 coins to Bob", "#" ++ toString 0⟩,
            ⟨"Bob sends 5 coins to Charlie", "#" ++ toString 1⟩] :=
  (renderBlock_shows_transaction_data
    ⟨fun _ => "11/14/2023, 10:15:00 PM", fun _ => Except.ok "2023-11-14T22:15:00.000Z",
      fun _ => "7"⟩
    [("index", JsVal.num 1), ("timestamp", JsVal.num 1700000100),
      ("transactions",
        JsVal.arr [JsVal.obj [("data", JsVal.str "Alice sends 10 coins to Bob")],
          JsVal.obj [("data", JsVal.str "Bob sends 5 coins to Charlie")]]),
      ("previous_hash", JsVal.str "00ab"), ("merkle_root", JsVal.str "cd12"),
      ("nonce", JsVal.num 7), ("hash", JsVal.str "00ef")]
    1 7 "00ef" "00ab" "cd12" "2023-11-14T22:15:00.000Z" rfl rfl rfl rfl rfl rfl).1
    [([("data", JsVal.str "Alice sends 10 coins to Bob")], "Alice sends 10 coins to Bob"),
     ([("data", JsVal.str "Bob sends 5 coins to Charlie")], "Bob sends 5 coins to Charlie")]
    (by
      intro p hp
      simp only [List.mem_cons, List.mem_singleton, List.not_mem_nil, or_false] at hp
      rcases hp with h | h <;> subst h <;> rfl)
    rfl

/-- A literal that matches at the start of a text is no longer than the
text. -/
theorem matchesAt_length (term text : List Char) (h : matchesAt term text = true) :
    term.length ≤ text.length := by
  induction term generalizing text with
  | nil => simp
  | cons t ts ih =>
    cases text with
    | nil => simp [matchesAt] at h
    | cons c cs =>
      simp only [matchesAt, Bool.and_eq_true] at h
      simpa using ih cs h.2

/-- The parts of the split, put together again, are the text. -/
theorem literalSplit_flatten (term : List Char) (hterm : term ≠ []) :
    ∀ (text : List Char) (skip : Nat) (acc : List Char), skip ≤ text.length →
      (literalSplit term text skip acc).flatten = acc.reverse ++ text.drop skip := by
  intro text
  induction text with
  | nil =>
    intro skip acc _
    simp [literalSplit]
  | cons c cs ih =>
    intro skip acc hskip
    cases skip with
    | succ k =>
      simp only [literalSplit, List.drop_succ_cons]
      exact ih k acc (by simpa using hskip)
    | zero =>
      by_cases hm : matchesAt term (c :: cs) = true
      · have hlen := matchesAt_length term (c :: cs) hm
        have hpos : 1 ≤ term.length := by
          cases term with
          | nil => exact absurd rfl hterm
          | cons _ _ => simp
        simp only [List.length_cons] at hlen
        simp only [literalSplit, hm, if_true, List.flatten_cons, List.drop_zero]
        rw [ih (term.length - 1) [] (by omega)]
        have hdrop : List.drop (term.length - 1) cs = List.drop term.length (c :: cs) := by
          obtain ⟨n, hn⟩ : ∃ n, term.length = n + 1 := ⟨term.length - 1, by omega⟩
          rw [hn]
          simp
        rw [hdrop]
        simp
      · simp only [literalSplit, hm, List.drop_zero, Bool.false_eq_true, if_false]
        rw [ih 0 (c :: acc) (Nat.zero_le _)]
        simp

/-- Marking keeps the text of every part. -/
theorem markParts_text (term : List Char) (parts : List (List Char)) (lastIndex : Nat) :
    (markParts term lastIndex parts).map (fun p => p.text.data) = parts := by
  induction parts generalizing lastIndex with
  | nil => rfl
  | cons p rest ih => simp [markParts, ih]

/-- The parts `highlightText` makes for a non-empty literal term, put together
again, are the text. -/
theorem literalHighlight_flatten (term text : String) (hterm : term ≠ "") :
    ((literalHighlight term text).map (fun p => p.text.data)).flatten = text.data := by
  have hdata : term.data ≠ [] := by
    intro h
    apply hterm
    cases term
    simp_all
  unfold literalHighlight
  rw [markParts_text, literalSplit_flatten term.data hdata text.data 0 [] (Nat.zero_le _)]
  simp

/-- C14 fails on the code: a search result of the shape the spec defines,
with its text under `transaction_text`, shown for the query `alice`, makes
rendering throw, as the view passes `result.transaction`, which is `undefined`,
to `highlightText`. -/
theorem renderResult_spec_shape_throws :
    SearchComponent.renderResult (fun _ => Except.error ⟨"SyntaxError", "Invalid regular expression"⟩)
      (fun _ => "11/14/2023, 10:13:20 PM") "alice"
      (JsVal.obj [("block_index", JsVal.num 1), ("block_hash", JsVal.str "00ab"),
        ("timestamp", JsVal.num 1700000000),
        ("transaction_text", JsVal.str "Alice sends 10 coins to Bob")])
      = Except.error
          ⟨"TypeError", "Cannot read properties of undefined (reading \x27split\x27)"⟩ := by
  rfl

/-- C14 as amended: for a search result that holds an integer `block_index`, a
string `block_hash`, a `timestamp` and its text as a string under
`transaction`, and for a query that is empty or made of ASCII letters, digits
and blanks, `SearchComponent` renders the result without failing and shows the
block index, the block hash, the date of the timestamp and parts that put
together are the text of `transaction`; for a result without `transaction` (its
text under `transaction_text`) rendering throws whenever the query is not
empty. -/
theorem renderResult_shows_transaction (engine : RegExpEngine) (localeDate : JsVal → String)
    (query : String) (fields : JsObject) (i : Int) (hash : String)
    (hindex : JsObject.get fields "block_index" = JsVal.num i)
    (hhash : JsObject.get fields "block_hash" = JsVal.str hash) :
    (∀ text : String, JsObject.get fields "transaction" = JsVal.str text →
      query = "" ∨ isLiteralTerm query = true →
      ∃ ps : List Part,
        SearchComponent.renderResult engine localeDate query (JsVal.obj fields)
          = Except.ok ⟨toString i, localeDate (JsObject.get fields "timestamp"), ps, hash⟩ ∧
        (ps.map (fun p => p.text.data)).flatten = text.data) ∧
    (JsObject.get fields "transaction" = JsVal.undefined → query ≠ "" →
      ∃ e : JsError,
        SearchComponent.renderResult engine localeDate query (JsVal.obj fields)
          = Except.error e) := by
  constructor
  · intro text htext hquery
    by_cases hq : query = ""
    · refine ⟨[⟨false, text⟩], ?_, by simp⟩
      simp [SearchComponent.renderResult, propGet, hindex, hhash, htext, highlightText, hq,
        renderChild]
    · have hlit : isLiteralTerm query = true := by
        rcases hquery with h | h
        · exact absurd h hq
        · exact h
      refine ⟨literalHighlight query text, ?_, literalHighlight_flatten query text hq⟩
      simp [SearchComponent.renderResult, propGet, hindex, hhash, htext, highlightText, hq,
        hlit, renderChild]
  · intro htext hq
    by_cases hlit : isLiteralTerm query = true
    · exact ⟨_, by
        simp [SearchComponent.renderResult, propGet, hindex, hhash, htext, highlightText, hq,
          hlit]
        rfl⟩
    · cases hengine : engine query with
      | error e =>
        exact ⟨e, by
          simp [SearchComponent.renderResult, propGet, hindex, hhash, htext, highlightText, hq,
            hlit, hengine]⟩
      | ok highlight =>
        exact ⟨_, by
          simp [SearchComponent.renderResult, propGet, hindex, hhash, htext, highlightText, hq,
            hlit, hengine]
          rfl⟩

/-- Witness of C14 as amended: the result of the spec example with its text
under `transaction`, shown for the query `alice`. -/
theorem renderResult_shows_transaction_witness :
    ∃ ps : List Part,
      SearchComponent.renderResult (fun _ => Except.error ⟨"SyntaxError", "Invalid regular expression"⟩)
        (fun _ => "11/14/2023, 10:13:20 PM") "alice"
        (JsVal.obj [("block_index", JsVal.num 1), ("block_hash", JsVal.str "00ab"),
          ("timestamp", JsVal.num 1700000000),
          ("transaction", JsVal.str "Alice sends 10 coins to Bob")])
        = Except.ok ⟨toString (1 : Int),
            (fun _ => "11/14/2023, 10:13:20 PM")
              (JsObject.get [("block_index", JsVal.num 1), ("block_hash", JsVal.str "00ab"),
                ("timestamp", JsVal.num 1700000000),
                ("transaction", JsVal.str "Alice sends 10 coins to Bob")] "timestamp"),
            ps, "00ab"⟩ ∧
      (ps.map (fun p => p.text.data)).flatten = "Alice sends 10 coins to Bob".data :=
  (renderResult_shows_transaction _ _ "alice"
    [("block_index", JsVal.num 1), ("block_hash", JsVal.str "00ab"),
      ("timestamp", JsVal.num 1700000000),
      ("transaction", JsVal.str "Alice sends 10 coins to Bob")] 1 "00ab" rfl rfl).1
    "Alice sends 10 coins to Bob" rfl (Or.inr (by decide))

/-! ## Theorems: `handleSearch` -/

/-- C15 fails on the code: with one result held from an earlier search and
the query emptied, `handleSearch` returns at once; the result list it holds is
still that one result, and the component still shows it. -/
theorem handleSearch_blank_query_keeps_results :
    (SearchComponent.handleSearch
      (fun _ => FetchOutcome.resolved
        ⟨true, 200, "OK", Except.ok (JsVal.obj [("results", JsVal.arr [])])⟩)
      none
      ⟨"", JsVal.arr [JsVal.obj [("block_index", JsVal.num 1), ("block_hash", JsVal.str "00ab"),
          ("timestamp", JsVal.num 1700000000),
          ("transaction", JsVal.str "Alice sends 10 coins to Bob")]],
        false, true, ["Alice"]⟩).state.searchResults
      = JsVal.arr [JsVal.obj [("block_index", JsVal.num 1), ("block_hash", JsVal.str "00ab"),
          ("timestamp", JsVal.num 1700000000),
          ("transaction", JsVal.str "Alice sends 10 coins to Bob")]] ∧
    SearchComponent.renderResults (fun _ => Except.error ⟨"SyntaxError", "Invalid regular expression"⟩)
      (fun _ => "11/14/2023, 10:13:20 PM")
      (SearchComponent.handleSearch
        (fun _ => FetchOutcome.resolved
          ⟨true, 200, "OK", Except.ok (JsVal.obj [("results", JsVal.arr [])])⟩)
        none
        ⟨"", JsVal.arr [JsVal.obj [("block_index", JsVal.num 1), ("block_hash", JsVal.str "00ab"),
            ("timestamp", JsVal.num 1700000000),
            ("transaction", JsVal.str "Alice sends 10 coins to Bob")]],
          false, true, ["Alice"]⟩).state
      = Except.ok [⟨"1", "11/14/2023, 10:13:20 PM", [⟨false, "Alice sends 10 coins to Bob"⟩],
          "00ab"⟩] := by
  constructor <;> rfl

/-- C15 as amended: for a query that is empty or made of white space only,
`handleSearch` produces no error, sends no request and leaves the state as it
was; the result list it holds is the one held before, empty when that was
empty (as it is before the first search). -/
theorem handleSearch_blank_query_unchanged (fetch : Request → FetchOutcome)
    (envUrl : Option String) (s : SearchState)
    (h : s.query.data.all isJsWhitespace = true) :
    (SearchComponent.handleSearch fetch envUrl s).state = s ∧
    (SearchComponent.handleSearch fetch envUrl s).requests = [] ∧
    (s.searchResults = JsVal.arr [] →
      (SearchComponent.handleSearch fetch envUrl s).state.searchResults = JsVal.arr []) := by
  have hrun : SearchComponent.handleSearch fetch envUrl s = ⟨s, [], 0⟩ := by
    simp [SearchComponent.handleSearch, jsTrim_blank _ h]
  rw [hrun]
  exact ⟨rfl, rfl, fun h => h⟩

/-- Witness of C15 as amended: a query of two blanks in the initial state. -/
theorem handleSearch_blank_query_unchanged_witness :
    (SearchComponent.handleSearch (fun _ => FetchOutcome.rejected ⟨"TypeError", "x"⟩) none
      ⟨"  ", JsVal.arr [], false, false, []⟩).state.searchResults = JsVal.arr [] :=
  (handleSearch_blank_query_unchanged _ none ⟨"  ", JsVal.arr [], false, false, []⟩
    (by decide)).2.2 rfl

/-- Every member of `distinctFirst l` is a member of `l`, and conversely. -/
theorem mem_distinctFirst (l : List String) (a : String) : a ∈ distinctFirst l ↔ a ∈ l := by
  induction l with
  | nil => simp [distinctFirst]
  | cons b rest ih =>
    simp only [distinctFirst, List.mem_cons, List.mem_filter, ih, bne_iff_ne, ne_eq]
    constructor
    · rintro (h | ⟨h, _⟩)
      · exact Or.inl h
      · exact Or.inr h
    · intro h
      by_cases hab : a = b
      · exact Or.inl hab
      · rcases h with h | h
        · exact Or.inl h
        · exact Or.inr ⟨h, hab⟩

/-- No member occurs twice in `distinctFirst l`. -/
theorem nodup_distinctFirst (l : List String) : (distinctFirst l).Nodup := by
  induction l with
  | nil => simp [distinctFirst]
  | cons b rest ih =>
    simp only [distinctFirst, List.nodup_cons, List.mem_filter, bne_self_eq_false,
      Bool.false_eq_true, and_false, not_false_eq_true, true_and]
    exact ih.filter _

/-- For a list without duplicates, dropping `q` from its first `n + 1`
members and from all of it gives the same first `n` members. -/
theorem take_filter_take (q : String) (l : List String) (hl : l.Nodup) (n : Nat) :
    ((l.take (n + 1)).filter (fun b => b != q)).take n
      = (l.filter (fun b => b != q)).take n := by
  induction l generalizing n with
  | nil => simp
  | cons a rest ih =>
    have hrest : rest.Nodup := (List.nodup_cons.mp hl).2
    have ha : a ∉ rest := (List.nodup_cons.mp hl).1
    by_cases haq : a = q
    · subst haq
      have hfilter : ∀ m : List String, (∀ x ∈ m, x ∈ rest) →
          m.filter (fun b => b != a) = m := by
        intro m hm
        rw [List.filter_eq_self]
        intro x hx
        simp only [bne_iff_ne, ne_eq]
        intro hxa
        exact ha (hxa ▸ hm x hx)
      simp only [List.take_succ_cons, List.filter_cons, bne_self_eq_false, Bool.false_eq_true,
        if_false]
      rw [hfilter rest (fun x hx => hx),
        hfilter (rest.take n) (fun x hx => List.mem_of_mem_take hx)]
      simp
    · have hne : (a != q) = true := by simpa using haq
      cases n with
      | zero => simp
      | succ m =>
        simp only [List.take_succ_cons, List.filter_cons, hne, if_true]
        rw [ih hrest m]

/-- The search history after a search that succeeds: the request returns a
value from which `results` can be read, so that the `try` block runs to its
end. -/
theorem search_history (fetch : Request → FetchOutcome) (envUrl : Option String)
    (s : SearchState) (q : String) (hq : jsTrim q ≠ "")
    (hok : ∃ result : JsVal,
      apiCall fetch envUrl ("/search?q=" ++ encodeURIComponent q) RequestInit.empty
        = Except.ok result ∧ failed (propGet result "results") = false) :
    (SearchComponent.search fetch envUrl s q).searchHistory
      = (q :: s.searchHistory.filter (fun item => item != q)).take 5 := by
  unfold SearchComponent.search SearchComponent.handleSearch
  simp only [SearchComponent.setQuery, apiCallRun]
  have hne : (jsTrim q == "") = false := by simpa using hq
  obtain ⟨result, hcall, hread⟩ := hok
  cases hget : propGet result "results" with
  | error e =>
    rw [hget] at hread
    simp [failed] at hread
  | ok found => simp [hne, hcall, hget]

/-- The search history after a sequence of searches that all succeed, from
the initial state: the distinct queries, the most recent first, cut to 5. -/
theorem searchAll_history (fetch : Request → FetchOutcome) (envUrl : Option String)
    (qs : List String) (hq : ∀ q ∈ qs, jsTrim q ≠ "")
    (hok : ∀ q ∈ qs, ∃ result : JsVal,
      apiCall fetch envUrl ("/search?q=" ++ encodeURIComponent q) RequestInit.empty
        = Except.ok result ∧ failed (propGet result "results") = false) :
    (SearchComponent.searchAll fetch envUrl qs SearchComponent.initialState).searchHistory
      = (distinctFirst qs.reverse).take 5 := by
  induction qs using List.reverseRecOn with
  | nil => rfl
  | append_singleton rest q ih =>
    have hrest := ih (fun x hx => hq x (List.mem_append_left _ hx))
      (fun x hx => hok x (List.mem_append_left _ hx))
    have hstep : SearchComponent.searchAll fetch envUrl (rest ++ [q])
        SearchComponent.initialState
        = SearchComponent.search fetch envUrl
            (SearchComponent.searchAll fetch envUrl rest SearchComponent.initialState) q := by
      simp [SearchComponent.searchAll, List.foldl_append]
    rw [hstep, search_history fetch envUrl _ q (hq q (by simp)) (hok q (by simp)), hrest]
    simp only [List.reverse_append, List.reverse_singleton, List.singleton_append,
      distinctFirst, List.take_succ_cons]
    rw [take_filter_take q _ (nodup_distinctFirst _) 4]

/-- C17: the search history keeps the last 5 searches.  After a sequence of
successful searches from the initial state (each request returns a value from
which `results` can be read, so that the `try` block runs to its end) it is the
list of the distinct queries, the most recent first, cut to 5 entries: it holds
at most 5 entries, no entry twice, and the query just searched first.  A
further search for a query already in the history puts that query in front of
the other entries and leaves the length of the history as it was. -/
theorem searchHistory_keeps_last_five (fetch : Request → FetchOutcome)
    (envUrl : Option String) (qs : List String) (hq : ∀ q ∈ qs, jsTrim q ≠ "")
    (hok : ∀ q ∈ qs, ∃ result : JsVal,
      apiCall fetch envUrl ("/search?q=" ++ encodeURIComponent q) RequestInit.empty
        = Except.ok result ∧ failed (propGet result "results") = false) :
    (SearchComponent.searchAll fetch envUrl qs SearchComponent.initialState).searchHistory
      = (distinctFirst qs.reverse).take 5 ∧
    (SearchComponent.searchAll fetch envUrl qs SearchComponent.initialState).searchHistory.length
      ≤ 5 ∧
    (SearchComponent.searchAll fetch envUrl qs SearchComponent.initialState).searchHistory.Nodup ∧
    (∀ q, qs.getLast? = some q →
      (SearchComponent.searchAll fetch envUrl qs
        SearchComponent.initialState).searchHistory.head? = some q) ∧
    (∀ q ∈ (SearchComponent.searchAll fetch envUrl qs
        SearchComponent.initialState).searchHistory,
      (SearchComponent.search fetch envUrl
          (SearchComponent.searchAll fetch envUrl qs SearchComponent.initialState) q).searchHistory
        = q :: (SearchComponent.searchAll fetch envUrl qs
            SearchComponent.initialState).searchHistory.filter (fun item => item != q) ∧
      (SearchComponent.search fetch envUrl
          (SearchComponent.searchAll fetch envUrl qs
            SearchComponent.initialState) q).searchHistory.length
        = (SearchComponent.searchAll fetch envUrl qs
            SearchComponent.initialState).searchHistory.length) := by
  have hhist := searchAll_history fetch envUrl qs hq hok
  have hnodup : ((distinctFirst qs.reverse).take 5).Nodup :=
    (nodup_distinctFirst _).sublist (List.take_sublist _ _)
  have hlen : ((distinctFirst qs.reverse).take 5).length ≤ 5 := by
    rw [List.length_take]
    exact Nat.min_le_left _ _
  rw [hhist]
  refine ⟨rfl, hlen, hnodup, ?_, ?_⟩
  · intro q hlast
    obtain ⟨rest, hrest⟩ : ∃ rest, qs = rest ++ [q] := by
      rcases List.eq_nil_or_concat qs with h | ⟨rest, x, h⟩
      · subst h
        simp at hlast
      · subst h
        simp at hlast
        exact ⟨rest, by rw [hlast]; simp⟩
    subst hrest
    simp [distinctFirst]
  · intro q hmem
    have hq_qs : q ∈ qs := by
      have := (mem_distinctFirst qs.reverse q).mp (List.mem_of_mem_take hmem)
      simpa using this
    have hstep := search_history fetch envUrl
      (SearchComponent.searchAll fetch envUrl qs SearchComponent.initialState) q
      (hq q hq_qs) (hok q hq_qs)
    rw [hhist] at hstep
    have hcount : (((distinctFirst qs.reverse).take 5).filter (fun item => item != q)).length + 1
        = ((distinctFirst qs.reverse).take 5).length := by
      have herase : ((distinctFirst qs.reverse).take 5).erase q
          = ((distinctFirst qs.reverse).take 5).filter (fun item => item != q) :=
        hnodup.erase_eq_filter q
      rw [← herase, List.length_erase_of_mem hmem]
      have : 0 < ((distinctFirst qs.reverse).take 5).length := List.length_pos_of_mem hmem
      omega
    have htake : (q :: ((distinctFirst qs.reverse).take 5).filter (fun item => item != q)).take 5
        = q :: ((distinctFirst qs.reverse).take 5).filter (fun item => item != q) := by
      apply List.take_of_length_le
      simp only [List.length_cons]
      omega
    rw [hstep, htake]
    exact ⟨rfl, by simp only [List.length_cons]; omega⟩

/-- Witness of C17: seven searches, two of them for `Alice`, against a backend
that answers each of them. -/
theorem searchHistory_keeps_last_five_witness :
    (SearchComponent.searchAll
      (fun _ => FetchOutcome.resolved
        ⟨true, 200, "OK", Except.ok (JsVal.obj [("results", JsVal.arr [])])⟩)
      none ["Alice", "coins", "Alice", "Genesis", "transfer", "mining", "payment"]
      SearchComponent.initialState).searchHistory
      = ["payment", "mining", "transfer", "Genesis", "Alice"] :=
  (searchHistory_keeps_last_five
    (fun _ => FetchOutcome.resolved
      ⟨true, 200, "OK", Except.ok (JsVal.obj [("results", JsVal.arr [])])⟩)
    none ["Alice", "coins", "Alice", "Genesis", "transfer", "mining", "payment"]
    (by decide) (fun _ _ => ⟨JsVal.obj [("results", JsVal.arr [])], rfl, rfl⟩)).1.trans
    (by decide)

/-! ## Theorems: the length of a transaction -/

/-- A string has at most as many characters as UTF-16 code units. -/
theorem length_le_utf16Length (cs : List Char) : cs.length ≤ utf16Length cs := by
  induction cs with
  | nil => simp [utf16Length]
  | cons c rest ih =>
    simp only [utf16Length, List.length_cons]
    split <;> omega

/-- What `handleSubmit` sends and leaves in the textarea: no request or the
one request that carries the entered text, and the entered text or the empty
text. -/
theorem handleSubmit_sends_entered_text (fetch : Request → FetchOutcome)
    (envUrl : Option String) (s : TransactionFormState) :
    ((TransactionForm.handleSubmit fetch envUrl s).requests = [] ∨
      (TransactionForm.handleSubmit fetch envUrl s).requests
        = [apiRequest envUrl "/transaction"
            ⟨some "POST", some (jsonStringifyStrField "data" s.transactionData), none⟩]) ∧
    ((TransactionForm.handleSubmit fetch envUrl s).state.transactionData = s.transactionData ∨
      (TransactionForm.handleSubmit fetch envUrl s).state.transactionData = "") := by
  unfold TransactionForm.handleSubmit
  by_cases hblank : (jsTrim s.transactionData == "") = true
  · simp [hblank]
  · simp only [hblank, apiCallRun]
    cases apiCall fetch envUrl "/transaction"
        ⟨some "POST", some (jsonStringifyStrField "data" s.transactionData), none⟩ with
    | error e => simp
    | ok result =>
      cases hget : propGet result "success" with
      | error e => simp [hget]
      | ok success =>
        by_cases ht : success.truthy = true
        · simp [hget, ht]
        · simp [hget, ht]

/-- C16: every transaction text the form sends to `/transaction` has at most
500 characters, `BLOCKCHAIN.MAX_TRANSACTION_LENGTH`, counted in UTF-16 code
units as the textarea counts them and so also in characters, whatever
sequence of edits, sample clicks and submits led to the request. -/
theorem form_sends_at_most_max_length (envUrl : Option String) (events : List FormEvent)
    (hpossible : ∀ ev ∈ events, ev.possible = true) :
    ∀ r ∈ (TransactionForm.runEvents envUrl events).requests,
      ∃ text : String,
        r = apiRequest envUrl "/transaction"
          ⟨some "POST", some (jsonStringifyStrField "data" text), none⟩ ∧
        utf16Length text.data ≤ BLOCKCHAIN.MAX_TRANSACTION_LENGTH ∧
        text.length ≤ BLOCKCHAIN.MAX_TRANSACTION_LENGTH := by
  have hsamples : ∀ sample ∈ TransactionForm.sampleTransactions,
      utf16Length sample.data ≤ 500 := by decide
  have hinv : ∀ (evs : List FormEvent) (run : HandlerRun TransactionFormState),
      (∀ ev ∈ evs, ev.possible = true) →
      utf16Length run.state.transactionData.data ≤ 500 →
      (∀ r ∈ run.requests, ∃ text : String,
        r = apiRequest envUrl "/transaction"
          ⟨some "POST", some (jsonStringifyStrField "data" text), none⟩ ∧
        utf16Length text.data ≤ 500) →
      ∀ r ∈ (evs.foldl (TransactionForm.step envUrl) run).requests, ∃ text : String,
        r = apiRequest envUrl "/transaction"
          ⟨some "POST", some (jsonStringifyStrField "data" text), none⟩ ∧
        utf16Length text.data ≤ 500 := by
    intro evs
    induction evs with
    | nil =>
      intro run _ _ hreqs
      exact hreqs
    | cons ev rest ih =>
      intro run hposs hstate hreqs
      have hev : ev.possible = true := hposs ev (List.mem_cons_self _ _)
      have hrest : ∀ e ∈ rest, e.possible = true :=
        fun e he => hposs e (List.mem_cons_of_mem _ he)
      rw [List.foldl_cons]
      apply ih _ hrest
      · cases ev with
        | edit value =>
          simpa [FormEvent.possible, TransactionForm.textareaMaxLength,
            TransactionForm.step, TransactionForm.handleChange] using hev
        | clickSample index =>
          simp only [TransactionForm.step]
          cases hget : TransactionForm.sampleTransactions.get? index with
          | none => exact hstate
          | some sample => exact hsamples sample (List.get?_mem hget)
        | submit fetch =>
          simp only [TransactionForm.step]
          rcases (handleSubmit_sends_entered_text fetch envUrl run.state).2 with h | h
          · rw [h]
            exact hstate
          · rw [h]
            simp [utf16Length]
      · cases ev with
        | edit value => exact hreqs
        | clickSample index =>
          simp only [TransactionForm.step]
          cases TransactionForm.sampleTransactions.get? index with
          | none => exact hreqs
          | some sample => exact hreqs
        | submit fetch =>
          simp only [TransactionForm.step]
          intro r hr
          rcases List.mem_append.mp hr with h | h
          · exact hreqs r h
          · rcases (handleSubmit_sends_entered_text fetch envUrl run.state).1 with h0 | h1
            · rw [h0] at h
              cases h
            · rw [h1] at h
              rw [List.mem_singleton] at h
              exact ⟨run.state.transactionData, h, hstate⟩
  intro r hr
  obtain ⟨text, hreq, hlen⟩ := hinv events ⟨TransactionForm.initialState, [], 0⟩ hpossible
    (by simp [TransactionForm.initialState, utf16Length])
    (by
      intro r hr
      cases hr) r hr
  refine ⟨text, hreq, hlen, ?_⟩
  exact Nat.le_trans (length_le_utf16Length text.data) hlen

/-- Witness of C16: a sample is clicked and submitted, then a typed text is
submitted; the request of the first submit carries a text of at most 500
characters. -/
theorem form_sends_at_most_max_length_witness :
    ∃ text : String,
      apiRequest none "/transaction"
          ⟨some "POST", some (jsonStringifyStrField "data" "Mining reward: 50 coins to miner"),
            none⟩
        = apiRequest none "/transaction"
          ⟨some "POST", some (jsonStringifyStrField "data" text), none⟩ ∧
      utf16Length text.data ≤ BLOCKCHAIN.MAX_TRANSACTION_LENGTH ∧
      text.length ≤ BLOCKCHAIN.MAX_TRANSACTION_LENGTH :=
  form_sends_at_most_max_length none
    [FormEvent.clickSample 3,
     FormEvent.submit (fun _ => FetchOutcome.resolved
       ⟨true, 200, "OK", Except.ok (JsVal.obj [("success", JsVal.bool true)])⟩),
     FormEvent.edit "Payment for coffee: 0.001 BTC",
     FormEvent.submit (fun _ => FetchOutcome.rejected ⟨"TypeError", "Failed to fetch"⟩)]
    (by
      intro ev hev
      simp only [List.mem_cons, List.mem_singleton, List.not_mem_nil, or_false] at hev
      rcases hev with h | h | h | h <;> subst h <;> rfl)
    _ (List.mem_cons_self _ _)

/-! ## Theorems: the ledger engine modelled from the spec -/

/-- What a search that returns a block found: the nonce of the block is the
first one from `start` on whose hash meets the target. -/
theorem mineFrom_some {D : Type} (H : Hasher D) (c : Candidate D) (difficulty : Nat) :
    ∀ (fuel start : Nat) (b : Block D), mineFrom H c difficulty fuel start = some b →
      b = c.withNonce H b.nonce ∧ start ≤ b.nonce ∧ meetsTarget H difficulty b = true ∧
      ∀ n, start ≤ n → n < b.nonce → meetsTarget H difficulty (c.withNonce H n) = false := by
  intro fuel
  induction fuel with
  | zero =>
    intro start b h
    simp [mineFrom] at h
  | succ k ih =>
    intro start b h
    by_cases hmeet : meetsTarget H difficulty (c.withNonce H start) = true
    · simp only [mineFrom, hmeet, if_true, Option.some.injEq] at h
      subst h
      refine ⟨rfl, le_refl _, hmeet, ?_⟩
      intro n h1 h2
      simp only [Candidate.withNonce] at h2
      omega
    · simp only [mineFrom, hmeet, Bool.false_eq_true, if_false] at h
      obtain ⟨h1, h2, h3, h4⟩ := ih (start + 1) b h
      refine ⟨h1, by omega, h3, ?_⟩
      intro n hn1 hn2
      by_cases hn : n = start
      · subst hn
        simpa using hmeet
      · exact h4 n (by omega) hn2

/-- A search with fuel beyond a nonce that meets the target returns a
block. -/
theorem mineFrom_finds {D : Type} (H : Hasher D) (c : Candidate D) (difficulty : Nat) :
    ∀ (fuel start n : Nat), start ≤ n → n < start + fuel →
      meetsTarget H difficulty (c.withNonce H n) = true →
      ∃ b : Block D, mineFrom H c difficulty fuel start = some b ∧ b.nonce ≤ n := by
  intro fuel
  induction fuel with
  | zero =>
    intro start n h1 h2 _
    omega
  | succ k ih =>
    intro start n h1 h2 hn
    by_cases hmeet : meetsTarget H difficulty (c.withNonce H start) = true
    · exact ⟨c.withNonce H start, by simp [mineFrom, hmeet], h1⟩
    · have hne : n ≠ start := by
        intro h
        subst h
        exact hmeet hn
      obtain ⟨b, hb, hle⟩ := ih (start + 1) n (by omega) (by omega) hn
      exact ⟨b, by simp [mineFrom, hmeet, hb], hle⟩

/-- C20: for every candidate block and every difficulty, the block `mine`
returns is the candidate with a nonce and the hash computed for it, the
hexadecimal text of that hash has at least `difficulty` leading zeros, and no
smaller nonce meets that predicate for the candidate; and `mine` does return
a block once a nonce that meets the predicate exists and the search is given
fuel beyond it. -/
theorem mine_returns_least_nonce {D : Type} (H : Hasher D) (c : Candidate D)
    (difficulty : Nat) :
    (∀ (fuel : Nat) (b : Block D), mine H fuel c difficulty = some b →
      b = c.withNonce H b.nonce ∧
      difficulty ≤ leadingZeros (H.hex b.hash) ∧
      ∀ n, n < b.nonce → ¬ difficulty ≤ leadingZeros (H.hex (c.withNonce H n).hash)) ∧
    (∀ n fuel : Nat, difficulty ≤ leadingZeros (H.hex (c.withNonce H n).hash) → n < fuel →
      ∃ b : Block D, mine H fuel c difficulty = some b ∧ b.nonce ≤ n) := by
  constructor
  · intro fuel b h
    obtain ⟨h1, _, h3, h4⟩ := mineFrom_some H c difficulty fuel 0 b h
    refine ⟨h1, by simpa [meetsTarget] using h3, ?_⟩
    intro n hn
    simpa [meetsTarget] using h4 n (Nat.zero_le _) hn
  · intro n fuel hn hfuel
    exact mineFrom_finds H c difficulty fuel 0 n (Nat.zero_le _) (by omega)
      (by simpa [meetsTarget] using hn)

/-- Witness of C20: with the symbolic hasher, whose block digests start with
as many zeros as the nonce counts, mining at difficulty 2 returns the
candidate with nonce 2. -/
theorem mine_returns_least_nonce_witness :
    ∃ b : Block SymbolicDigest,
      mine symbolicHasher 10
        ⟨1, 120, ["Bob sends 5 coins to Charlie"], SymbolicDigest.sentinel,
          SymbolicDigest.leaf "Bob sends 5 coins to Charlie"⟩ 2 = some b ∧
      b.nonce ≤ 2 :=
  (mine_returns_least_nonce symbolicHasher
    ⟨1, 120, ["Bob sends 5 coins to Charlie"], SymbolicDigest.sentinel,
      SymbolicDigest.leaf "Bob sends 5 coins to Charlie"⟩ 2).2 2 10 (by decide) (by decide)

/-- A layer has half as many digests as the layer below it, rounded up. -/
theorem merkleLayer_length {D : Type} (H : Hasher D) :
    ∀ l : List D, (merkleLayer H l).length = (l.length + 1) / 2
  | [] => by simp [merkleLayer]
  | [_] => by simp [merkleLayer]
  | _ :: _ :: rest => by
    simp only [merkleLayer, List.length_cons, merkleLayer_length H rest]
    omega

/-- The reduction ends with a digest when the fuel covers the layer. -/
theorem merkleReduce_isSome {D : Type} (H : Hasher D) :
    ∀ (fuel : Nat) (l : List D), 1 ≤ l.length → l.length ≤ fuel + 1 →
      ∃ r, merkleReduce H fuel l = some r := by
  intro fuel
  induction fuel with
  | zero =>
    intro l h1 h2
    match l, h1, h2 with
    | [a], _, _ => exact ⟨a, rfl⟩
    | _ :: _ :: _, _, h2 => simp at h2
  | succ k ih =>
    intro l h1 h2
    match l, h1, h2 with
    | [a], _, _ => exact ⟨a, rfl⟩
    | a :: b :: rest, _, h2 =>
      simp only [merkleReduce]
      apply ih
      · rw [merkleLayer_length]
        simp only [List.length_cons]
        omega
      · rw [merkleLayer_length]
        simp only [List.length_cons] at h2 ⊢
        omega

/-- The Merkle root is defined for every list of transactions. -/
theorem merkleRoot_isSome {D : Type} (H : Hasher D) (transactions : List String) :
    ∃ r, merkleRoot H transactions = some r := by
  unfold merkleRoot
  cases transactions with
  | nil => exact ⟨H.emptyRoot, rfl⟩
  | cons t rest =>
    simp only [List.isEmpty_cons, Bool.false_eq_true, if_false]
    apply merkleReduce_isSome
    · simp
    · simp

/-- The scan finds no failure when every block passes the checks against the
block before it. -/
theorem firstFailureFrom_none {D : Type} [DecidableEq D] (H : Hasher D) :
    ∀ (l : List (Block D)) (prev : Block D) (pos : Nat),
      (∀ (k : Nat) (a b : Block D), (prev :: l)[k]? = some a → (prev :: l)[k + 1]? = some b →
        blockOk H a (pos + k) b = true) →
      firstFailureFrom H prev pos l = none := by
  intro l
  induction l with
  | nil =>
    intro prev pos _
    rfl
  | cons b rest ih =>
    intro prev pos h
    have h0 : blockOk H prev pos b = true := h 0 prev b (by simp) (by simp)
    simp only [firstFailureFrom, h0, if_true]
    apply ih
    intro k a c ha hc
    have := h (k + 1) a c (by simpa using ha) (by simpa using hc)
    rw [show pos + 1 + k = pos + (k + 1) by omega]
    exact this

/-- When the scan finds no failure, every block passes the checks against
the block before it. -/
theorem blockOk_of_firstFailureFrom_none {D : Type} [DecidableEq D] (H : Hasher D) :
    ∀ (l : List (Block D)) (prev : Block D) (pos : Nat),
      firstFailureFrom H prev pos l = none →
      ∀ (k : Nat) (a b : Block D), (prev :: l)[k]? = some a → (prev :: l)[k + 1]? = some b →
        blockOk H a (pos + k) b = true := by
  intro l
  induction l with
  | nil =>
    intro prev pos _ k a b _ hb
    simp at hb
  | cons c rest ih =>
    intro prev pos h k a b ha hb
    by_cases hok : blockOk H prev pos c = true
    · simp only [firstFailureFrom, hok, if_true] at h
      cases k with
      | zero =>
        simp only [List.getElem?_cons_zero, Option.some.injEq] at ha
        simp only [zero_add, List.getElem?_cons_succ, List.getElem?_cons_zero,
          Option.some.injEq] at hb
        subst ha
        subst hb
        exact hok
      | succ j =>
        have := ih c (pos + 1) h j a b (by simpa using ha) (by simpa using hb)
        rw [show pos + (j + 1) = pos + 1 + j by omega]
        exact this
    · simp [firstFailureFrom, hok] at h

/-- The scan stops at the position of a changed block that fails the checks,
when the blocks before it pass them. -/
theorem firstFailureFrom_set {D : Type} [DecidableEq D] (H : Hasher D) :
    ∀ (l : List (Block D)) (prev : Block D) (pos j : Nat) (changed : Block D),
      (∀ (k : Nat) (a b : Block D), (prev :: l)[k]? = some a → (prev :: l)[k + 1]? = some b →
        blockOk H a (pos + k) b = true) →
      j < l.length →
      (∀ pred : Block D, (prev :: l)[j]? = some pred →
        blockOk H pred (pos + j) changed = false) →
      firstFailureFrom H prev pos (l.set j changed) = some (pos + j) := by
  intro l
  induction l with
  | nil =>
    intro prev pos j changed _ hj _
    simp at hj
  | cons b rest ih =>
    intro prev pos j changed h hj hfail
    cases j with
    | zero =>
      have := hfail prev (by simp)
      simp only [Nat.add_zero] at this
      simp [firstFailureFrom, this]
    | succ i =>
      have h0 : blockOk H prev pos b = true := h 0 prev b (by simp) (by simp)
      simp only [List.set_cons_succ, firstFailureFrom, h0, if_true]
      rw [show pos + (i + 1) = pos + 1 + i by omega]
      apply ih
      · intro k a c ha hc
        have := h (k + 1) a c (by simpa using ha) (by simpa using hc)
        rw [show pos + 1 + k = pos + (k + 1) by omega]
        exact this
      · simpa using hj
      · intro pred hpred
        have := hfail pred (by simpa using hpred)
        rw [show pos + 1 + i = pos + (i + 1) by omega]
        exact this

/-- In a valid chain every block passes the checks against the block before
it. -/
theorem ValidChain.blockOk_succ {D : Type} [DecidableEq D] {H : Hasher D}
    {genesisTimestamp : Nat} {chain : List (Block D)}
    (hvalid : ValidChain H genesisTimestamp chain) (k : Nat) (a b : Block D)
    (ha : chain[k]? = some a) (hb : chain[k + 1]? = some b) :
    blockOk H a (1 + k) b = true := by
  have h1 := hvalid.indices (k + 1) b hb
  have h2 := hvalid.linked k a b ha hb
  have h3 := hvalid.roots (k + 1) b hb
  have h4 := hvalid.hashes (k + 1) b hb
  have h5 := hvalid.timestamps k a b ha hb
  simp only [blockOk, Bool.and_eq_true, decide_eq_true_eq]
  exact ⟨⟨⟨⟨by omega, h2⟩, h3⟩, h4⟩, h5⟩

/-- The validation accepts exactly the valid chains. -/
theorem isValid_iff_validChain {D : Type} [DecidableEq D] (H : Hasher D)
    (genesisTimestamp : Nat) (chain : List (Block D)) :
    isValid H genesisTimestamp chain = true ↔ ValidChain H genesisTimestamp chain := by
  constructor
  · intro h
    cases chain with
    | nil =>
      exact ⟨by simp, by simp, by simp, by simp, by simp, by simp⟩
    | cons g rest =>
      by_cases hg : g = genesis H genesisTimestamp
      · simp only [isValid, firstFailure, hg, if_true, Option.isNone_iff_eq_none] at h
        have hok := blockOk_of_firstFailureFrom_none H rest (genesis H genesisTimestamp) 1 h
        rw [← hg] at hok
        have hpair : ∀ (k : Nat) (a b : Block D), (g :: rest)[k]? = some a →
            (g :: rest)[k + 1]? = some b →
            b.index = k + 1 ∧ b.previous_hash = a.hash ∧
            merkleRoot H b.transactions = some b.merkle_root ∧ b.hash = blockHash H b ∧
            a.timestamp ≤ b.timestamp := by
          intro k a b ha hb
          have := hok k a b ha hb
          simp only [blockOk, Bool.and_eq_true, decide_eq_true_eq] at this
          obtain ⟨⟨⟨⟨h1, h2⟩, h3⟩, h4⟩, h5⟩ := this
          exact ⟨by omega, h2, h3, h4, h5⟩
        have hat : ∀ (i : Nat) (b : Block D), (g :: rest)[i]? = some b →
            b.index = i ∧ merkleRoot H b.transactions = some b.merkle_root ∧
            b.hash = blockHash H b := by
          intro i b hb
          cases i with
          | zero =>
            simp only [List.getElem?_cons_zero, Option.some.injEq] at hb
            subst hb
            rw [hg]
            exact ⟨rfl, rfl, rfl⟩
          | succ j =>
            have hj : j < (g :: rest).length := by
              have := (List.getElem?_eq_some_iff.mp hb).1
              omega
            obtain ⟨h1, _, h3, h4, _⟩ := hpair j ((g :: rest)[j]) b
              (List.getElem?_eq_getElem hj) hb
            exact ⟨h1, h3, h4⟩
        refine ⟨?_, ?_, ?_, ?_, ?_, ?_⟩
        · intro g1 hg1
          simp only [List.getElem?_cons_zero, Option.some.injEq] at hg1
          rw [← hg1, hg]
        · intro i a b ha hb
          exact (hpair i a b ha hb).2.1
        · intro i b hb
          exact (hat i b hb).2.2
        · intro i b hb
          exact (hat i b hb).2.1
        · intro i b hb
          exact (hat i b hb).1
        · intro i a b ha hb
          exact (hpair i a b ha hb).2.2.2.2
      · simp [isValid, firstFailure, hg] at h
  · intro hvalid
    cases chain with
    | nil => rfl
    | cons g rest =>
      have hg : g = genesis H genesisTimestamp := hvalid.genesis_first g (by simp)
      simp only [isValid, firstFailure, hg, if_true, Option.isNone_iff_eq_none]
      apply firstFailureFrom_none
      intro k a b ha hb
      rw [← hg] at ha hb
      exact hvalid.blockOk_succ k a b ha hb

/-- A block that is not the genesis block can be replaced in a valid chain by
a block with the same index, timestamp, previous hash and hash whose Merkle
root and hash recompute: the chain stays valid. -/
theorem ValidChain.set {D : Type} {H : Hasher D} {genesisTimestamp : Nat}
    {chain : List (Block D)} (hvalid : ValidChain H genesisTimestamp chain)
    (i : Nat) (b changed : Block D) (hi : 1 ≤ i) (hb : chain[i]? = some b)
    (hindex : changed.index = b.index) (htime : changed.timestamp = b.timestamp)
    (hprevious : changed.previous_hash = b.previous_hash) (hhash : changed.hash = b.hash)
    (hroot : merkleRoot H changed.transactions = some changed.merkle_root)
    (hrecomputed : changed.hash = blockHash H changed) :
    ValidChain H genesisTimestamp (chain.set i changed) := by
  have hlen : i < chain.length := (List.getElem?_eq_some_iff.mp hb).1
  have hat : ∀ (k : Nat) (c : Block D), (chain.set i changed)[k]? = some c →
      (k = i ∧ c = changed) ∨ (k ≠ i ∧ chain[k]? = some c) := by
    intro k c hc
    rw [List.getElem?_set] at hc
    by_cases hk : i = k
    · subst hk
      simp only [if_true, hlen] at hc
      exact Or.inl ⟨rfl, (Option.some.inj hc).symm⟩
    · simp only [hk, if_false] at hc
      exact Or.inr ⟨fun h => hk h.symm, hc⟩
  refine ⟨?_, ?_, ?_, ?_, ?_, ?_⟩
  · intro g hg
    rcases hat 0 g hg with ⟨h0, _⟩ | ⟨_, h⟩
    · omega
    · exact hvalid.genesis_first g h
  · intro k a c ha hc
    rcases hat k a ha with ⟨hk, hac⟩ | ⟨_, ha1⟩
    · rcases hat (k + 1) c hc with ⟨hk1, _⟩ | ⟨_, hc1⟩
      · omega
      · subst hk
        rw [hac, hhash]
        exact hvalid.linked k b c hb hc1
    · rcases hat (k + 1) c hc with ⟨hk1, hcc⟩ | ⟨_, hc1⟩
      · rw [hcc, hprevious]
        exact hvalid.linked k a b ha1 (by rw [hk1]; exact hb)
      · exact hvalid.linked k a c ha1 hc1
  · intro k c hc
    rcases hat k c hc with ⟨_, hcc⟩ | ⟨_, hc1⟩
    · rw [hcc]
      exact hrecomputed
    · exact hvalid.hashes k c hc1
  · intro k c hc
    rcases hat k c hc with ⟨_, hcc⟩ | ⟨_, hc1⟩
    · rw [hcc]
      exact hroot
    · exact hvalid.roots k c hc1
  · intro k c hc
    rcases hat k c hc with ⟨hk, hcc⟩ | ⟨_, hc1⟩
    · rw [hcc, hindex, hk]
      exact hvalid.indices i b hb
    · exact hvalid.indices k c hc1
  · intro k a c ha hc
    rcases hat k a ha with ⟨hk, hac⟩ | ⟨_, ha1⟩
    · rcases hat (k + 1) c hc with ⟨hk1, _⟩ | ⟨_, hc1⟩
      · omega
      · subst hk
        rw [hac, htime]
        exact hvalid.timestamps k b c hb hc1
    · rcases hat (k + 1) c hc with ⟨hk1, hcc⟩ | ⟨_, hc1⟩
      · rw [hcc, htime]
        exact hvalid.timestamps k a b ha1 (by rw [hk1]; exact hb)
      · exact hvalid.timestamps k a c ha1 hc1

/-- A block that passes the checks fails them once one of its fields is
changed, unless the change leaves the recomputed digest as it was. -/
theorem mutation_fails {D : Type} [DecidableEq D] (H : Hasher D)
    (pred : Block D) (pos : Nat) (b : Block D) (m : Mutation D)
    (hok : blockOk H pred pos b = true) (hchange : m.apply b ≠ b)
    (hfree : m.collides H b = false) :
    blockOk H pred pos (m.apply b) = false := by
  simp only [blockOk, Bool.and_eq_true, decide_eq_true_eq] at hok
  obtain ⟨⟨⟨⟨_, hlink⟩, hroot⟩, hhash⟩, _⟩ := hok
  rw [Bool.eq_false_iff]
  intro hmut
  simp only [blockOk, Bool.and_eq_true, decide_eq_true_eq] at hmut
  obtain ⟨⟨⟨⟨_, hlink1⟩, hroot1⟩, hhash1⟩, _⟩ := hmut
  cases b with
  | mk index timestamp transactions previous_hash merkle_root nonce hash =>
    cases m with
    | hash value =>
      apply hchange
      simp only [Mutation.apply, blockHash] at hhash1 hhash ⊢
      rw [hhash1, hhash]
    | previous_hash value =>
      apply hchange
      simp only [Mutation.apply] at hlink1 hlink ⊢
      rw [hlink1, hlink]
    | merkle_root value =>
      apply hchange
      simp only [Mutation.apply] at hroot1 hroot ⊢
      rw [hroot] at hroot1
      rw [Option.some.inj hroot1]
    | nonce value =>
      simp only [Mutation.apply, blockHash] at hhash1 hhash
      simp only [Mutation.collides, decide_eq_false_iff_not] at hfree
      exact hfree (hhash1.symm.trans hhash)
    | transactionText j text =>
      simp only [Mutation.apply] at hroot1 hroot
      simp only [Mutation.collides, decide_eq_false_iff_not] at hfree
      exact hfree (hroot1.trans hroot.symm)

/-- A valid chain stays valid when a block that is not the genesis block is
changed in a way that leaves the recomputed digest as it was. -/
theorem ValidChain.set_colliding {D : Type} [DecidableEq D] {H : Hasher D}
    {genesisTimestamp : Nat} {chain : List (Block D)}
    (hvalid : ValidChain H genesisTimestamp chain) (i : Nat) (b : Block D) (m : Mutation D)
    (hi : 1 ≤ i) (hb : chain[i]? = some b) (hcollides : m.collides H b = true) :
    ValidChain H genesisTimestamp (chain.set i (m.apply b)) := by
  have hroot := hvalid.roots i b hb
  have hhash := hvalid.hashes i b hb
  cases m with
  | hash value => simp [Mutation.collides] at hcollides
  | previous_hash value => simp [Mutation.collides] at hcollides
  | merkle_root value => simp [Mutation.collides] at hcollides
  | nonce value =>
    simp only [Mutation.collides, decide_eq_true_eq] at hcollides
    refine hvalid.set i b _ hi hb rfl rfl rfl rfl hroot ?_
    simp only [Mutation.apply, blockHash] at hhash ⊢
    rw [hhash, hcollides]
  | transactionText j text =>
    simp only [Mutation.collides, decide_eq_true_eq] at hcollides
    refine hvalid.set i b _ hi hb rfl rfl rfl rfl ?_ hhash
    simp only [Mutation.apply]
    rw [hcollides, hroot]

/-- A digest of fixed length cannot tell all nonces apart: whatever the
hasher, when there are finitely many digests, some valid chain has a block
that is not the genesis block and a change of its nonce after which `isValid`
still returns true. -/
theorem finite_digest_misses_a_nonce {D : Type} [Finite D] [DecidableEq D] (H : Hasher D)
    (genesisTimestamp : Nat) :
    ∃ (chain : List (Block D)) (i : Nat) (b : Block D) (m : Mutation D),
      ValidChain H genesisTimestamp chain ∧ 1 ≤ i ∧ chain[i]? = some b ∧ m.apply b ≠ b ∧
      isValid H genesisTimestamp (chain.set i (m.apply b)) = true := by
  obtain ⟨n, n1, hne, hsame⟩ := Finite.exists_ne_map_eq_of_infinite
    (fun nonce : Nat => H.block 1 genesisTimestamp H.emptyRoot
      (genesis H genesisTimestamp).hash nonce)
  have hvalid : ValidChain H genesisTimestamp
      [genesis H genesisTimestamp,
        Candidate.withNonce H
          ⟨1, genesisTimestamp, [], (genesis H genesisTimestamp).hash, H.emptyRoot⟩ n] := by
    rw [← isValid_iff_validChain]
    simp [isValid, firstFailure, firstFailureFrom, blockOk, Candidate.withNonce, merkleRoot,
      blockHash, genesis]
  refine ⟨_, 1, _, Mutation.nonce n1, hvalid, le_refl 1, rfl, ?_, ?_⟩
  · intro h
    apply hne
    have := congrArg Block.nonce h
    simpa [Mutation.apply, Candidate.withNonce] using this.symm
  · rw [isValid_iff_validChain]
    apply hvalid.set_colliding 1 _ (Mutation.nonce n1) (le_refl 1) rfl
    simp only [Mutation.collides, Candidate.withNonce, decide_eq_true_eq]
    exact hsame.symm

/-- C19 fails on the model: under the hasher with digests of four bits, the
chain of the genesis block and one block with nonce 2 is valid, and with the
nonce of that block changed to 18, which gives the same block digest, `isValid`
still returns true and the diagnostic variant reports no failure. -/
theorem isValid_misses_colliding_nonce :
    isValid nibbleHasher 100
      [genesis nibbleHasher 100,
        Candidate.withNonce nibbleHasher
          ⟨1, 120, ["Bob sends 5 coins to Charlie"], (genesis nibbleHasher 100).hash,
            nibbleHasher.leaf "Bob sends 5 coins to Charlie"⟩ 2] = true ∧
    (Mutation.nonce 18).apply
        (Candidate.withNonce nibbleHasher
          ⟨1, 120, ["Bob sends 5 coins to Charlie"], (genesis nibbleHasher 100).hash,
            nibbleHasher.leaf "Bob sends 5 coins to Charlie"⟩ 2)
      ≠ Candidate.withNonce nibbleHasher
          ⟨1, 120, ["Bob sends 5 coins to Charlie"], (genesis nibbleHasher 100).hash,
            nibbleHasher.leaf "Bob sends 5 coins to Charlie"⟩ 2 ∧
    isValid nibbleHasher 100
      ([genesis nibbleHasher 100,
        Candidate.withNonce nibbleHasher
          ⟨1, 120, ["Bob sends 5 coins to Charlie"], (genesis nibbleHasher 100).hash,
            nibbleHasher.leaf "Bob sends 5 coins to Charlie"⟩ 2].set 1
        ((Mutation.nonce 18).apply
          (Candidate.withNonce nibbleHasher
            ⟨1, 120, ["Bob sends 5 coins to Charlie"], (genesis nibbleHasher 100).hash,
              nibbleHasher.leaf "Bob sends 5 coins to Charlie"⟩ 2))) = true ∧
    firstFailure nibbleHasher 100
      ([genesis nibbleHasher 100,
        Candidate.withNonce nibbleHasher
          ⟨1, 120, ["Bob sends 5 coins to Charlie"], (genesis nibbleHasher 100).hash,
            nibbleHasher.leaf "Bob sends 5 coins to Charlie"⟩ 2].set 1
        ((Mutation.nonce 18).apply
          (Candidate.withNonce nibbleHasher
            ⟨1, 120, ["Bob sends 5 coins to Charlie"], (genesis nibbleHasher 100).hash,
              nibbleHasher.leaf "Bob sends 5 coins to Charlie"⟩ 2))) = none := by
  refine ⟨by decide, by decide, by decide, by decide⟩

/-- C19 as amended: for every valid chain `isValid` returns true.  For every
change of one field of a block that is not the genesis block (its hash,
previous hash, Merkle root, nonce, or the text of one of its transactions)
that leaves no recomputed digest as it was, `isValid` returns false on the
changed chain and the diagnostic variant reports the index of that block as
the first failure: that is every change of the hash, the previous hash and the
Merkle root, every change of the nonce that changes the block digest, and
every change of a transaction text that changes the Merkle root.  A change of
the nonce or of a transaction text that leaves the recomputed digest as it was
is not detected: `isValid` still returns true. -/
theorem isValid_detects_noncolliding_mutation {D : Type} [DecidableEq D] (H : Hasher D)
    (genesisTimestamp : Nat) (chain : List (Block D))
    (hvalid : ValidChain H genesisTimestamp chain) :
    isValid H genesisTimestamp chain = true ∧
    (∀ (i : Nat) (b : Block D) (m : Mutation D),
      1 ≤ i → chain[i]? = some b → m.apply b ≠ b → m.collides H b = false →
      isValid H genesisTimestamp (chain.set i (m.apply b)) = false ∧
      firstFailure H genesisTimestamp (chain.set i (m.apply b)) = some i ∧
      b.index = i) ∧
    (∀ (i : Nat) (b : Block D) (value : D), 1 ≤ i → chain[i]? = some b →
      (value ≠ b.hash →
        firstFailure H genesisTimestamp (chain.set i ((Mutation.hash value).apply b))
          = some i) ∧
      (value ≠ b.previous_hash →
        firstFailure H genesisTimestamp (chain.set i ((Mutation.previous_hash value).apply b))
          = some i) ∧
      (value ≠ b.merkle_root →
        firstFailure H genesisTimestamp (chain.set i ((Mutation.merkle_root value).apply b))
          = some i)) ∧
    (∀ (i : Nat) (b : Block D) (m : Mutation D),
      1 ≤ i → chain[i]? = some b → m.collides H b = true →
      isValid H genesisTimestamp (chain.set i (m.apply b)) = true) := by
  have hdetect : ∀ (i : Nat) (b : Block D) (m : Mutation D),
      1 ≤ i → chain[i]? = some b → m.apply b ≠ b → m.collides H b = false →
      isValid H genesisTimestamp (chain.set i (m.apply b)) = false ∧
      firstFailure H genesisTimestamp (chain.set i (m.apply b)) = some i ∧
      b.index = i := by
    intro i b m hi hb hchange hfree
    have hindex : b.index = i := hvalid.indices i b hb
    have hfirst : firstFailure H genesisTimestamp (chain.set i (m.apply b)) = some i := by
      cases chain with
      | nil => simp at hb
      | cons g rest =>
        obtain ⟨j, hj⟩ : ∃ j, i = j + 1 := ⟨i - 1, by omega⟩
        subst hj
        have hg : g = genesis H genesisTimestamp := hvalid.genesis_first g (by simp)
        have hlen : j < rest.length := by
          have := (List.getElem?_eq_some_iff.mp hb).1
          simpa using this
        simp only [List.set_cons_succ, firstFailure, hg, if_true]
        rw [show j + 1 = 1 + j by omega]
        apply firstFailureFrom_set
        · intro k a c ha hc
          rw [← hg] at ha hc
          exact hvalid.blockOk_succ k a c ha hc
        · exact hlen
        · intro pred hpred
          rw [← hg] at hpred
          exact mutation_fails H pred (1 + j) b m
            (hvalid.blockOk_succ j pred b hpred hb) hchange hfree
    exact ⟨by simp [isValid, hfirst], hfirst, hindex⟩
  refine ⟨(isValid_iff_validChain H genesisTimestamp chain).mpr hvalid, hdetect, ?_, ?_⟩
  · intro i b value hi hb
    refine ⟨?_, ?_, ?_⟩
    · intro hvalue
      exact (hdetect i b (Mutation.hash value) hi hb
        (fun h => hvalue (congrArg Block.hash h)) rfl).2.1
    · intro hvalue
      exact (hdetect i b (Mutation.previous_hash value) hi hb
        (fun h => hvalue (congrArg Block.previous_hash h)) rfl).2.1
    · intro hvalue
      exact (hdetect i b (Mutation.merkle_root value) hi hb
        (fun h => hvalue (congrArg Block.merkle_root h)) rfl).2.1
  · intro i b m hi hb hcollides
    exact (isValid_iff_validChain H genesisTimestamp _).mpr
      (hvalid.set_colliding i b m hi hb hcollides)

/-- Witness of C19 as amended: the chain of the genesis block and one mined
block under the symbolic hasher is valid, and with the nonce of the second
block changed from 2 to 3, which changes the block digest, the first failure
is at index 1. -/
theorem isValid_detects_noncolliding_mutation_witness :
    firstFailure symbolicHasher 100
      ([genesis symbolicHasher 100,
        Candidate.withNonce symbolicHasher
          ⟨1, 120, ["Bob sends 5 coins to Charlie"], (genesis symbolicHasher 100).hash,
            SymbolicDigest.leaf "Bob sends 5 coins to Charlie"⟩ 2].set 1
        ((Mutation.nonce 3).apply
          (Candidate.withNonce symbolicHasher
            ⟨1, 120, ["Bob sends 5 coins to Charlie"], (genesis symbolicHasher 100).hash,
              SymbolicDigest.leaf "Bob sends 5 coins to Charlie"⟩ 2))) = some 1 :=
  ((isValid_detects_noncolliding_mutation symbolicHasher 100
    [genesis symbolicHasher 100,
      Candidate.withNonce symbolicHasher
        ⟨1, 120, ["Bob sends 5 coins to Charlie"], (genesis symbolicHasher 100).hash,
          SymbolicDigest.leaf "Bob sends 5 coins to Charlie"⟩ 2]
    ((isValid_iff_validChain symbolicHasher 100 _).mp (by decide))).2.1
    1 _ (Mutation.nonce 3) (by decide) rfl (by decide) (by decide)).2.1

/-! ## Theorems: `highlightText` -/

/-- The match test compares the upper-case forms: the term matches at the
start of a text when its upper-case form starts that of the text. -/
theorem matchesAt_iff_startsWith (term text : List Char) :
    matchesAt term text = true ↔ term.map Char.toUpper <+: text.map Char.toUpper := by
  induction term generalizing text with
  | nil => simp [matchesAt]
  | cons t ts ih =>
    cases text with
    | nil => simp [matchesAt]
    | cons c cs =>
      simp only [matchesAt, ciEq, Bool.and_eq_true, beq_iff_eq, List.map_cons,
        List.cons_prefix_cons, ih cs]

/-- A match at the start of a text is a match at the start of every text that
continues it. -/
theorem matchesAt_append (term a b : List Char) (h : matchesAt term a = true) :
    matchesAt term (a ++ b) = true := by
  rw [matchesAt_iff_startsWith] at h ⊢
  rw [List.map_append]
  exact h.trans (List.prefix_append _ _)

/-- The matched text, the first characters of the text as many as the term
has, equals the term in upper case. -/
theorem matchesAt_take (term text : List Char) (h : matchesAt term text = true) :
    (text.take term.length).map Char.toUpper = term.map Char.toUpper := by
  rw [matchesAt_iff_startsWith] at h
  have := List.prefix_iff_eq_take.mp h
  rw [List.length_map, ← List.map_take] at this
  exact this.symm

/-- A search finds nothing in a text in which the term matches at no
position. -/
theorem findMatch_none (term : List Char) (hterm : term ≠ []) :
    ∀ (l : List Char) (pos : Nat), (∀ j, matchesAt term (l.drop j) = false) →
      findMatch term l pos = none := by
  intro l
  induction l with
  | nil =>
    intro pos _
    cases term with
    | nil => exact absurd rfl hterm
    | cons _ _ => rfl
  | cons c rest ih =>
    intro pos h
    have h0 : matchesAt term (c :: rest) = false := h 0
    simp only [findMatch, h0, Bool.false_eq_true, if_false]
    exact ih _ (fun j => h (j + 1))

/-- The characters from a UTF-16 position on are what is left of the text
after some of its characters. -/
theorem dropUnits_eq_drop (k : Nat) (l : List Char) (pos : Nat) :
    ∃ j, (dropUnits k l pos).1 = l.drop j := by
  induction l generalizing k pos with
  | nil => exact ⟨0, rfl⟩
  | cons c rest ih =>
    by_cases hk : k = 0
    · exact ⟨0, by simp [dropUnits, hk]⟩
    · obtain ⟨j, hj⟩ := ih (k - utf16Length [c]) (pos + utf16Length [c])
      exact ⟨j + 1, by simp [dropUnits, hk, hj]⟩

/-- The test fails, and leaves `lastIndex` at 0, on a part in which the term
matches at no position, whatever `lastIndex` was. -/
theorem regexTest_none (term : List Char) (hterm : term ≠ []) (lastIndex : Nat)
    (part : List Char) (h : ∀ j, matchesAt term (part.drop j) = false) :
    regexTest term lastIndex part = (false, 0) := by
  unfold regexTest
  by_cases hlen : utf16Length part < lastIndex
  · simp [hlen]
  · obtain ⟨j, hj⟩ := dropUnits_eq_drop lastIndex part 0
    have hnone : findMatch term (dropUnits lastIndex part 0).1 (dropUnits lastIndex part 0).2
        = none := by
      apply findMatch_none term hterm
      intro i
      rw [hj, List.drop_drop]
      exact h _
    simp [hlen, hnone]

/-- The test succeeds on a part that the term matches at its start, when
`lastIndex` is 0. -/
theorem regexTest_match (term part : List Char) (hpart : part ≠ [])
    (h : matchesAt term part = true) :
    regexTest term 0 part = (true, 0 + utf16Length term) := by
  cases part with
  | nil => exact absurd rfl hpart
  | cons c rest =>
    simp [regexTest, dropUnits, findMatch, h]

/-- Passing the characters of a match first gives the split of what follows
the match. -/
theorem literalSplit_skip (term : List Char) :
    ∀ (text : List Char) (skip : Nat) (acc : List Char), skip ≤ text.length →
      literalSplit term text skip acc = literalSplit term (text.drop skip) 0 acc := by
  intro text
  induction text with
  | nil =>
    intro skip acc h
    have : skip = 0 := by simpa using h
    subst this
    rfl
  | cons c cs ih =>
    intro skip acc h
    cases skip with
    | zero => rfl
    | succ k =>
      simp only [literalSplit, List.drop_succ_cons]
      exact ih k acc (by simpa using h)

/-- A non-empty term does not match at the start of the empty text. -/
theorem matchesAt_nil (term : List Char) (hterm : term ≠ []) : matchesAt term [] = false := by
  cases term with
  | nil => exact absurd rfl hterm
  | cons _ _ => rfl

/-- The term matches at no position of a piece read so far when it matches at
no position of the piece followed by the rest of the text. -/
theorem noMatch_of_piece (term : List Char) (hterm : term ≠ []) (acc rest : List Char)
    (hinv : ∀ j, j < acc.length → matchesAt term (acc.reverse.drop j ++ rest) = false) :
    ∀ j, matchesAt term (acc.reverse.drop j) = false := by
  intro j
  by_cases hj : j < acc.length
  · cases hcase : matchesAt term (acc.reverse.drop j) with
    | false => rfl
    | true =>
      have := matchesAt_append term _ rest hcase
      rw [hinv j hj] at this
      cases this
  · have : acc.reverse.drop j = [] := by
      apply List.drop_eq_nil_of_le
      simp only [List.length_reverse]
      omega
    rw [this]
    exact matchesAt_nil term hterm

/-- The marks `highlightText` gives for a non-empty literal term: a marked
part equals the term in upper case, and the term matches at no position of an
unmarked part.  `acc` is the piece read before `text`, in which no match
starts. -/
theorem markParts_literalSplit (term : List Char) (hterm : term ≠ []) :
    ∀ (n : Nat) (text acc : List Char) (lastIndex : Nat), text.length = n →
      (∀ j, j < acc.length → matchesAt term (acc.reverse.drop j ++ text) = false) →
      ∀ p ∈ markParts term lastIndex (literalSplit term text 0 acc),
        (p.marked = true → p.text.data.map Char.toUpper = term.map Char.toUpper) ∧
        (p.marked = false → ∀ j, matchesAt term (p.text.data.drop j) = false) := by
  intro n
  induction n using Nat.strong_induction_on with
  | _ n ih =>
    intro text acc lastIndex hlen hinv p hp
    cases text with
    | nil =>
      have hpiece := noMatch_of_piece term hterm acc [] hinv
      simp only [literalSplit, markParts, regexTest_none term hterm lastIndex _ hpiece,
        List.mem_singleton] at hp
      subst hp
      exact ⟨fun h => (by cases h), fun _ => hpiece⟩
    | cons c cs =>
      by_cases hm : matchesAt term (c :: cs) = true
      · have hpiece := noMatch_of_piece term hterm acc (c :: cs) hinv
        have hlenle := matchesAt_length term (c :: cs) hm
        have hpos : 1 ≤ term.length := by
          cases term with
          | nil => exact absurd rfl hterm
          | cons _ _ => simp
        have htake : matchesAt term ((c :: cs).take term.length) = true := by
          rw [matchesAt_iff_startsWith, matchesAt_take term (c :: cs) hm]
        have hne : (c :: cs).take term.length ≠ [] := by
          intro h
          have := congrArg List.length h
          simp only [List.length_take, List.length_cons, List.length_nil] at this hlenle
          omega
        simp only [List.length_cons] at hlenle
        simp only [literalSplit, hm, if_true, markParts,
          regexTest_none term hterm lastIndex _ hpiece, regexTest_match term _ hne htake,
          List.mem_cons] at hp
        rcases hp with hp | hp | hp
        · subst hp
          exact ⟨fun h => (by cases h), fun _ => hpiece⟩
        · subst hp
          exact ⟨fun _ => matchesAt_take term (c :: cs) hm, fun h => by cases h⟩
        · rw [literalSplit_skip term cs (term.length - 1) [] (by omega)] at hp
          exact ih (cs.drop (term.length - 1)).length (by
              rw [← hlen]
              simp only [List.length_drop, List.length_cons]
              omega)
            (cs.drop (term.length - 1)) [] _ rfl (by
              intro j hj
              simp at hj) p hp
      · have hm1 : matchesAt term (c :: cs) = false := by simpa using hm
        simp only [literalSplit, hm1, Bool.false_eq_true, if_false] at hp
        refine ih cs.length (by rw [← hlen]; simp) cs (c :: acc) lastIndex rfl ?_ p hp
        intro j hj
        simp only [List.length_cons] at hj
        by_cases hjlt : j < acc.length
        · have := hinv j hjlt
          rw [List.reverse_cons, List.drop_append_of_le_length (by simpa using hjlt.le),
            List.append_assoc]
          exact this
        · have hjeq : j = acc.length := by omega
          subst hjeq
          rw [List.reverse_cons, List.drop_append_of_le_length (by simp)]
          simp only [List.drop_of_length_le (le_of_eq (List.length_reverse acc)),
            List.nil_append, List.singleton_append]
          exact hm1

/-- C21: search terms are highlighted case-insensitively.  For an empty
search term `highlightText` returns the text unchanged.  For a non-empty term
made only of ASCII letters, digits and blanks and every text, it splits the
text into parts that put together in order are the text; the marked parts are
exactly the parts that equal the term ignoring case; and the term occurs,
ignoring case, in no unmarked part, so every occurrence found from the left,
consecutive ones included, is marked. -/
theorem highlightText_marks_occurrences (engine : RegExpEngine) (text term : String) :
    (∀ v : JsVal, highlightText engine v "" = Except.ok (Highlighted.unchanged v)) ∧
    (term ≠ "" → isLiteralTerm term = true →
      ∃ ps : List Part,
        highlightText engine (JsVal.str text) term = Except.ok (Highlighted.parts ps) ∧
        (ps.map (fun p => p.text.data)).flatten = text.data ∧
        (∀ p ∈ ps, p.marked = true ↔
          p.text.data.map Char.toUpper = term.data.map Char.toUpper) ∧
        (∀ p ∈ ps, p.marked = false →
          ¬ term.data.map Char.toUpper <:+: p.text.data.map Char.toUpper)) := by
  constructor
  · intro v
    simp [highlightText]
  · intro hne hlit
    have hdata : term.data ≠ [] := by
      intro h
      apply hne
      cases term
      simp_all
    have hmarks : ∀ p ∈ literalHighlight term text,
        (p.marked = true → p.text.data.map Char.toUpper = term.data.map Char.toUpper) ∧
        (p.marked = false → ∀ j, matchesAt term.data (p.text.data.drop j) = false) :=
      markParts_literalSplit term.data hdata text.data.length text.data [] 0 rfl
        (by
          intro j hj
          simp at hj)
    refine ⟨literalHighlight term text, ?_, literalHighlight_flatten term text hne, ?_, ?_⟩
    · have hq : (term == "") = false := by simpa using hne
      simp [highlightText, hq, hlit]
    · intro p hp
      constructor
      · exact (hmarks p hp).1
      · intro heq
        cases hmarked : p.marked with
        | true => rfl
        | false =>
          have hno := (hmarks p hp).2 hmarked 0
          have hyes : matchesAt term.data (p.text.data.drop 0) = true := by
            rw [List.drop_zero, matchesAt_iff_startsWith, heq]
          rw [hno] at hyes
          cases hyes
    · intro p hp hmarked hinfix
      obtain ⟨s, t, hst⟩ := hinfix
      have hno := (hmarks p hp).2 hmarked s.length
      have hyes : matchesAt term.data (p.text.data.drop s.length) = true := by
        rw [matchesAt_iff_startsWith, List.map_drop, ← hst]
        simp
      rw [hno] at hyes
      cases hyes

/-- Witness of C21: the text `Alice and alice` highlighted for the term
`alice`. -/
theorem highlightText_marks_occurrences_witness :
    ∃ ps : List Part,
      highlightText (fun _ => Except.error ⟨"SyntaxError", "Invalid regular expression"⟩)
        (JsVal.str "Alice and alice") "alice" = Except.ok (Highlighted.parts ps) ∧
      (ps.map (fun p => p.text.data)).flatten = "Alice and alice".data :=
  match (highlightText_marks_occurrences _ "Alice and alice" "alice").2 (by decide)
    (by decide) with
  | ⟨ps, h1, h2, _⟩ => ⟨ps, h1, h2⟩

/-! ## Theorems: `BlockchainView` -/

/-- A sequence of two steps that can throw ends normally exactly when both
steps do. -/
theorem bind_eq_ok_iff {ε α β : Type} (x : Except ε α) (f : α → Except ε β) (b : β) :
    (x >>= f) = Except.ok b ↔ ∃ a, x = Except.ok a ∧ f a = Except.ok b := by
  cases x with
  | error e => simp [bind, Except.bind]
  | ok a => simp [bind, Except.bind]

/-- The details of an expanded block carry the three indicators, whatever
the block holds. -/
theorem renderExpanded_indicators (runtime : RenderRuntime) (block : JsVal)
    (details : ExpandedBlockView)
    (h : BlockchainView.renderExpanded runtime block = Except.ok details) :
    details.indicators = BlockchainView.validationIndicators := by
  simp only [BlockchainView.renderExpanded, bind_eq_ok_iff] at h
  obtain ⟨_, _, _, _, _, _, _, _, _, _, _, _, _, _, _, _, _, _, h⟩ := h
  injection h with h
  rw [← h]

/-- C22 fails on the code: in the chain of a genesis block with hash `00ab`
and a block 1 whose `previous_hash` is `ffff`, `sortedChain` under `desc` shows
block 1 first, and the expanded block 1 shows `Hash Valid`, `Merkle Root Valid`
and `Previous Hash Linked` although its previous hash is not the hash of the
block before it. -/
theorem renderBlock_shows_linked_for_unlinked_block :
    BlockchainView.renderBlock
      ⟨fun _ => "11/14/2023, 10:15:00 PM", fun _ => Except.ok "2023-11-14T22:15:00.000Z",
        fun _ => "7"⟩
      (JsVal.num 1)
      (JsVal.obj [("index", JsVal.num 1), ("timestamp", JsVal.num 1700000100),
        ("transactions", JsVal.arr [JsVal.obj [("data", JsVal.str "Bob sends 5 coins to Charlie")]]),
        ("previous_hash", JsVal.str "ffff"), ("merkle_root", JsVal.str "cd12"),
        ("nonce", JsVal.num 7), ("hash", JsVal.str "00ef")])
      = Except.ok ⟨"🔷 Block #1", "11/14/2023, 10:15:00 PM", "00ef... 📋", "1", "🔼",
          some ⟨"ffff... 📋", "cd12... 📋", "7", "2023-11-14T22:15:00.000Z",
            [⟨"Bob sends 5 coins to Charlie", "#0"⟩],
            ["✅ Hash Valid", "✅ Merkle Root Valid", "✅ Previous Hash Linked"]⟩⟩ ∧
    (BlockchainView.sortedChain
      (JsVal.obj [("chain", JsVal.arr
        [JsVal.obj [("index", JsVal.num 0), ("timestamp", JsVal.num 1700000000),
          ("transactions", JsVal.arr []), ("previous_hash", JsVal.str "0"),
          ("merkle_root", JsVal.str "e3b0"), ("nonce", JsVal.num 0),
          ("hash", JsVal.str "00ab")],
         JsVal.obj [("index", JsVal.num 1), ("timestamp", JsVal.num 1700000100),
          ("transactions",
            JsVal.arr [JsVal.obj [("data", JsVal.str "Bob sends 5 coins to Charlie")]]),
          ("previous_hash", JsVal.str "ffff"), ("merkle_root", JsVal.str "cd12"),
          ("nonce", JsVal.num 7), ("hash", JsVal.str "00ef")]])])
      "desc").map (fun run => run.sortedChain.map
        (fun block => (block.optGet "previous_hash", block.optGet "hash")))
      = some [(JsVal.str "ffff", JsVal.str "00ef"), (JsVal.str "0", JsVal.str "00ab")] ∧
    "ffff" ≠ "00ab" := by
  refine ⟨rfl, rfl, by decide⟩

/-- C22 as amended: whenever a displayed block renders, its details are shown
exactly when it is the expanded block, and the details carry the indicators
`Hash Valid`, `Merkle Root Valid` and `Previous Hash Linked` whatever the hash,
the Merkle root and the previous hash of the block are; the view checks no
chain invariant. -/
theorem renderBlock_indicators_unconditional (runtime : RenderRuntime)
    (expandedBlock block : JsVal) (view : BlockView)
    (h : BlockchainView.renderBlock runtime expandedBlock block = Except.ok view) :
    (∀ index : JsVal, propGet block "index" = Except.ok index →
      (view.expanded.isSome = true ↔ expandedBlock.strictEq index = true)) ∧
    (∀ details : ExpandedBlockView, view.expanded = some details →
      details.indicators
        = ["✅ Hash Valid", "✅ Merkle Root Valid", "✅ Previous Hash Linked"]) := by
  simp only [BlockchainView.renderBlock, bind_eq_ok_iff] at h
  obtain ⟨index, hindex, _, _, _, _, _, _, _, _, _, _, _, _, expanded, hexp, hview⟩ := h
  injection hview with hview
  subst hview
  unfold BlockchainView.renderDetails at hexp
  by_cases hstrict : expandedBlock.strictEq index = true
  · simp only [hstrict, if_true] at hexp
    cases hdet : BlockchainView.renderExpanded runtime block with
    | error e => simp [hdet] at hexp
    | ok details =>
      simp only [hdet, Except.ok.injEq] at hexp
      subst hexp
      constructor
      · intro index1 hindex1
        rw [hindex] at hindex1
        injection hindex1 with hindex1
        subst hindex1
        simp [hstrict]
      · intro details1 hsome
        simp only [Option.some.injEq] at hsome
        subst hsome
        exact renderExpanded_indicators runtime block details hdet
  · simp only [hstrict, Bool.false_eq_true, if_false, Except.ok.injEq] at hexp
    subst hexp
    constructor
    · intro index1 hindex1
      rw [hindex] at hindex1
      injection hindex1 with hindex1
      subst hindex1
      simp [hstrict]
    · intro details1 hsome
      cases hsome

/-- Witness of C22 as amended: the details of the expanded block 1 of the
counterexample carry the three indicators. -/
theorem renderBlock_indicators_unconditional_witness :
    (⟨"ffff... 📋", "cd12... 📋", "7", "2023-11-14T22:15:00.000Z",
      [⟨"Bob sends 5 coins to Charlie", "#0"⟩],
      ["✅ Hash Valid", "✅ Merkle Root Valid", "✅ Previous Hash Linked"]⟩ :
        ExpandedBlockView).indicators
      = ["✅ Hash Valid", "✅ Merkle Root Valid", "✅ Previous Hash Linked"] :=
  (renderBlock_indicators_unconditional
    ⟨fun _ => "11/14/2023, 10:15:00 PM", fun _ => Except.ok "2023-11-14T22:15:00.000Z",
      fun _ => "7"⟩
    (JsVal.num 1)
    (JsVal.obj [("index", JsVal.num 1), ("timestamp", JsVal.num 1700000100),
      ("transactions", JsVal.arr [JsVal.obj [("data", JsVal.str "Bob sends 5 coins to Charlie")]]),
      ("previous_hash", JsVal.str "ffff"), ("merkle_root", JsVal.str "cd12"),
      ("nonce", JsVal.num 7), ("hash", JsVal.str "00ef")])
    ⟨"🔷 Block #1", "11/14/2023, 10:15:00 PM", "00ef... 📋", "1", "🔼",
      some ⟨"ffff... 📋", "cd12... 📋", "7", "2023-11-14T22:15:00.000Z",
        [⟨"Bob sends 5 coins to Charlie", "#0"⟩],
        ["✅ Hash Valid", "✅ Merkle Root Valid", "✅ Previous Hash Linked"]⟩⟩
    rfl).2 _ rfl

/-- Inserting an item gives a permutation of the item put in front. -/
theorem sortInsert_perm {α : Type} (compare : α → α → Int) (x : α) (l : List α) :
    (sortInsert compare x l).Perm (x :: l) := by
  induction l with
  | nil => exact List.Perm.refl _
  | cons y rest ih =>
    simp only [sortInsert]
    split
    · exact List.Perm.refl _
    · exact (List.Perm.cons y ih).trans (List.Perm.swap x y rest)

/-- The sort gives a permutation of its input. -/
theorem stableSort_perm {α : Type} (compare : α → α → Int) (l : List α) :
    (stableSort compare l).Perm l := by
  induction l with
  | nil => exact List.Perm.refl _
  | cons x rest ih =>
    exact (sortInsert_perm compare x _).trans (List.Perm.cons x ih)

/-- Inserting into a list in order keeps it in order, for a comparator that
is total and transitive. -/
theorem sortInsert_pairwise {α : Type} (compare : α → α → Int)
    (htotal : ∀ a b, compare a b ≤ 0 ∨ compare b a ≤ 0)
    (htrans : ∀ a b c, compare a b ≤ 0 → compare b c ≤ 0 → compare a c ≤ 0)
    (x : α) (l : List α) (hl : l.Pairwise (fun a b => compare a b ≤ 0)) :
    (sortInsert compare x l).Pairwise (fun a b => compare a b ≤ 0) := by
  induction l with
  | nil => simp [sortInsert]
  | cons y rest ih =>
    have hy := List.pairwise_cons.mp hl
    simp only [sortInsert]
    split
    · rename_i hxy
      refine List.pairwise_cons.mpr ⟨?_, hl⟩
      intro z hz
      rcases List.mem_cons.mp hz with h | h
      · rw [h]
        exact hxy
      · exact htrans x y z hxy (hy.1 z h)
    · rename_i hxy
      refine List.pairwise_cons.mpr ⟨?_, ih hy.2⟩
      intro z hz
      have hz1 := (sortInsert_perm compare x rest).subset hz
      rcases List.mem_cons.mp hz1 with h | h
      · rw [h]
        rcases htotal x y with h1 | h1
        · exact absurd h1 hxy
        · exact h1
      · exact hy.1 z h

/-- The sort puts its input in order, for a comparator that is total and
transitive. -/
theorem stableSort_pairwise {α : Type} (compare : α → α → Int)
    (htotal : ∀ a b, compare a b ≤ 0 ∨ compare b a ≤ 0)
    (htrans : ∀ a b c, compare a b ≤ 0 → compare b c ≤ 0 → compare a c ≤ 0)
    (l : List α) : (stableSort compare l).Pairwise (fun a b => compare a b ≤ 0) := by
  induction l with
  | nil => simp [stableSort]
  | cons x rest ih => exact sortInsert_pairwise compare htotal htrans x _ ih

/-- The sort leaves a list that is in order as it is. -/
theorem stableSort_of_pairwise {α : Type} (compare : α → α → Int) (l : List α)
    (hl : l.Pairwise (fun a b => compare a b ≤ 0)) : stableSort compare l = l := by
  induction l with
  | nil => rfl
  | cons x rest ih =>
    have hx := List.pairwise_cons.mp hl
    simp only [stableSort, ih hx.2]
    cases rest with
    | nil => rfl
    | cons y tail => simp [sortInsert, hx.1 y (List.mem_cons_self _ _)]

/-- An item that the comparator puts after every item of a list is inserted
at its end. -/
theorem sortInsert_last {α : Type} (compare : α → α → Int) (x : α) (l : List α)
    (hl : ∀ y ∈ l, ¬ compare x y ≤ 0) : sortInsert compare x l = l ++ [x] := by
  induction l with
  | nil => rfl
  | cons y rest ih =>
    simp only [sortInsert, hl y (List.mem_cons_self _ _), if_false, List.cons_append]
    rw [ih (fun z hz => hl z (List.mem_cons_of_mem _ hz))]

/-- The sort reverses a list in which the comparator puts every item after
all the items that follow it. -/
theorem stableSort_reverse {α : Type} (compare : α → α → Int) (l : List α)
    (hl : l.Pairwise (fun a b => ¬ compare a b ≤ 0)) : stableSort compare l = l.reverse := by
  induction l with
  | nil => rfl
  | cons x rest ih =>
    have hx := List.pairwise_cons.mp hl
    simp only [stableSort, ih hx.2, List.reverse_cons]
    exact sortInsert_last compare x _ (fun y hy => hx.1 y (List.mem_reverse.mp hy))

/-- C23: for every chain of blocks with numeric indices, `sortedChain` is a
permutation of the blocks of the chain, in order of non-decreasing index
under `asc` and of non-increasing index under `desc`, and the chain passed in
is left in its order; for a chain whose `i`-th block has index `i`, `asc` gives
the chain itself and `desc` its reverse. -/
theorem sortedChain_sorted_permutation (fields : JsObject) (chain : List JsVal)
    (hchain : JsObject.get fields "chain" = JsVal.arr chain)
    (hindex : ∀ block ∈ chain, (BlockchainView.indexOf block).isSome = true) :
    ∃ asc desc : SortedChainRun,
      BlockchainView.sortedChain (JsVal.obj fields) "asc" = some asc ∧
      BlockchainView.sortedChain (JsVal.obj fields) "desc" = some desc ∧
      asc.chain = chain ∧ desc.chain = chain ∧
      asc.sortedChain.Perm chain ∧ desc.sortedChain.Perm chain ∧
      asc.sortedChain.Pairwise (fun a b =>
        (BlockchainView.indexOf a).getD 0 ≤ (BlockchainView.indexOf b).getD 0) ∧
      desc.sortedChain.Pairwise (fun a b =>
        (BlockchainView.indexOf b).getD 0 ≤ (BlockchainView.indexOf a).getD 0) ∧
      ((∀ (i : Nat) (block : JsVal), chain[i]? = some block →
          BlockchainView.indexOf block = some (i : Int)) →
        asc.sortedChain = chain ∧ desc.sortedChain = chain.reverse) := by
  have hall : chain.all (fun block => (BlockchainView.indexOf block).isSome) = true := by
    rw [List.all_eq_true]
    exact hindex
  have hasc : ("asc" == "desc") = false := by decide
  have hdesc : ("desc" == "desc") = true := by decide
  refine ⟨⟨stableSort (fun a b => BlockchainView.compareIndex "asc"
      ((BlockchainView.indexOf a).getD 0) ((BlockchainView.indexOf b).getD 0)) chain, chain⟩,
    ⟨stableSort (fun a b => BlockchainView.compareIndex "desc"
      ((BlockchainView.indexOf a).getD 0) ((BlockchainView.indexOf b).getD 0)) chain, chain⟩,
    ?_, ?_, rfl, rfl, stableSort_perm _ _, stableSort_perm _ _, ?_, ?_, ?_⟩
  · simp [BlockchainView.sortedChain, JsVal.optGet, hchain, hall, arraySort]
  · simp [BlockchainView.sortedChain, JsVal.optGet, hchain, hall, arraySort]
  · have h := stableSort_pairwise (fun a b => BlockchainView.compareIndex "asc"
        ((BlockchainView.indexOf a).getD 0) ((BlockchainView.indexOf b).getD 0))
      (by
        intro a b
        simp only [BlockchainView.compareIndex, hasc, Bool.false_eq_true, if_false]
        omega)
      (by
        intro a b c
        simp only [BlockchainView.compareIndex, hasc, Bool.false_eq_true, if_false]
        omega) chain
    refine h.imp ?_
    intro a b hab
    simp only [BlockchainView.compareIndex, hasc, Bool.false_eq_true, if_false] at hab
    omega
  · have h := stableSort_pairwise (fun a b => BlockchainView.compareIndex "desc"
        ((BlockchainView.indexOf a).getD 0) ((BlockchainView.indexOf b).getD 0))
      (by
        intro a b
        simp only [BlockchainView.compareIndex, hdesc, if_true]
        omega)
      (by
        intro a b c
        simp only [BlockchainView.compareIndex, hdesc, if_true]
        omega) chain
    refine h.imp ?_
    intro a b hab
    simp only [BlockchainView.compareIndex, hdesc, if_true] at hab
    omega
  · intro hpos
    have hkey : ∀ (i : Nat) (hi : i < chain.length),
        (BlockchainView.indexOf chain[i]).getD 0 = (i : Int) := by
      intro i hi
      rw [hpos i chain[i] (List.getElem?_eq_getElem hi)]
      rfl
    constructor
    · apply stableSort_of_pairwise
      rw [List.pairwise_iff_getElem]
      intro i j hi hj hij
      simp only [BlockchainView.compareIndex, hasc, Bool.false_eq_true, if_false, hkey i hi,
        hkey j hj]
      omega
    · apply stableSort_reverse
      rw [List.pairwise_iff_getElem]
      intro i j hi hj hij
      simp only [BlockchainView.compareIndex, hdesc, if_true, hkey i hi, hkey j hj]
      omega

/-- Witness of C23: a chain of three blocks with the indices 0, 1 and 2. -/
theorem sortedChain_sorted_permutation_witness :
    ∃ asc desc : SortedChainRun,
      BlockchainView.sortedChain
        (JsVal.obj [("chain", JsVal.arr [JsVal.obj [("index", JsVal.num 0)],
          JsVal.obj [("index", JsVal.num 1)], JsVal.obj [("index", JsVal.num 2)]])])
        "asc" = some asc ∧
      BlockchainView.sortedChain
        (JsVal.obj [("chain", JsVal.arr [JsVal.obj [("index", JsVal.num 0)],
          JsVal.obj [("index", JsVal.num 1)], JsVal.obj [("index", JsVal.num 2)]])])
        "desc" = some desc ∧
      asc.sortedChain = [JsVal.obj [("index", JsVal.num 0)],
        JsVal.obj [("index", JsVal.num 1)], JsVal.obj [("index", JsVal.num 2)]] ∧
      desc.sortedChain = [JsVal.obj [("index", JsVal.num 0)],
        JsVal.obj [("index", JsVal.num 1)], JsVal.obj [("index", JsVal.num 2)]].reverse :=
  match sortedChain_sorted_permutation
    [("chain", JsVal.arr [JsVal.obj [("index", JsVal.num 0)],
      JsVal.obj [("index", JsVal.num 1)], JsVal.obj [("index", JsVal.num 2)]])]
    [JsVal.obj [("index", JsVal.num 0)], JsVal.obj [("index", JsVal.num 1)],
      JsVal.obj [("index", JsVal.num 2)]]
    rfl
    (by
      intro block hblock
      simp only [List.mem_cons, List.mem_singleton, List.not_mem_nil, or_false] at hblock
      rcases hblock with h | h | h <;> subst h <;> rfl) with
  | ⟨asc, desc, h1, h2, _, _, _, _, _, _, h3⟩ =>
    ⟨asc, desc, h1, h2, h3 (by
      intro i block hi
      match i, hi with
      | 0, hi =>
        simp only [List.getElem?_cons_zero, Option.some.injEq] at hi
        subst hi
        rfl
      | 1, hi =>
        simp only [List.getElem?_cons_succ, List.getElem?_cons_zero, Option.some.injEq] at hi
        subst hi
        rfl
      | 2, hi =>
        simp only [List.getElem?_cons_succ, List.getElem?_cons_zero, Option.some.injEq] at hi
        subst hi
        rfl
      | n + 3, hi => simp at hi)⟩

end AreenBlockchain
